import Mathlib

/-!
A shallow embedding of `src/compiler/persistent-map.h` (the `PersistentMap`
hash-tree data structure) together with proofs of the specified properties.

Modelling conventions:
* `HashValue` (a `std::bitset<32>` wrapped around the hasher's output) is a
  `Nat` that is reduced modulo `2 ^ 32` at construction; `hashBit` is the
  MSB-first bit access of `HashValue::operator[]`.
* `FocusedTree*` pointers are `Option FocusedTree`; `nullptr` is `none`.
* The `ZoneMap<Key, Value>` collision bucket (a key-ordered map) is a
  key-sorted association list; the zone allocator itself is not modelled,
  allocation is pure construction.
* C++ overload pairs get distinct Lean names (`FindHash` / `FindHashPath`).
-/

namespace V8

variable {K V : Type}

/-- C++ `kHashBits = 32`. -/
def kHashBits : Nat := 32

/-- C++ `HashValue::operator[]`: MSB-first bit access, `bits_[kHashBits - pos - 1]`.
`true` models `kRight`, `false` models `kLeft`. -/
def hashBit (h : Nat) (pos : Nat) : Bool := h.testBit (31 - pos)

/-- Helper for `firstDiffFrom`, structurally recursive on the number of
remaining bit positions so that it reduces in the kernel. -/
def firstDiffAux : Nat → Nat → Nat → Nat
  | 0, _, level => level
  | rem + 1, x, level => if hashBit x level then level else firstDiffAux rem x (level + 1)

/-- The inner loop of `PersistentMap::FindHash`:
`while ((hash ^ tree->key_hash)[level] == 0) ++level;` returns the first
position `≥ level` with a set bit of `x`. The C++ loop relies on such a
position existing below 32; the total model returns 32 when there is none
(never reached from well-formed trees, as proved below). -/
def firstDiffFrom (x : Nat) (level : Nat) : Nat :=
  firstDiffAux (32 - level) x level

/-- C++ `PersistentMap::FocusedTree`: the focused key-value pair `key_value`,
its 32-bit hash `key_hash`, the optional collision bucket `more`, and the
side-pointer array `path_array` (entry `i` is `path(i)`, `nullptr` is
`none`).  The C++ `length` field is the length of `path`. -/
inductive FocusedTree (K V : Type) : Type where
  | mk (key_value : K × V) (key_hash : Nat) (more : Option (List (K × V)))
      (path : List (Option (FocusedTree K V)))

/-- The focused key-value pair of a node (C++ `key_value`). -/
def FocusedTree.key_value : FocusedTree K V → K × V
  | .mk kv _ _ _ => kv

/-- The hash of the focused key (C++ `key_hash`). -/
def FocusedTree.key_hash : FocusedTree K V → Nat
  | .mk _ h _ _ => h

/-- The collision bucket of a node (C++ `more`). -/
def FocusedTree.more : FocusedTree K V → Option (List (K × V))
  | .mk _ _ m _ => m

/-- The side-pointer array of a node (C++ `path_array`). -/
def FocusedTree.path : FocusedTree K V → List (Option (FocusedTree K V))
  | .mk _ _ _ p => p

/-- C++ `length`: the number of side pointers stored in the node. -/
def FocusedTree.length (t : FocusedTree K V) : Nat := t.path.length

/-- C++ `path(i)`: the side pointer at level `i`. -/
def FocusedTree.pathAt (t : FocusedTree K V) (i : Nat) : Option (FocusedTree K V) :=
  t.path.getD i none

@[simp] theorem FocusedTree.key_value_mk (kv : K × V) (h : Nat)
    (m : Option (List (K × V))) (p : List (Option (FocusedTree K V))) :
    (FocusedTree.mk kv h m p).key_value = kv := rfl

@[simp] theorem FocusedTree.key_hash_mk (kv : K × V) (h : Nat)
    (m : Option (List (K × V))) (p : List (Option (FocusedTree K V))) :
    (FocusedTree.mk kv h m p).key_hash = h := rfl

@[simp] theorem FocusedTree.more_mk (kv : K × V) (h : Nat)
    (m : Option (List (K × V))) (p : List (Option (FocusedTree K V))) :
    (FocusedTree.mk kv h m p).more = m := rfl

@[simp] theorem FocusedTree.path_mk (kv : K × V) (h : Nat)
    (m : Option (List (K × V))) (p : List (Option (FocusedTree K V))) :
    (FocusedTree.mk kv h m p).path = p := rfl

@[simp] theorem FocusedTree.length_mk (kv : K × V) (h : Nat)
    (m : Option (List (K × V))) (p : List (Option (FocusedTree K V))) :
    (FocusedTree.mk kv h m p).length = p.length := rfl

@[simp] theorem FocusedTree.pathAt_mk (kv : K × V) (h : Nat)
    (m : Option (List (K × V))) (p : List (Option (FocusedTree K V))) (i : Nat) :
    (FocusedTree.mk kv h m p).pathAt i = p.getD i none := rfl

theorem getD_eq_pathAt (t : FocusedTree K V) (i : Nat) :
    t.path.getD i none = t.pathAt i := rfl

theorem sizeOf_lt_of_pathAt {t : FocusedTree K V} {i : Nat} {c : FocusedTree K V}
    (h : t.pathAt i = some c) : sizeOf c < sizeOf t := by
  have hmem : some c ∈ t.path := by
    unfold FocusedTree.pathAt at h
    rw [List.getD_eq_getElem?_getD] at h
    match he : t.path[i]? with
    | none => rw [he] at h; simp at h
    | some o =>
      rw [he] at h
      simp at h
      subst h
      exact List.getElem?_mem he
  have h1 : sizeOf (some c) < sizeOf t.path := List.sizeOf_lt_of_mem hmem
  match t with
  | .mk kv kh m p =>
    simp only [FocusedTree.path] at h1
    simp only [FocusedTree.mk.sizeOf_spec, Option.some.sizeOf_spec] at *
    omega

variable [LinearOrder K] [DecidableEq V]

/-- C++ `ZoneMap::find` on the collision bucket: association-list lookup. -/
def bucketFind (l : List (K × V)) (k : K) : Option V :=
  match l with
  | [] => none
  | (k', v') :: rest => if k = k' then some v' else bucketFind rest k

/-- C++ `(*more)[key] = value` on the collision bucket: ordered-map insert
or overwrite, keeping the association list sorted by key. -/
def bucketInsert (l : List (K × V)) (k : K) (v : V) : List (K × V) :=
  match l with
  | [] => [(k, v)]
  | (k', v') :: rest =>
    if k < k' then (k, v) :: (k', v') :: rest
    else if k = k' then (k, v) :: rest
    else (k', v') :: bucketInsert rest k v

/-- C++ `PersistentMap::FindHash(HashValue hash)` (the non-recording
overload), walking from node `t` at bit level `level`.  The first argument
is recursion fuel, making the definition kernel-computable; every step
strictly increases `level`, which stays below 32 on well-formed trees, so
fuel 33 makes the model agree with the C++ loop (see the wrapper below). -/
def FindHash : Nat → Nat → FocusedTree K V → Nat → Option (FocusedTree K V)
  | 0, _, _, _ => none
  | fuel + 1, h, t, level =>
    if h = t.key_hash then some t
    else
      if firstDiffFrom (h ^^^ t.key_hash) level < t.length then
        match t.pathAt (firstDiffFrom (h ^^^ t.key_hash) level) with
        | none => none
        | some c => FindHash fuel h c (firstDiffFrom (h ^^^ t.key_hash) level + 1)
      else none

/-- The entries recorded by C++ `FindHash(hash, path, length)` during the
inner loop over levels `[level, d)`: `(*path)[i] = i < map_length ?
tree->path(i) : nullptr`. -/
def recordSeg (t : FocusedTree K V) (level d : Nat) : List (Option (FocusedTree K V)) :=
  (List.range' level (d - level)).map (fun i => if i < t.length then t.pathAt i else none)

/-- C++ `PersistentMap::FindHash(hash, path, length)` (the recording
overload) from node `t` at level `level`: the found node (or `none`)
together with the entries recorded into `(*path)[level .. *length)`.
Fuel as in `FindHash`. -/
def FindHashPath : Nat → Nat → FocusedTree K V → Nat →
    Option (FocusedTree K V) × List (Option (FocusedTree K V))
  | 0, _, _, _ => (none, [])
  | fuel + 1, h, t, level =>
    if h = t.key_hash then (some t, t.path.drop level)
    else
      if firstDiffFrom (h ^^^ t.key_hash) level < t.length then
        match t.pathAt (firstDiffFrom (h ^^^ t.key_hash) level) with
        | none => (none, recordSeg t level (firstDiffFrom (h ^^^ t.key_hash) level) ++ [some t])
        | some c =>
          ((FindHashPath fuel h c (firstDiffFrom (h ^^^ t.key_hash) level + 1)).1,
            recordSeg t level (firstDiffFrom (h ^^^ t.key_hash) level) ++
              some t :: (FindHashPath fuel h c (firstDiffFrom (h ^^^ t.key_hash) level + 1)).2)
      else (none, recordSeg t level (firstDiffFrom (h ^^^ t.key_hash) level) ++ [some t])

/-- C++ `PersistentMap::GetFocusedValue`. -/
def GetFocusedValue (dv : V) (tree : Option (FocusedTree K V)) (k : K) : V :=
  match tree with
  | none => dv
  | some t =>
    match t.more with
    | some mm =>
      match bucketFind mm k with
      | none => dv
      | some v => v
    | none => if k = t.key_value.1 then t.key_value.2 else dv

/-- A C++ `PersistentMap` handle: root pointer `tree_` and default value
`def_value_`. The `Zone*` member is not modelled (allocation is pure). -/
structure PersistentMap (K V : Type) where
  tree : Option (FocusedTree K V)
  defVal : V

variable (hashF : K → Nat)

/-- C++ `HashValue(Hasher()(key))`: the hasher's output truncated to 32 bits
by `std::bitset<kHashBits>`. -/
def hashOf (k : K) : Nat := hashF k % 2 ^ 32

/-- Fuel sufficient for every hash-directed traversal: the level strictly
increases at each step and never exceeds 32. -/
def hashFuel : Nat := 33

/-- C++ `PersistentMap::FindHash(hash)` from the root `tree_`. -/
def PersistentMap.findHash (m : PersistentMap K V) (h : Nat) : Option (FocusedTree K V) :=
  match m.tree with
  | none => none
  | some t => FindHash hashFuel h t 0

/-- C++ `PersistentMap::FindHash(hash, &path, &length)` from the root:
result plus the full recorded path `path[0 .. length)`. -/
def PersistentMap.findHashPath (m : PersistentMap K V) (h : Nat) :
    Option (FocusedTree K V) × List (Option (FocusedTree K V)) :=
  match m.tree with
  | none => (none, [])
  | some t => FindHashPath hashFuel h t 0

/-- C++ `PersistentMap::Get`. -/
def PersistentMap.Get (m : PersistentMap K V) (k : K) : V :=
  GetFocusedValue m.defVal (m.findHash (hashOf hashF k)) k

/-- C++ `PersistentMap::Add`. -/
def PersistentMap.Add (m : PersistentMap K V) (k : K) (v : V) : PersistentMap K V :=
  let h := hashOf hashF k
  let fp := m.findHashPath h
  let old := fp.1
  if GetFocusedValue m.defVal old k = v then m
  else
    let more : Option (List (K × V)) :=
      match old with
      | none => none
      | some o =>
        match o.more with
        | some mm => some (bucketInsert mm k v)
        | none =>
          if o.key_value.1 = k then none
          else some (bucketInsert [(o.key_value.1, o.key_value.2)] k v)
    { tree := some (FocusedTree.mk (k, v) h more fp.2), defVal := m.defVal }

/-- C++ `PersistentMap(Zone*, Value)`: the everywhere-default map. -/
def PersistentMap.empty (dv : V) : PersistentMap K V := { tree := none, defVal := dv }

theorem FindHash_eq_findHashPath_fst (fuel h : Nat) (t : FocusedTree K V) (level : Nat) :
    FindHash fuel h t level = (FindHashPath fuel h t level).1 := by
  induction fuel generalizing t level with
  | zero => rfl
  | succ fuel ih =>
    rw [FindHash, FindHashPath]
    split
    · rfl
    · split
      · split
        · rfl
        · exact ih _ _
      · rfl

theorem PersistentMap.findHash_eq (m : PersistentMap K V) (h : Nat) :
    m.findHash h = (m.findHashPath h).1 := by
  unfold PersistentMap.findHash PersistentMap.findHashPath
  match m.tree with
  | none => rfl
  | some t => exact FindHash_eq_findHashPath_fst hashFuel h t 0

theorem bucketFind_bucketInsert_self (l : List (K × V)) (k : K) (v : V) :
    bucketFind (bucketInsert l k v) k = some v := by
  induction l with
  | nil => simp [bucketInsert, bucketFind]
  | cons hd rest ih =>
    obtain ⟨k', v'⟩ := hd
    unfold bucketInsert
    split
    · simp [bucketFind]
    · split
      · simp [bucketFind]
      · rename_i hlt heq
        unfold bucketFind
        rw [if_neg (fun hkk => heq (by exact hkk))]
        exact ih

theorem bucketFind_bucketInsert_ne (l : List (K × V)) (k k2 : K) (v : V) (hne : k2 ≠ k) :
    bucketFind (bucketInsert l k v) k2 = bucketFind l k2 := by
  induction l with
  | nil => simp [bucketInsert, bucketFind, hne]
  | cons hd rest ih =>
    obtain ⟨k', v'⟩ := hd
    unfold bucketInsert
    split
    · simp only [bucketFind, if_neg hne]
    · split
      · rename_i hlt heq
        subst heq
        simp only [bucketFind, if_neg hne]
      · unfold bucketFind
        split
        · rfl
        · exact ih

theorem GetFocusedValue_mk_self (dv : V) (k : K) (v : V) (h : Nat)
    (more : Option (List (K × V))) (path : List (Option (FocusedTree K V)))
    (hm : more = none ∨ ∃ l, more = some (bucketInsert l k v)) :
    GetFocusedValue dv (some (FocusedTree.mk (k, v) h more path)) k = v := by
  rcases hm with hm | ⟨l, hm⟩ <;> subst hm <;>
    simp [GetFocusedValue, bucketFind_bucketInsert_self]

theorem Get_Add_self (m : PersistentMap K V) (k : K) (v : V) :
    (m.Add hashF k v).Get hashF k = v := by
  unfold PersistentMap.Add
  simp only
  split
  · rename_i hsc
    unfold PersistentMap.Get
    rw [PersistentMap.findHash_eq]
    exact hsc
  · unfold PersistentMap.Get PersistentMap.findHash
    simp only
    show GetFocusedValue _ (FindHash hashFuel _ _ _) _ = _
    rw [hashFuel, FindHash]
    rw [if_pos (by simp)]
    apply GetFocusedValue_mk_self
    split
    · exact Or.inl rfl
    · split
      · exact Or.inr ⟨_, rfl⟩
      · split
        · exact Or.inl rfl
        · exact Or.inr ⟨_, rfl⟩

/-- C1: for every map `m`, key `k` and value `v`, `Get` on the map returned
by `Add(k, v)` returns `v`: `m.Add(k, v).Get(k) == v`. -/
theorem C1_get_after_add (m : PersistentMap K V) (k : K) (v : V) :
    (m.Add hashF k v).Get hashF k = v :=
  Get_Add_self hashF m k v

/-- C2: persistence. In this pure embedding `Add` constructs a new handle
and cannot mutate `m₁`; the theorem expresses the observable content of the
claim: with `w` the value bound in `m₁` before the `Add` and `v ≠ w`, the
new handle returns `v` at `k` while the old handle still returns `w`. -/
theorem C2_persistence (m1 : PersistentMap K V) (k : K) (v w : V)
    (hw : m1.Get hashF k = w) (hv : v ≠ w) :
    (m1.Add hashF k v).Get hashF k = v ∧ m1.Get hashF k = w :=
  ⟨Get_Add_self hashF m1 k v, hw⟩

theorem Add_same_value_eq (m : PersistentMap K V) (k : K) (v : V)
    (h : m.Get hashF k = v) : m.Add hashF k v = m := by
  unfold PersistentMap.Add
  simp only
  rw [if_pos]
  unfold PersistentMap.Get at h
  rw [PersistentMap.findHash_eq] at h
  exact h

/-- C5: no-op insert short-circuit. If `m`'s currently bound value for `k`
equals `v`, then `m.Add(k, v)` returns a handle with the same root pointer
as `m`; consequently `m.Add(k, v).Add(k, v)` has the same root pointer as
`m.Add(k, v)`. -/
theorem C5_noop_insert (m : PersistentMap K V) (k : K) (v : V) :
    (m.Get hashF k = v → (m.Add hashF k v).tree = m.tree) ∧
    ((m.Add hashF k v).Add hashF k v).tree = (m.Add hashF k v).tree :=
  ⟨fun h => by rw [Add_same_value_eq hashF m k v h],
   by rw [Add_same_value_eq hashF (m.Add hashF k v) k v (Get_Add_self hashF m k v)]⟩

/-! ### Bit-level facts about `hashBit` and `firstDiffFrom` -/

/-- Agreement of two hashes on every bit position below `n` (MSB-first). -/
def AgreeBelow (h1 h2 : Nat) (n : Nat) : Prop := ∀ j < n, hashBit h1 j = hashBit h2 j

theorem hashBit_xor (a b p : Nat) : hashBit (a ^^^ b) p = ((hashBit a p).xor (hashBit b p)) := by
  unfold hashBit
  exact Nat.testBit_xor a b (31 - p)

theorem hashBit_xor_eq_false (a b p : Nat) :
    hashBit (a ^^^ b) p = false ↔ hashBit a p = hashBit b p := by
  rw [hashBit_xor]
  cases hashBit a p <;> cases hashBit b p <;> simp

theorem eq_of_agreeBelow32 {h1 h2 : Nat} (hl1 : h1 < 2 ^ 32) (hl2 : h2 < 2 ^ 32)
    (hag : AgreeBelow h1 h2 32) : h1 = h2 := by
  apply Nat.eq_of_testBit_eq
  intro i
  by_cases hi : i < 32
  · have := hag (31 - i) (by omega)
    unfold hashBit at this
    rwa [show 31 - (31 - i) = i by omega] at this
  · have hpow : (2 : Nat) ^ 32 ≤ 2 ^ i := Nat.pow_le_pow_right (by norm_num) (by omega)
    rw [Nat.testBit_lt_two_pow (lt_of_lt_of_le hl1 hpow),
      Nat.testBit_lt_two_pow (lt_of_lt_of_le hl2 hpow)]

theorem firstDiffAux_spec (rem x level : Nat) :
    level ≤ firstDiffAux rem x level ∧ firstDiffAux rem x level ≤ level + rem ∧
    (∀ j, level ≤ j → j < firstDiffAux rem x level → hashBit x j = false) ∧
    (firstDiffAux rem x level < level + rem → hashBit x (firstDiffAux rem x level) = true) := by
  induction rem generalizing level with
  | zero =>
    simp only [firstDiffAux]
    exact ⟨le_refl _, by omega, fun j hj1 hj2 => by omega, fun h => by omega⟩
  | succ rem ih =>
    rw [firstDiffAux]
    split
    · exact ⟨le_refl _, by omega, fun j hj1 hj2 => by omega, fun _ => by assumption⟩
    · rename_i hbit
      obtain ⟨h1, h2, h3, h4⟩ := ih (level + 1)
      refine ⟨by omega, by omega, ?_, fun h => h4 (by omega)⟩
      intro j hj1 hj2
      rcases eq_or_lt_of_le hj1 with rfl | hlt
      · simpa using hbit
      · exact h3 j (by omega) hj2

theorem firstDiffFrom_spec (x level : Nat) (hlev : level ≤ 32) :
    level ≤ firstDiffFrom x level ∧ firstDiffFrom x level ≤ 32 ∧
    (∀ j, level ≤ j → j < firstDiffFrom x level → hashBit x j = false) ∧
    (firstDiffFrom x level < 32 → hashBit x (firstDiffFrom x level) = true) := by
  have := firstDiffAux_spec (32 - level) x level
  unfold firstDiffFrom
  refine ⟨this.1, by omega, this.2.2.1, fun h => this.2.2.2 (by omega)⟩

/-- On well-formed inputs (`x` a nonzero XOR of two 32-bit hashes whose bits
below `level` agree), the C++ inner loop finds a real differing bit. -/
theorem firstDiffFrom_lt32 (x level : Nat) (hx : x ≠ 0) (hxlt : x < 2 ^ 32)
    (hlow : ∀ j < level, hashBit x j = false) (hlev : level ≤ 32) :
    firstDiffFrom x level < 32 := by
  obtain ⟨i, hi⟩ := Nat.ne_zero_implies_bit_true hx
  have hi32 : i < 32 := by
    by_contra hge
    rw [Nat.testBit_lt_two_pow (lt_of_lt_of_le hxlt
      (Nat.pow_le_pow_right (by norm_num) (by omega)))] at hi
    exact Bool.false_ne_true hi
  have hp0 : hashBit x (31 - i) = true := by
    unfold hashBit
    rwa [show 31 - (31 - i) = i by omega]
  have hp0ge : level ≤ 31 - i := by
    by_contra hlt
    rw [hlow (31 - i) (by omega)] at hp0
    exact Bool.false_ne_true hp0
  obtain ⟨h1, h2, h3, _⟩ := firstDiffFrom_spec x level hlev
  by_contra hge
  have : hashBit x (31 - i) = false := h3 (31 - i) hp0ge (by omega)
  rw [this] at hp0
  exact Bool.false_ne_true hp0

/-- One traversal step of `FindHash`: with `h ≠ key_hash` and agreement below
`level`, the divergence level `d` satisfies `level ≤ d < 32`, the two hashes
agree below `d` and differ at `d`. -/
theorem firstDiff_step {h kh : Nat} (level : Nat) (hne : h ≠ kh) (hh : h < 2 ^ 32)
    (hkh : kh < 2 ^ 32) (hag : AgreeBelow h kh level) (hlev : level ≤ 32) :
    level ≤ firstDiffFrom (h ^^^ kh) level ∧ firstDiffFrom (h ^^^ kh) level < 32 ∧
    AgreeBelow h kh (firstDiffFrom (h ^^^ kh) level) ∧
    hashBit h (firstDiffFrom (h ^^^ kh) level) ≠ hashBit kh (firstDiffFrom (h ^^^ kh) level) := by
  have hx : h ^^^ kh ≠ 0 := fun h0 => hne (Nat.xor_eq_zero.mp h0)
  have hxlt : h ^^^ kh < 2 ^ 32 := Nat.xor_lt_two_pow hh hkh
  have hlow : ∀ j < level, hashBit (h ^^^ kh) j = false :=
    fun j hj => (hashBit_xor_eq_false h kh j).mpr (hag j hj)
  have hd32 := firstDiffFrom_lt32 (h ^^^ kh) level hx hxlt hlow hlev
  obtain ⟨h1, h2, h3, h4⟩ := firstDiffFrom_spec (h ^^^ kh) level hlev
  refine ⟨h1, hd32, ?_, ?_⟩
  · intro j hj
    by_cases hjl : j < level
    · exact hag j hjl
    · exact (hashBit_xor_eq_false h kh j).mp (h3 j (by omega) hj)
  · intro heq
    have := (hashBit_xor_eq_false h kh _).mpr heq
    rw [h4 hd32] at this
    simp at this

/-- If the bits of `x` are all clear on `[l1, l2)`, the first set position
from `l1` equals the one from `l2`. -/
theorem firstDiffFrom_shift (x l1 l2 : Nat) (hle : l1 ≤ l2) (hl2 : l2 ≤ 32)
    (hfalse : ∀ j, l1 ≤ j → j < l2 → hashBit x j = false) :
    firstDiffFrom x l1 = firstDiffFrom x l2 := by
  obtain ⟨a1, a2, a3, a4⟩ := firstDiffFrom_spec x l1 (le_trans hle hl2)
  obtain ⟨b1, b2, b3, b4⟩ := firstDiffFrom_spec x l2 hl2
  by_contra hne
  rcases lt_or_gt_of_ne hne with hlt | hgt
  · -- firstDiffFrom x l1 < firstDiffFrom x l2
    have hfd1 : firstDiffFrom x l1 < 32 := by omega
    have htrue := a4 hfd1
    by_cases hc : firstDiffFrom x l1 < l2
    · rw [hfalse _ a1 hc] at htrue
      exact Bool.false_ne_true htrue
    · rw [b3 _ (by omega) hlt] at htrue
      exact Bool.false_ne_true htrue
  · have hfd2 : firstDiffFrom x l2 < 32 := by omega
    have htrue := b4 hfd2
    rw [a3 _ (by omega) hgt] at htrue
    exact Bool.false_ne_true htrue

theorem bool_opp {a b c : Bool} (h1 : a ≠ c) (h2 : b ≠ c) : a = b := by
  cases a <;> cases b <;> cases c <;> simp_all

/-! ### Collision-bucket lemmas -/

theorem bucketInsert_ne_nil (l : List (K × V)) (k : K) (v : V) : bucketInsert l k v ≠ [] := by
  match l with
  | [] => simp [bucketInsert]
  | (k', v') :: rest =>
    unfold bucketInsert
    split
    · simp
    · split <;> simp

theorem mem_bucketInsert {l : List (K × V)} {k : K} {v : V} {p : K × V}
    (hp : p ∈ bucketInsert l k v) : p = (k, v) ∨ p ∈ l := by
  induction l with
  | nil => simpa [bucketInsert] using hp
  | cons hd rest ih =>
    obtain ⟨k', v'⟩ := hd
    rcases lt_trichotomy k k' with hc | hc | hc
    · rw [bucketInsert, if_pos hc] at hp
      rcases List.mem_cons.mp hp with hp | hp
      · exact Or.inl hp
      · exact Or.inr hp
    · rw [bucketInsert, if_neg (by simp [hc]), if_pos hc] at hp
      rcases List.mem_cons.mp hp with hp | hp
      · exact Or.inl hp
      · exact Or.inr (List.mem_cons_of_mem _ hp)
    · rw [bucketInsert, if_neg (lt_asymm hc), if_neg (ne_of_gt hc)] at hp
      rcases List.mem_cons.mp hp with hp | hp
      · exact Or.inr (by simp [hp])
      · rcases ih hp with hq | hq
        · exact Or.inl hq
        · exact Or.inr (List.mem_cons_of_mem _ hq)

theorem bucketInsert_pairwise {l : List (K × V)}
    (hl : l.Pairwise (fun a b => a.1 < b.1)) (k : K) (v : V) :
    (bucketInsert l k v).Pairwise (fun a b => a.1 < b.1) := by
  induction l with
  | nil => simp [bucketInsert]
  | cons hd rest ih =>
    obtain ⟨k', v'⟩ := hd
    rw [List.pairwise_cons] at hl
    obtain ⟨hk', hrest⟩ := hl
    unfold bucketInsert
    split
    · rename_i hklt
      refine List.Pairwise.cons ?_ (List.Pairwise.cons hk' hrest)
      intro b hb
      rcases List.mem_cons.mp hb with rfl | hb
      · exact hklt
      · exact lt_trans hklt (hk' b hb)
    · split
      · rename_i hklt hkeq
        subst hkeq
        exact List.Pairwise.cons hk' hrest
      · rename_i hklt hkeq
        have hgt : k' < k := by
          rcases lt_trichotomy k k' with h | h | h
          · exact absurd h hklt
          · exact absurd h hkeq
          · exact h
        refine List.Pairwise.cons ?_ (ih hrest)
        intro b hb
        rcases mem_bucketInsert hb with rfl | hb
        · exact hgt
        · exact hk' b hb

/-! ### Well-formedness invariant -/

/-- The structural invariant of a `FocusedTree` (spec §3 "Invariants"):
`length ≤ 32`, a 32-bit `key_hash` that is the hash of the focused key, a
nonempty key-sorted collision bucket whose keys all share `key_hash`, and
side pointers whose hashes agree with the node's hash below their level,
differ from it at their level, and which are recursively well-formed. -/
inductive WfT : FocusedTree K V → Prop where
  | intro (t : FocusedTree K V)
      (hlen : t.length ≤ 32)
      (hlt : t.key_hash < 2 ^ 32)
      (hkey : t.key_hash = hashOf hashF t.key_value.1)
      (hmore : ∀ mm, t.more = some mm → mm ≠ [] ∧ mm.Pairwise (fun a b => a.1 < b.1) ∧
          ∀ p ∈ mm, hashOf hashF p.1 = t.key_hash)
      (hpath : ∀ i c, t.pathAt i = some c →
          AgreeBelow c.key_hash t.key_hash i ∧
          hashBit c.key_hash i ≠ hashBit t.key_hash i)
      (hrec : ∀ i c, t.pathAt i = some c → WfT c) :
      WfT t

theorem WfT.length_le {t : FocusedTree K V} (h : WfT hashF t) : t.length ≤ 32 := by
  cases h; assumption

theorem WfT.hash_lt {t : FocusedTree K V} (h : WfT hashF t) : t.key_hash < 2 ^ 32 := by
  cases h; assumption

theorem WfT.hash_eq {t : FocusedTree K V} (h : WfT hashF t) :
    t.key_hash = hashOf hashF t.key_value.1 := by
  cases h; assumption

theorem WfT.bucket {t : FocusedTree K V} (h : WfT hashF t) :
    ∀ mm, t.more = some mm → mm ≠ [] ∧ mm.Pairwise (fun a b => a.1 < b.1) ∧
      ∀ p ∈ mm, hashOf hashF p.1 = t.key_hash := by
  cases h; assumption

theorem WfT.side {t : FocusedTree K V} (h : WfT hashF t) :
    ∀ i c, t.pathAt i = some c →
      AgreeBelow c.key_hash t.key_hash i ∧
      hashBit c.key_hash i ≠ hashBit t.key_hash i := by
  cases h; assumption

theorem WfT.child {t : FocusedTree K V} (h : WfT hashF t) :
    ∀ i c, t.pathAt i = some c → WfT hashF c := by
  cases h; assumption

/-- Well-formedness of a map handle: a well-formed root, if any. -/
def WfM (m : PersistentMap K V) : Prop := ∀ t, m.tree = some t → WfT hashF t

theorem hashOf_lt (k : K) : hashOf hashF k < 2 ^ 32 :=
  Nat.mod_lt _ (by norm_num)

theorem AgreeBelow.symm {h1 h2 n : Nat} (h : AgreeBelow h1 h2 n) : AgreeBelow h2 h1 n :=
  fun j hj => (h j hj).symm

theorem AgreeBelow.mono {h1 h2 m n : Nat} (h : AgreeBelow h1 h2 n) (hmn : m ≤ n) :
    AgreeBelow h1 h2 m := fun j hj => h j (lt_of_lt_of_le hj hmn)

theorem getD_drop {α : Type} (l : List α) (n j : Nat) (d : α) :
    (l.drop n).getD j d = l.getD (n + j) d := by
  rw [List.getD_eq_getElem?_getD, List.getD_eq_getElem?_getD, List.getElem?_drop]

theorem getD_append_split {α : Type} (l1 l2 : List α) (j : Nat) (d : α) :
    (l1 ++ l2).getD j d =
      if j < l1.length then l1.getD j d else l2.getD (j - l1.length) d := by
  rw [List.getD_eq_getElem?_getD, List.getElem?_append]
  split
  · rw [List.getD_eq_getElem?_getD]
  · rw [List.getD_eq_getElem?_getD]

theorem length_recordSeg (t : FocusedTree K V) (level d : Nat) :
    (recordSeg t level d).length = d - level := by
  simp [recordSeg]

theorem getD_recordSeg (t : FocusedTree K V) (level d j : Nat) :
    (recordSeg t level d).getD j none =
      if j < d - level then (if level + j < t.length then t.pathAt (level + j) else none)
      else none := by
  unfold recordSeg
  rw [List.getD_eq_getElem?_getD, List.getElem?_map]
  by_cases hj : j < d - level
  · rw [List.getElem?_range' _ _ hj]
    simp [hj]
  · rw [List.getElem?_eq_none (by simpa using hj)]
    simp [hj]

/-- Properties of the recorded path when the recording traversal ends at a
null child at divergence level `d` (the `(*path)[level] = tree; tree =
nullptr` exit of the C++ loop). -/
theorem recordStub_spec (h : Nat) (t : FocusedTree K V) (level d : Nat)
    (hwf : WfT hashF t) (hld : level ≤ d) (hd32 : d < 32)
    (hagd : AgreeBelow h t.key_hash d)
    (hbitd : hashBit h d ≠ hashBit t.key_hash d) :
    (level + (recordSeg t level d ++ [some t]).length ≤ 32) ∧
    (∀ j c, (recordSeg t level d ++ [some t]).getD j none = some c →
      AgreeBelow c.key_hash h (level + j) ∧
      hashBit c.key_hash (level + j) ≠ hashBit h (level + j) ∧ WfT hashF c) := by
  constructor
  · simp only [List.length_append, length_recordSeg, List.length_singleton]
    omega
  · intro j c hc
    rw [getD_append_split, length_recordSeg] at hc
    split at hc
    · rename_i hjseg
      rw [getD_recordSeg, if_pos hjseg] at hc
      split at hc
      · have hside := WfT.side hashF hwf (level + j) c hc
        have hchild := WfT.child hashF hwf (level + j) c hc
        refine ⟨?_, ?_, hchild⟩
        · intro p hp
          rw [hside.1 p hp, hagd p (by omega)]
        · rw [hagd (level + j) (by omega)]
          exact hside.2
      · exact absurd hc (by simp)
    · rename_i hjseg
      by_cases hj0 : j - (d - level) = 0
      · rw [hj0, List.getD_cons_zero] at hc
        simp only [Option.some.injEq] at hc
        subst hc
        have hjd : level + j = d := by omega
        rw [hjd]
        exact ⟨hagd.symm, fun hx => hbitd hx.symm, hwf⟩
      · have hj1 : j - (d - level) = (j - (d - level) - 1) + 1 := by omega
        rw [hj1, List.getD_cons_succ] at hc
        simp [List.getD] at hc

theorem FindHashPath_spec (fuel h : Nat) : ∀ (t : FocusedTree K V) (level : Nat),
    WfT hashF t → 33 - level ≤ fuel → level ≤ 32 → h < 2 ^ 32 →
    AgreeBelow h t.key_hash level →
    (level + (FindHashPath fuel h t level).2.length ≤ 32) ∧
    (∀ j c, (FindHashPath fuel h t level).2.getD j none = some c →
      AgreeBelow c.key_hash h (level + j) ∧
      hashBit c.key_hash (level + j) ≠ hashBit h (level + j) ∧ WfT hashF c) ∧
    (∀ o, (FindHashPath fuel h t level).1 = some o → o.key_hash = h ∧ WfT hashF o) := by
  induction fuel with
  | zero => intro t level hwf hf hlev hh hag; omega
  | succ fuel ih =>
    intro t level hwf hf hlev hh hag
    have hlen32 : t.length ≤ 32 := hwf.length_le
    rw [FindHashPath]
    split
    · rename_i hEq
      refine ⟨?_, ?_, ?_⟩
      · simp only [List.length_drop]
        simp only [FocusedTree.length] at hlen32
        omega
      · intro j c hc
        rw [getD_drop] at hc
        have hside := WfT.side hashF hwf (level + j) c hc
        have hchild := WfT.child hashF hwf (level + j) c hc
        rw [← hEq] at hside
        exact ⟨hside.1, hside.2, hchild⟩
      · intro o ho
        simp only [Option.some.injEq] at ho
        subst ho
        exact ⟨hEq.symm, hwf⟩
    · rename_i hne
      obtain ⟨hld, hd32, hagd, hbitd⟩ :=
        firstDiff_step level (fun hx => hne hx) hh hwf.hash_lt hag hlev
      have hstub := recordStub_spec hashF h t level
        (firstDiffFrom (h ^^^ t.key_hash) level) hwf hld hd32 hagd hbitd
      split
      · split
        · exact ⟨hstub.1, hstub.2, by intro o ho; simp at ho⟩
        · rename_i c hc
          have hcwf := WfT.child hashF hwf _ c hc
          have hcside := WfT.side hashF hwf _ c hc
          have hagc : AgreeBelow h c.key_hash
              (firstDiffFrom (h ^^^ t.key_hash) level + 1) := by
            intro p hp
            rcases Nat.lt_or_ge p (firstDiffFrom (h ^^^ t.key_hash) level) with hpd | hpd
            · rw [hagd p hpd, (hcside.1 p hpd).symm]
            · have hpd' : p = firstDiffFrom (h ^^^ t.key_hash) level := by omega
              subst hpd'
              exact bool_opp hbitd hcside.2
          obtain ⟨ih1, ih2, ih3⟩ := ih c _ hcwf (by omega) (by omega) hh hagc
          refine ⟨?_, ?_, ih3⟩
          · simp only [List.length_append, length_recordSeg, List.length_cons]
            omega
          · intro j c2 hc2
            rw [getD_append_split, length_recordSeg] at hc2
            split at hc2
            · rename_i hjseg
              rw [getD_recordSeg, if_pos hjseg] at hc2
              split at hc2
              · have hside2 := WfT.side hashF hwf _ c2 hc2
                have hchild2 := WfT.child hashF hwf _ c2 hc2
                refine ⟨?_, ?_, hchild2⟩
                · intro p hp
                  rw [hside2.1 p hp, hagd p (by omega)]
                · rw [hagd (level + j) (by omega)]
                  exact hside2.2
              · exact absurd hc2 (by simp)
            · rename_i hjseg
              by_cases hj0 : j - (firstDiffFrom (h ^^^ t.key_hash) level - level) = 0
              · rw [hj0, List.getD_cons_zero] at hc2
                simp only [Option.some.injEq] at hc2
                subst hc2
                have hjd : level + j = firstDiffFrom (h ^^^ t.key_hash) level := by omega
                rw [hjd]
                exact ⟨hagd.symm, fun hx => hbitd hx.symm, hwf⟩
              · have hj1 : j - (firstDiffFrom (h ^^^ t.key_hash) level - level) =
                    (j - (firstDiffFrom (h ^^^ t.key_hash) level - level) - 1) + 1 := by omega
                rw [hj1, List.getD_cons_succ] at hc2
                have hres := ih2 _ c2 hc2
                have harith : firstDiffFrom (h ^^^ t.key_hash) level + 1 +
                    (j - (firstDiffFrom (h ^^^ t.key_hash) level - level) - 1) = level + j := by
                  omega
                rw [harith] at hres
                exact hres
      · exact ⟨hstub.1, hstub.2, by intro o ho; simp at ho⟩

theorem WfM_empty (dv : V) : WfM hashF (PersistentMap.empty dv : PersistentMap K V) := by
  intro t ht
  simp [PersistentMap.empty] at ht

theorem WfM_Add (m : PersistentMap K V) (k : K) (v : V) (hwf : WfM hashF m) :
    WfM hashF (m.Add hashF k v) := by
  intro t ht
  unfold PersistentMap.Add at ht
  simp only at ht
  split at ht
  · exact hwf t ht
  · simp only [Option.some.injEq] at ht
    subst ht
    rcases hmt : m.tree with _ | t0
    · have hfp : m.findHashPath (hashOf hashF k) = (none, []) := by
        unfold PersistentMap.findHashPath
        rw [hmt]
      rw [hfp]
      refine WfT.intro _ ?_ ?_ ?_ ?_ ?_ ?_
      · simp [FocusedTree.length]
      · exact hashOf_lt hashF k
      · simp
      · intro mm hmm
        simp at hmm
      · intro i c hci
        simp [List.getD] at hci
      · intro i c hci
        simp [List.getD] at hci
    · have hwf0 := hwf t0 hmt
      obtain ⟨s1, s2, s3⟩ := FindHashPath_spec hashF hashFuel (hashOf hashF k) t0 0 hwf0
        (by norm_num [hashFuel]) (by norm_num) (hashOf_lt hashF k)
        (fun j hj => absurd hj (Nat.not_lt_zero j))
      have hfp : m.findHashPath (hashOf hashF k) = FindHashPath hashFuel (hashOf hashF k) t0 0 := by
        unfold PersistentMap.findHashPath
        rw [hmt]
      rw [hfp]
      refine WfT.intro _ ?_ ?_ ?_ ?_ ?_ ?_
      · simpa [FocusedTree.length] using s1
      · exact hashOf_lt hashF k
      · simp
      · intro mm hmm
        simp only [FocusedTree.more_mk] at hmm
        split at hmm
        · simp at hmm
        · rename_i o heqold
          obtain ⟨hoh, howf⟩ := s3 o heqold
          split at hmm
          · rename_i mm' ho
            obtain ⟨hne', hsort, hhash⟩ := WfT.bucket hashF howf mm' ho
            simp only [Option.some.injEq] at hmm
            subst hmm
            refine ⟨bucketInsert_ne_nil _ _ _, bucketInsert_pairwise hsort _ _, ?_⟩
            intro p hp
            rcases mem_bucketInsert hp with rfl | hp
            · simp
            · simp only [FocusedTree.key_hash_mk]
              rw [hhash p hp, hoh]
          · rename_i ho
            split at hmm
            · simp at hmm
            · rename_i hko
              simp only [Option.some.injEq] at hmm
              subst hmm
              refine ⟨bucketInsert_ne_nil _ _ _, bucketInsert_pairwise (by simp) _ _, ?_⟩
              intro p hp
              rcases mem_bucketInsert hp with rfl | hp
              · simp
              · simp only [List.mem_singleton] at hp
                subst hp
                simp only [FocusedTree.key_hash_mk]
                rw [← WfT.hash_eq hashF howf, hoh]
      · intro i c hci
        simp only [FocusedTree.pathAt_mk] at hci
        have hs := s2 i c hci
        simp only [Nat.zero_add] at hs
        simp only [FocusedTree.key_hash_mk]
        exact ⟨hs.1, hs.2.1⟩
      · intro i c hci
        simp only [FocusedTree.pathAt_mk] at hci
        have hs := s2 i c hci
        exact hs.2.2

/-- Maps built by a sequence of `Add`s from an empty map (the only public
constructors of `PersistentMap`). -/
inductive Built : PersistentMap K V → Prop where
  | empty (dv : V) : Built (PersistentMap.empty dv)
  | add (m : PersistentMap K V) (k : K) (v : V) : Built m → Built (m.Add hashF k v)

theorem WfM_of_Built {m : PersistentMap K V} (hb : Built hashF m) : WfM hashF m := by
  induction hb with
  | empty dv => exact WfM_empty hashF dv
  | add m k v _ ih => exact WfM_Add hashF m k v ih

/-- Reachability of a node inside a focused tree: reflexive closure of
following side pointers. -/
inductive NodeIn : FocusedTree K V → FocusedTree K V → Prop where
  | refl (t : FocusedTree K V) : NodeIn t t
  | step (t : FocusedTree K V) (i : Nat) (c n : FocusedTree K V) :
      t.pathAt i = some c → NodeIn c n → NodeIn t n

theorem WfT_of_NodeIn {t n : FocusedTree K V} (hwf : WfT hashF t) (hin : NodeIn t n) :
    WfT hashF n := by
  induction hin with
  | refl t => exact hwf
  | step t i c n hc _ ih => exact ih (WfT.child hashF hwf i c hc)

/-- C9: structural invariant preserved by every `Add`: in every node `n` of
a map built by a sequence of `Add`s, `0 ≤ length ≤ 32` (the lower bound
holds trivially for `Nat`), and for every non-null side pointer
`c = side[i]`, `c`'s hash bit at position `i` differs from `n`'s hash bit
at position `i` (the child lies on the opposite side of the focused path). -/
theorem C9_structural_invariant (m : PersistentMap K V) (hb : Built hashF m)
    (t n : FocusedTree K V) (htree : m.tree = some t) (hn : NodeIn t n) :
    n.length ≤ 32 ∧ ∀ i c, n.pathAt i = some c →
      hashBit c.key_hash i ≠ hashBit n.key_hash i := by
  have hwf : WfT hashF n := WfT_of_NodeIn hashF (WfM_of_Built hashF hb t htree) hn
  exact ⟨hwf.length_le, fun i c hc => (WfT.side hashF hwf i c hc).2⟩

theorem firstDiffFrom_eq_of (x level r : Nat) (hlr : level ≤ r) (hr : r < 32)
    (hfalse : ∀ j, level ≤ j → j < r → hashBit x j = false)
    (htrue : hashBit x r = true) : firstDiffFrom x level = r := by
  obtain ⟨a1, a2, a3, a4⟩ := firstDiffFrom_spec x level (by omega)
  by_contra hne
  rcases lt_or_gt_of_ne hne with hlt | hgt
  · have := a4 (by omega)
    rw [hfalse _ a1 hlt] at this
    exact Bool.false_ne_true this
  · have := a3 r hlr hgt
    rw [htrue] at this
    simp at this

/-- On well-formed trees, `FindHash` is independent of the fuel once the
fuel covers the remaining levels. -/
theorem FindHash_fuel (h : Nat) : ∀ (f1 f2 : Nat) (t : FocusedTree K V) (level : Nat),
    WfT hashF t → level ≤ 32 → 33 - level ≤ f1 → 33 - level ≤ f2 →
    FindHash f1 h t level = FindHash f2 h t level := by
  intro f1
  induction f1 with
  | zero => intro f2 t level hwf hlev hf1 hf2; omega
  | succ f1 ih =>
    intro f2 t level hwf hlev hf1 hf2
    match f2 with
    | 0 => omega
    | f2 + 1 =>
      rw [FindHash, FindHash]
      split
      · rfl
      · split
        · rename_i hne hdlen
          split
          · rfl
          · rename_i c hc
            have hcwf := WfT.child hashF hwf _ c hc
            have hlen32 := hwf.length_le
            have hld := (firstDiffFrom_spec (h ^^^ t.key_hash) level hlev).1
            exact ih f2 c _ hcwf (by omega) (by omega) (by omega)
        · rfl

/-- Helper: one descent step of `FindHash` through an optional child. -/
def descendStep (fuel h2 j : Nat) (e : Option (FocusedTree K V)) : Option (FocusedTree K V) :=
  match e with
  | none => none
  | some c => FindHash fuel h2 c (j + 1)

/-- In every branch of the divergence case of the recording traversal, the
recorded list is the inner-loop segment followed by the node itself. -/
theorem FindHashPath_snd_shape (fuel h1 : Nat) (t : FocusedTree K V) (level : Nat)
    (hEq : ¬ h1 = t.key_hash) :
    ∃ rest, (FindHashPath (fuel + 1) h1 t level).2 =
      recordSeg t level (firstDiffFrom (h1 ^^^ t.key_hash) level) ++ some t :: rest := by
  rw [FindHashPath, if_neg hEq]
  split
  · split
    · exact ⟨[], rfl⟩
    · exact ⟨_, rfl⟩
  · exact ⟨[], rfl⟩

/-- The precise shape of one divergence step of the recording traversal:
either it descends into a real side child, or it stops with a null result. -/
theorem FindHashPath_shape (fuel h1 : Nat) (t : FocusedTree K V) (level : Nat)
    (hEq : ¬ h1 = t.key_hash) :
    (∃ c, firstDiffFrom (h1 ^^^ t.key_hash) level < t.length ∧
      t.pathAt (firstDiffFrom (h1 ^^^ t.key_hash) level) = some c ∧
      FindHashPath (fuel + 1) h1 t level =
        ((FindHashPath fuel h1 c (firstDiffFrom (h1 ^^^ t.key_hash) level + 1)).1,
          recordSeg t level (firstDiffFrom (h1 ^^^ t.key_hash) level) ++
            some t :: (FindHashPath fuel h1 c
              (firstDiffFrom (h1 ^^^ t.key_hash) level + 1)).2)) ∨
    ((t.length ≤ firstDiffFrom (h1 ^^^ t.key_hash) level ∨
      t.pathAt (firstDiffFrom (h1 ^^^ t.key_hash) level) = none) ∧
      FindHashPath (fuel + 1) h1 t level =
        (none, recordSeg t level (firstDiffFrom (h1 ^^^ t.key_hash) level) ++ [some t])) := by
  rw [FindHashPath, if_neg hEq]
  split
  · rename_i hdlen
    split
    · rename_i hnone
      exact Or.inr ⟨Or.inr hnone, rfl⟩
    · rename_i c hc
      exact Or.inl ⟨c, hdlen, hc, rfl⟩
  · rename_i hdlen
    exact Or.inr ⟨Or.inl (by omega), rfl⟩

/-- The key routing lemma behind C6: looking up a hash `h2 ≠ h1` in a tree
equals descending through the entry that the recording traversal for `h1`
stores at the first bit position where `h2` and `h1` diverge. -/
theorem FindHash_other (h1 h2 : Nat) : ∀ (fuel : Nat) (t : FocusedTree K V) (level : Nat),
    WfT hashF t → 33 - level ≤ fuel → level ≤ 32 → h1 < 2 ^ 32 → h2 < 2 ^ 32 →
    AgreeBelow h1 t.key_hash level → AgreeBelow h2 h1 level → h2 ≠ h1 →
    FindHash fuel h2 t level =
      descendStep fuel h2 (firstDiffFrom (h2 ^^^ h1) level)
        (if firstDiffFrom (h2 ^^^ h1) level - level < (FindHashPath fuel h1 t level).2.length
         then (FindHashPath fuel h1 t level).2.getD (firstDiffFrom (h2 ^^^ h1) level - level) none
         else none) := by
  intro fuel
  induction fuel with
  | zero => intro t level hwf hf hlev hh1 hh2 hag1 hag21 hne21; omega
  | succ fuel ih =>
    intro t level hwf hf hlev hh1 hh2 hag1 hag21 hne21
    obtain ⟨hjl, hj32, hagj, hbitj⟩ := firstDiff_step level hne21 hh2 hh1 hag21 hlev
    have hlen32 := hwf.length_le
    by_cases hEq : h1 = t.key_hash
    · -- Case A: the recording traversal found the node immediately.
      rw [FindHashPath, if_pos hEq]
      have hne2t : h2 ≠ t.key_hash := hEq ▸ hne21
      have hd2 : firstDiffFrom (h2 ^^^ t.key_hash) level =
          firstDiffFrom (h2 ^^^ h1) level := by rw [hEq]
      rw [FindHash, if_neg hne2t]
      simp only [List.length_drop, getD_drop]
      rw [hd2]
      by_cases hcond : firstDiffFrom (h2 ^^^ h1) level < t.length
      · rw [if_pos hcond, if_pos (by simp only [FocusedTree.length] at hcond ⊢; omega)]
        have harith : level + (firstDiffFrom (h2 ^^^ h1) level - level) =
            firstDiffFrom (h2 ^^^ h1) level := by omega
        rw [harith, getD_eq_pathAt]
        unfold descendStep
        split
        · rfl
        · rename_i c hc
          exact FindHash_fuel hashF h2 fuel (fuel + 1) c _
            (WfT.child hashF hwf _ c hc) (by omega) (by omega) (by omega)
      · rw [if_neg hcond, if_neg (by simp only [FocusedTree.length] at hcond ⊢; omega)]
        rfl
    · -- Case B: the recording traversal diverges at level d.
      obtain ⟨hdl, hd32, hagd, hbitd⟩ := firstDiff_step level hEq hh1 hwf.hash_lt hag1 hlev
      obtain ⟨rest, hrest⟩ := FindHashPath_snd_shape fuel h1 t level hEq
      rcases lt_trichotomy (firstDiffFrom (h2 ^^^ h1) level)
        (firstDiffFrom (h1 ^^^ t.key_hash) level) with hjd | hjd | hjd
      · -- B1: j < d; h2 diverges from the node's hash at j as well.
        rw [hrest]
        have hd2 : firstDiffFrom (h2 ^^^ t.key_hash) level =
            firstDiffFrom (h2 ^^^ h1) level := by
          apply firstDiffFrom_eq_of _ _ _ hjl (by omega)
          · intro p hp1 hp2
            rw [hashBit_xor_eq_false]
            rw [hagj p hp2, hagd p (by omega)]
          · rcases Bool.eq_false_or_eq_true (hashBit (h2 ^^^ t.key_hash)
              (firstDiffFrom (h2 ^^^ h1) level)) with hfb | hfb
            · exact hfb
            · exfalso
              rw [hashBit_xor_eq_false] at hfb
              rw [hagd _ hjd] at hbitj
              exact hbitj hfb
        have hne2t : h2 ≠ t.key_hash := by
          intro hx
          apply hbitj
          rw [hagd _ hjd]
          exact congrArg (fun z => hashBit z (firstDiffFrom (h2 ^^^ h1) level)) hx
        rw [if_pos (by
          simp only [List.length_append, length_recordSeg, List.length_cons]
          omega)]
        rw [getD_append_split, length_recordSeg, if_pos (by omega), getD_recordSeg,
          if_pos (by omega)]
        have harith : level + (firstDiffFrom (h2 ^^^ h1) level - level) =
            firstDiffFrom (h2 ^^^ h1) level := by omega
        rw [harith]
        rw [FindHash, if_neg hne2t, hd2]
        by_cases hcond : firstDiffFrom (h2 ^^^ h1) level < t.length
        · rw [if_pos hcond, if_pos hcond]
          unfold descendStep
          split
          · rfl
          · rename_i c hc
            exact FindHash_fuel hashF h2 fuel (fuel + 1) c _
              (WfT.child hashF hwf _ c hc) (by omega) (by omega) (by omega)
        · rw [if_neg hcond, if_neg hcond]
          rfl
      · -- B2: j = d; the recorded entry at the divergence level is the node
        -- itself, and both sides continue past level d identically.
        rw [hrest]
        rw [if_pos (by
          simp only [List.length_append, length_recordSeg, List.length_cons]
          omega)]
        rw [getD_append_split, length_recordSeg, if_neg (by omega)]
        have hidx : firstDiffFrom (h2 ^^^ h1) level - level -
            (firstDiffFrom (h1 ^^^ t.key_hash) level - level) = 0 := by omega
        rw [hidx, List.getD_cons_zero]
        simp only [descendStep]
        rw [hjd]
        by_cases h2t : h2 = t.key_hash
        · rw [FindHash, if_pos h2t, FindHash, if_pos h2t]
        · have hbitj' : hashBit h2 (firstDiffFrom (h1 ^^^ t.key_hash) level) ≠
              hashBit h1 (firstDiffFrom (h1 ^^^ t.key_hash) level) := by
            rw [← hjd]
            exact hbitj
          have hshift : firstDiffFrom (h2 ^^^ t.key_hash) level =
              firstDiffFrom (h2 ^^^ t.key_hash) (firstDiffFrom (h1 ^^^ t.key_hash) level + 1) := by
            apply firstDiffFrom_shift _ _ _ (by omega) (by omega)
            intro p hp1 hp2
            rw [hashBit_xor_eq_false]
            rcases Nat.lt_or_ge p (firstDiffFrom (h1 ^^^ t.key_hash) level) with hpd | hpd
            · rw [hagj p (by omega), hagd p hpd]
            · have hpd' : p = firstDiffFrom (h1 ^^^ t.key_hash) level := by omega
              subst hpd'
              exact bool_opp hbitj' (Ne.symm hbitd)
          rw [FindHash, if_neg h2t, FindHash, if_neg h2t, ← hshift]
      · -- B3: j > d; both lookups descend into the child at level d.
        have hd2 : firstDiffFrom (h2 ^^^ t.key_hash) level =
            firstDiffFrom (h1 ^^^ t.key_hash) level := by
          apply firstDiffFrom_eq_of _ _ _ hdl (by omega)
          · intro p hp1 hp2
            rw [hashBit_xor_eq_false]
            rw [hagj p (by omega), hagd p hp2]
          · rcases Bool.eq_false_or_eq_true (hashBit (h2 ^^^ t.key_hash)
              (firstDiffFrom (h1 ^^^ t.key_hash) level)) with hfb | hfb
            · exact hfb
            · exfalso
              rw [hashBit_xor_eq_false] at hfb
              rw [hagj _ hjd] at hfb
              exact hbitd hfb
        have hne2t : h2 ≠ t.key_hash := by
          intro hx
          apply hbitd
          rw [← hagj _ hjd]
          exact congrArg (fun z => hashBit z (firstDiffFrom (h1 ^^^ t.key_hash) level)) hx
        have hshift2 : firstDiffFrom (h2 ^^^ h1) level =
            firstDiffFrom (h2 ^^^ h1) (firstDiffFrom (h1 ^^^ t.key_hash) level + 1) := by
          apply firstDiffFrom_shift _ _ _ (by omega) (by omega)
          intro p hp1 hp2
          rw [hashBit_xor_eq_false]
          exact hagj p (by omega)
        rw [FindHash, if_neg hne2t, hd2]
        rcases FindHashPath_shape fuel h1 t level hEq with
          ⟨c, hdlen, hc, hpair⟩ | ⟨hside, hpair⟩
        · -- descending into a real child at level d on both sides
          rw [hpair, if_pos hdlen]
          simp only [hc]
          have hcwf := WfT.child hashF hwf _ c hc
          have hcside := WfT.side hashF hwf _ c hc
          have hagc1 : AgreeBelow h1 c.key_hash
              (firstDiffFrom (h1 ^^^ t.key_hash) level + 1) := by
            intro p hp
            rcases Nat.lt_or_ge p (firstDiffFrom (h1 ^^^ t.key_hash) level) with hpd | hpd
            · rw [hagd p hpd, (hcside.1 p hpd).symm]
            · have hpd' : p = firstDiffFrom (h1 ^^^ t.key_hash) level := by omega
              subst hpd'
              exact bool_opp hbitd hcside.2
          have hag21c : AgreeBelow h2 h1 (firstDiffFrom (h1 ^^^ t.key_hash) level + 1) :=
            fun p hp => hagj p (by omega)
          have hIH := ih c (firstDiffFrom (h1 ^^^ t.key_hash) level + 1) hcwf
            (by omega) (by omega) hh1 hh2 hagc1 hag21c hne21
          rw [← hshift2] at hIH
          rw [hIH]
          obtain ⟨s1c, s2c, s3c⟩ := FindHashPath_spec hashF fuel h1 c
            (firstDiffFrom (h1 ^^^ t.key_hash) level + 1) hcwf (by omega) (by omega) hh1 hagc1
          have hlistlen : ((recordSeg t level (firstDiffFrom (h1 ^^^ t.key_hash) level) ++
              some t :: (FindHashPath fuel h1 c
                (firstDiffFrom (h1 ^^^ t.key_hash) level + 1)).2).length) =
              (firstDiffFrom (h1 ^^^ t.key_hash) level - level) + 1 +
              (FindHashPath fuel h1 c (firstDiffFrom (h1 ^^^ t.key_hash) level + 1)).2.length := by
            simp only [List.length_append, length_recordSeg, List.length_cons]
            omega
          have hcond_iff : (firstDiffFrom (h2 ^^^ h1) level - level <
              (recordSeg t level (firstDiffFrom (h1 ^^^ t.key_hash) level) ++
                some t :: (FindHashPath fuel h1 c
                  (firstDiffFrom (h1 ^^^ t.key_hash) level + 1)).2).length) ↔
              (firstDiffFrom (h2 ^^^ h1) level -
                (firstDiffFrom (h1 ^^^ t.key_hash) level + 1) <
                (FindHashPath fuel h1 c
                  (firstDiffFrom (h1 ^^^ t.key_hash) level + 1)).2.length) := by
            rw [hlistlen]
            omega
          have hgetD : (recordSeg t level (firstDiffFrom (h1 ^^^ t.key_hash) level) ++
              some t :: (FindHashPath fuel h1 c
                (firstDiffFrom (h1 ^^^ t.key_hash) level + 1)).2).getD
              (firstDiffFrom (h2 ^^^ h1) level - level) none =
              (FindHashPath fuel h1 c
                (firstDiffFrom (h1 ^^^ t.key_hash) level + 1)).2.getD
              (firstDiffFrom (h2 ^^^ h1) level -
                (firstDiffFrom (h1 ^^^ t.key_hash) level + 1)) none := by
            rw [getD_append_split, length_recordSeg, if_neg (by omega)]
            have hidx : firstDiffFrom (h2 ^^^ h1) level - level -
                (firstDiffFrom (h1 ^^^ t.key_hash) level - level) =
                (firstDiffFrom (h2 ^^^ h1) level -
                  (firstDiffFrom (h1 ^^^ t.key_hash) level + 1)) + 1 := by omega
            rw [hidx, List.getD_cons_succ]
          rw [if_congr hcond_iff hgetD rfl]
          -- now both sides are descendStep applications differing only in fuel
          unfold descendStep
          split
          · rfl
          · rename_i cc hcc
            split at hcc
            · rename_i hcclen
              have hccwf := (s2c _ cc hcc).2.2
              exact FindHash_fuel hashF h2 fuel (fuel + 1) cc _ hccwf
                (by omega) (by omega) (by omega)
            · exact absurd hcc (by simp)
        · -- the h1-traversal exits at a null child or past the node length;
          -- the h2-lookup exits through the same null child
          rw [hpair]
          have hlen1 : (recordSeg t level (firstDiffFrom (h1 ^^^ t.key_hash) level) ++
              [some t]).length = (firstDiffFrom (h1 ^^^ t.key_hash) level - level) + 1 := by
            simp only [List.length_append, length_recordSeg, List.length_singleton]
          have hcondn : ¬ (firstDiffFrom (h2 ^^^ h1) level - level <
              (recordSeg t level (firstDiffFrom (h1 ^^^ t.key_hash) level) ++
                [some t]).length) := by
            rw [hlen1]
            omega
          rw [if_neg hcondn]
          rcases hside with hside | hside
          · have hdno : ¬ (firstDiffFrom (h1 ^^^ t.key_hash) level < t.length) := by omega
            rw [if_neg hdno]
            rfl
          · by_cases hdlen : firstDiffFrom (h1 ^^^ t.key_hash) level < t.length
            · rw [if_pos hdlen]
              simp only [hside]
              rfl
            · rw [if_neg hdlen]
              rfl

theorem PersistentMap.findHash_some (t : FocusedTree K V) (dv : V) (h : Nat) :
    PersistentMap.findHash { tree := some t, defVal := dv } h =
      FindHash hashFuel h t 0 := rfl

theorem FindHash_hashFuel_unfold (h : Nat) (t : FocusedTree K V) (level : Nat) :
    FindHash hashFuel h t level =
      if h = t.key_hash then some t
      else
        if firstDiffFrom (h ^^^ t.key_hash) level < t.length then
          match t.pathAt (firstDiffFrom (h ^^^ t.key_hash) level) with
          | none => none
          | some c => FindHash 32 h c (firstDiffFrom (h ^^^ t.key_hash) level + 1)
        else none := rfl

/-- C6: Get-other. For every well-formed map `m`, distinct keys `k1 ≠ k2`
and value `v`, the new map leaves other keys untouched:
`m.Add(k1, v).Get(k2) == m.Get(k2)`. -/
theorem C6_get_other (m : PersistentMap K V) (k1 k2 : K) (v : V)
    (hwf : WfM hashF m) (hne : k1 ≠ k2) :
    (m.Add hashF k1 v).Get hashF k2 = m.Get hashF k2 := by
  have hne' : k2 ≠ k1 := hne.symm
  unfold PersistentMap.Add
  simp only
  split
  · rfl
  · unfold PersistentMap.Get
    rw [PersistentMap.findHash_some]
    by_cases hh : hashOf hashF k2 = hashOf hashF k1
    · -- the two keys share the truncated hash: the lookup lands on the new
      -- root and the collision bucket resolves the difference
      have hroot : FindHash hashFuel (hashOf hashF k2)
          (FocusedTree.mk (k1, v) (hashOf hashF k1)
            (match (m.findHashPath (hashOf hashF k1)).1 with
             | none => none
             | some o =>
               match o.more with
               | some mm => some (bucketInsert mm k1 v)
               | none =>
                 if o.key_value.1 = k1 then none
                 else some (bucketInsert [(o.key_value.1, o.key_value.2)] k1 v))
            (m.findHashPath (hashOf hashF k1)).2) 0 =
          some (FocusedTree.mk (k1, v) (hashOf hashF k1)
            (match (m.findHashPath (hashOf hashF k1)).1 with
             | none => none
             | some o =>
               match o.more with
               | some mm => some (bucketInsert mm k1 v)
               | none =>
                 if o.key_value.1 = k1 then none
                 else some (bucketInsert [(o.key_value.1, o.key_value.2)] k1 v))
            (m.findHashPath (hashOf hashF k1)).2) := by
        rw [hashFuel, FindHash, if_pos (by simp [hh])]
      rw [hroot]
      have hrhs : m.findHash (hashOf hashF k2) = (m.findHashPath (hashOf hashF k1)).1 := by
        rw [hh, PersistentMap.findHash_eq]
      rw [hrhs]
      rcases hold : (m.findHashPath (hashOf hashF k1)).1 with _ | o
      · simp only [hold, GetFocusedValue, FocusedTree.more_mk, FocusedTree.key_value_mk]
        rw [if_neg hne']
      · rcases homore : o.more with _ | mm
        · by_cases hko : o.key_value.1 = k1
          · simp only [hold, homore, if_pos hko, GetFocusedValue, FocusedTree.more_mk,
              FocusedTree.key_value_mk]
            rw [if_neg hne', if_neg (fun hx => hne' (hx.trans hko))]
          · simp only [hold, homore, if_neg hko, GetFocusedValue, FocusedTree.more_mk,
              FocusedTree.key_value_mk]
            rw [bucketFind_bucketInsert_ne _ _ _ _ hne']
            simp only [bucketFind]
            by_cases hk2o : k2 = o.key_value.1
            · rw [if_pos hk2o, if_pos hk2o]
            · rw [if_neg hk2o, if_neg hk2o]
        · simp only [hold, homore, GetFocusedValue, FocusedTree.more_mk]
          rw [bucketFind_bucketInsert_ne _ _ _ _ hne']
    · -- different hashes: route through the recorded path entry
      rcases hmt : m.tree with _ | t0
      · have hfp : m.findHashPath (hashOf hashF k1) = (none, []) := by
          unfold PersistentMap.findHashPath
          rw [hmt]
        rw [hfp]
        have hrhs : m.findHash (hashOf hashF k2) = none := by
          unfold PersistentMap.findHash
          rw [hmt]
        rw [hrhs]
        rw [hashFuel, FindHash, if_neg (by simpa using hh)]
        rw [if_neg (by simp [FocusedTree.length])]
      · have hwf0 := hwf t0 hmt
        have hfp : m.findHashPath (hashOf hashF k1) =
            FindHashPath hashFuel (hashOf hashF k1) t0 0 := by
          unfold PersistentMap.findHashPath
          rw [hmt]
        have hrhs : m.findHash (hashOf hashF k2) = FindHash hashFuel (hashOf hashF k2) t0 0 := by
          unfold PersistentMap.findHash
          rw [hmt]
        rw [hfp, hrhs]
        have hother := FindHash_other hashF (hashOf hashF k1) (hashOf hashF k2) hashFuel t0 0
          hwf0 (by rw [hashFuel]) (by norm_num) (hashOf_lt hashF k1) (hashOf_lt hashF k2)
          (fun j hj => absurd hj (Nat.not_lt_zero j))
          (fun j hj => absurd hj (Nat.not_lt_zero j)) hh
        rw [hother]
        obtain ⟨hjl, hj32, hagj, hbitj⟩ := firstDiff_step 0 hh (hashOf_lt hashF k2)
          (hashOf_lt hashF k1) (fun j hj => absurd hj (Nat.not_lt_zero j)) (by norm_num)
        obtain ⟨s1, s2, s3⟩ := FindHashPath_spec hashF hashFuel (hashOf hashF k1) t0 0 hwf0
          (by rw [hashFuel]) (by norm_num) (hashOf_lt hashF k1)
          (fun j hj => absurd hj (Nat.not_lt_zero j))
        rw [FindHash_hashFuel_unfold, if_neg (by simpa using hh)]
        have hxz : firstDiffFrom (hashOf hashF k2 ^^^ hashOf hashF k1) 0 - 0 =
            firstDiffFrom (hashOf hashF k2 ^^^ hashOf hashF k1) 0 := by omega
        simp only [FocusedTree.key_hash_mk, FocusedTree.length_mk, FocusedTree.pathAt_mk,
          hxz]
        by_cases hcond : firstDiffFrom (hashOf hashF k2 ^^^ hashOf hashF k1) 0 <
            (FindHashPath hashFuel (hashOf hashF k1) t0 0).2.length
        · rw [if_pos hcond, if_pos hcond]
          refine congrArg (fun z => GetFocusedValue m.defVal z k2) ?_
          unfold descendStep
          split
          · rfl
          · rename_i c hc
            have hcwf := (s2 _ c hc).2.2
            exact FindHash_fuel hashF (hashOf hashF k2) 32 hashFuel c _ hcwf
              (by omega) (by omega) (by rw [hashFuel]; omega)
        · rw [if_neg hcond, if_neg hcond]
          rfl

/-! ### The forward iterator -/

/-- C++ `PersistentMap::GetChild`: the left (`bit = false`) or right
(`bit = true`) child of the node on the path of `tree` at level `level`. -/
def GetChild (tree : FocusedTree K V) (level : Nat) (bit : Bool) :
    Option (FocusedTree K V) :=
  if hashBit tree.key_hash level = bit then some tree
  else if level < tree.length then tree.pathAt level
  else none

/-- C++ `PersistentMap::FindLeftmost`, fuel-indexed (each iteration
increases `level`, which stays below 32 on well-formed trees, so fuel 33
covers the loop). Returns the leaf, the final level and the updated path
array. The C++ `UNREACHABLE()` branch is dead because one of the two
children is always the node itself; the model returns the current state
there. -/
def FindLeftmost : Nat → FocusedTree K V → Nat → (Nat → Option (FocusedTree K V)) →
    FocusedTree K V × Nat × (Nat → Option (FocusedTree K V))
  | 0, current, level, path => (current, level, path)
  | fuel + 1, current, level, path =>
    if level < current.length then
      match GetChild current level false with
      | some child =>
        FindLeftmost fuel child (level + 1)
          (fun j => if j = level then GetChild current level true else path j)
      | none =>
        match GetChild current level true with
        | some child =>
          FindLeftmost fuel child (level + 1)
            (fun j => if j = level then GetChild current level false else path j)
        | none => (current, level, path)
    else (current, level, path)

/-- C++ `PersistentMap::iterator`: tree level `level_`, bucket position
`more_iter_` (modelled as the suffix of the bucket list whose head is the
current entry), current node `current_` (`none` is past-the-end), the path
array `path_`, and `def_value_`. -/
structure Iter (K V : Type) where
  level : Nat
  moreIter : List (K × V)
  current : Option (FocusedTree K V)
  path : Nat → Option (FocusedTree K V)
  defVal : V

/-- C++ `iterator::is_end()`. -/
def Iter.isEnd (it : Iter K V) : Bool := it.current.isNone

/-- C++ `iterator::end(def_value)` (also the private constructor): null
current node, level 0; `more_iter_` and `path_` are uninitialised in C++
and modelled as empty. -/
def iterEnd (dv : V) : Iter K V :=
  { level := 0, moreIter := [], current := none, path := fun _ => none, defVal := dv }

/-- C++ `iterator::operator*`: the current bucket entry when a collision
bucket is present, the focused pair otherwise; `none` past the end (where
the C++ dereference is undefined behaviour). -/
def iterCur (it : Iter K V) : Option (K × V) :=
  match it.current with
  | none => none
  | some cur =>
    match cur.more with
    | some _ => it.moreIter.head?
    | none => some cur.key_value

/-- C++ `iterator::begin(tree, def_value)`. This revision does not skip
default-valued entries here (relevant to C4). -/
def iterBegin (tree : FocusedTree K V) (dv : V) : Iter K V :=
  { level := (FindLeftmost hashFuel tree 0 (fun _ => none)).2.1
    moreIter := match (FindLeftmost hashFuel tree 0 (fun _ => none)).1.more with
                | some mm => mm
                | none => []
    current := some (FindLeftmost hashFuel tree 0 (fun _ => none)).1
    path := (FindLeftmost hashFuel tree 0 (fun _ => none)).2.2
    defVal := dv }

/-- C++ `PersistentMap::begin()`. -/
def PersistentMap.begin (m : PersistentMap K V) : Iter K V :=
  match m.tree with
  | none => iterEnd m.defVal
  | some t => iterBegin t m.defVal

/-- C++ `PersistentMap::end()`. -/
def PersistentMap.endIter (m : PersistentMap K V) : Iter K V := iterEnd m.defVal

/-- The ascent loop of C++ `iterator::operator++`: walking levels downward
from `level - 1`, skip levels whose hash bit goes right or whose stored
alternative is null; `none` when the iteration is exhausted. -/
def ascend (kh : Nat) (path : Nat → Option (FocusedTree K V)) : Nat → Option Nat
  | 0 => none
  | l + 1 =>
    if hashBit kh l || (path l).isNone then ascend kh path l
    else some l

/-- The tree-ascent-and-descent part of one `operator++` body pass. -/
def stepAscend (it : Iter K V) (cur : FocusedTree K V) : Iter K V × Bool :=
  match ascend cur.key_hash it.path it.level with
  | none => (iterEnd it.defVal, true)
  | some l =>
    match it.path l with
    | none => (iterEnd it.defVal, true)
    | some fra =>
      let r := FindLeftmost hashFuel fra (l + 1) it.path
      let it2 : Iter K V :=
        { level := r.2.1
          moreIter := match r.1.more with
                      | some mm => mm
                      | none => it.moreIter
          current := some r.1
          path := r.2.2
          defVal := it.defVal }
      match iterCur it2 with
      | some e => (it2, if e.2 = it.defVal then false else true)
      | none => (it2, true)

/-- One pass of the do-while body of C++ `iterator::operator++`. The `Bool`
is `true` when the C++ code returns from the function or the do-while
condition `(**this).second == def_value()` fails. -/
def stepBody (it : Iter K V) : Iter K V × Bool :=
  match it.current with
  | none => (it, true)
  | some cur =>
    match cur.more, it.moreIter.tail with
    | some _, e :: rest => ({ it with moreIter := e :: rest }, true)
    | some _, [] => stepAscend { it with moreIter := [] } cur
    | none, _ => stepAscend it cur

mutual
/-- An executable size measure of a tree (an upper bound on the number of
key-value entries it holds), used as iteration fuel. -/
def treeSize : FocusedTree K V → Nat
  | .mk _ _ more path =>
    1 + (match more with
         | some mm => mm.length
         | none => 0) + pathsSize path
/-- Combined size of a list of optional subtrees. -/
def pathsSize : List (Option (FocusedTree K V)) → Nat
  | [] => 0
  | none :: rest => pathsSize rest
  | some t :: rest => treeSize t + pathsSize rest
end

/-- Fuel bound for the do-while loop of `operator++`: each pass consumes at
least one entry of the remaining iteration suffix, whose length is bounded
by the sizes of the current node and of the recorded side subtrees. -/
def iterFuel (it : Iter K V) : Nat :=
  (match it.current with
   | some cur => treeSize cur
   | none => 0) +
  ((List.range it.level).map (fun l =>
    match it.path l with
    | some c => treeSize c
    | none => 0)).sum + it.moreIter.length + 2

def iterNextF : Nat → Iter K V → Iter K V
  | 0, it => it
  | fuel + 1, it =>
    if (stepBody it).2 then (stepBody it).1 else iterNextF fuel (stepBody it).1

/-- C++ `iterator::operator++`. The loop terminates within `iterFuel it`
body passes on every state reachable from `begin` of a well-formed map
(proved below), so the fuel makes the model total and faithful there. -/
def iterNext (it : Iter K V) : Iter K V := iterNextF (iterFuel it) it

/-- The first `n` key-value pairs produced by an iterator (the range-for
loop over the map: test against `end()`, dereference, increment). -/
def iterSeq : Nat → Iter K V → List (K × V)
  | 0, _ => []
  | n + 1, it =>
    match iterCur it with
    | none => []
    | some e => e :: iterSeq n (iterNext it)

/-- The first `n` iteration results of a map. -/
def pmSeq (n : Nat) (m : PersistentMap K V) : List (K × V) := iterSeq n m.begin

theorem iterNextF_of_end (f : Nat) (it : Iter K V) (h : it.current = none) :
    iterNextF f it = it := by
  cases f with
  | zero => rfl
  | succ f =>
    rw [iterNextF]
    simp [stepBody, h]

/-- C10: advancing a past-the-end iterator is a total, safe no-op: applying
`operator++` to an iterator with a null current node (equal to `end()`)
leaves it equal to `end()` — the C++ code guards this case explicitly
(`if (!current_) return *this;`), so it is not an error or undefined
behaviour. -/
theorem C10_increment_past_end (it : Iter K V) (h : it.isEnd = true) :
    iterNext it = it ∧ (iterNext it).isEnd = true := by
  have hc : it.current = none := by
    unfold Iter.isEnd at h
    exact Option.isNone_iff_eq_none.mp h
  have hnx : iterNext it = it := iterNextF_of_end _ it hc
  rw [hnx]
  exact ⟨rfl, h⟩

/-! ### The double (zip) iterator and equality -/

/-- C++ `iterator::operator==`. Both-non-end iterators compare the hash of
the current node and then the key of the current entry. -/
def iterEq (it1 it2 : Iter K V) : Bool :=
  if it1.isEnd then it2.isEnd
  else if it2.isEnd then false
  else
    match it1.current, it2.current, iterCur it1, iterCur it2 with
    | some c1, some c2, some e1, some e2 =>
      if c1.key_hash = c2.key_hash then (if e1.1 = e2.1 then true else false)
      else false
    | _, _, _, _ => false

/-- C++ `iterator::operator<`: lexicographic on (current hash, current key),
with past-the-end greatest. -/
def iterLt (it1 it2 : Iter K V) : Bool :=
  if it1.isEnd then false
  else if it2.isEnd then true
  else
    match it1.current, it2.current, iterCur it1, iterCur it2 with
    | some c1, some c2, some e1, some e2 =>
      if c1.key_hash < c2.key_hash then true
      else if c1.key_hash = c2.key_hash then (if e1.1 < e2.1 then true else false)
      else false
    | _, _, _, _ => false

/-- C++ `PersistentMap::double_iterator`: the two component iterators and
the `first_current_` / `second_current_` flags. -/
structure DIter (K V : Type) where
  first : Iter K V
  second : Iter K V
  firstCurrent : Bool
  secondCurrent : Bool

/-- C++ `double_iterator(iterator first, iterator second)` constructor. -/
def dIterMk (f s : Iter K V) : DIter K V :=
  if iterEq f s then ⟨f, s, true, true⟩
  else if iterLt f s then ⟨f, s, true, false⟩
  else ⟨f, s, false, true⟩

/-- C++ `double_iterator::operator*`: `none` models the undefined
dereference of an exhausted iterator. -/
def dDeref (z : DIter K V) : Option (K × V × V) :=
  if z.firstCurrent then
    match iterCur z.first with
    | some p =>
      some (p.1, p.2,
        if z.secondCurrent then
          match iterCur z.second with
          | some q => q.2
          | none => z.second.defVal
        else z.second.defVal)
    | none => none
  else
    match iterCur z.second with
    | some p => some (p.1, z.first.defVal, p.2)
    | none => none

/-- C++ `double_iterator::operator++`. -/
def dNext (z : DIter K V) : DIter K V :=
  dIterMk (if z.firstCurrent then iterNext z.first else z.first)
    (if z.secondCurrent then iterNext z.second else z.second)

/-- C++ `double_iterator::is_end()`; a double iterator compares unequal to
`Zip(...).end()` exactly when this is false. -/
def DIter.isEnd (z : DIter K V) : Bool := z.first.isEnd && z.second.isEnd

/-- The first `n` triples of the zip walk (the range-for over
`ZipIterable`: test against `end`, dereference, increment). -/
def zipSeq : Nat → DIter K V → List (K × V × V)
  | 0, _ => []
  | n + 1, z =>
    if z.isEnd then []
    else
      match dDeref z with
      | none => []
      | some tr => tr :: zipSeq n (dNext z)

/-- The first `n` triples of `a.Zip(b)`. -/
def pmZipSeq (n : Nat) (a b : PersistentMap K V) : List (K × V × V) :=
  zipSeq n (dIterMk a.begin b.begin)

/-- An executable bound on the number of key-value entries of a map. -/
def pmSize (m : PersistentMap K V) : Nat :=
  match m.tree with
  | none => 0
  | some t => treeSize t

/-- The loop of C++ `PersistentMap::operator==`: walk the zip iterator; if
any triple has differing values, false; else true. Fuel-indexed; the fuel
below provably covers the loop on well-formed maps. -/
def pmEqLoop : Nat → DIter K V → Bool
  | 0, _ => true
  | n + 1, z =>
    if z.isEnd then true
    else
      match dDeref z with
      | none => true
      | some tr => if tr.2.1 ≠ tr.2.2 then false else pmEqLoop n (dNext z)

/-- Fuel for the `operator==` walk: each iteration advances at least one of
the two component iterators. -/
def zipFuel (a b : PersistentMap K V) : Nat := pmSize a + pmSize b + 2

/-- C++ `PersistentMap::operator==`. The C++ shortcut `tree_ == other.tree_`
compares root pointers; in this pure embedding it is modelled by the
null-root case (`nullptr == nullptr`). This loses no behaviour: two handles
can share a non-null root pointer only when they also share the default
value (handles are only created by the constructor, `Add` and copies), and
in that case the zip walk below returns `true` exactly like the shortcut. -/
def pmEq (a b : PersistentMap K V) : Bool :=
  match a.tree, b.tree with
  | none, none => true
  | _, _ =>
    if a.defVal ≠ b.defVal then false
    else pmEqLoop (zipFuel a b) (dIterMk a.begin b.begin)

/-! ### Concrete instantiation used for counterexamples -/

/-- The identity hash on `Nat`, a legitimate `Hasher` instantiation. -/
def natId : Nat → Nat := fun n => n

/-- `empty(0).Add(10, 1).Add(10, 0)`: key 10 is rebound to the default
value 0, so `Get(10)` is the default, yet the overwrite leaves a focused
tree node carrying the pair `(10, 0)`. -/
def mapWithDefaultEntry : PersistentMap Nat Nat :=
  ((PersistentMap.empty 0).Add natId 10 1).Add natId 10 0

/-- C4 (code bug): iteration is NOT restricted to non-default entries in
this revision. After `m.Add(10, default)`, `Get(10)` is the default value,
but iterating the result still yields the pair `(10, 0)`: `begin` lands on
the leftmost node without checking its value against the default (the
do-while in `operator++` checks only after moving). This contradicts the
claimed "iteration over the result does not yield k". -/
theorem C4_iteration_yields_default_entry :
    mapWithDefaultEntry.Get natId 10 = mapWithDefaultEntry.defVal ∧
    pmSeq 5 mapWithDefaultEntry = [(10, 0)] := by decide

/-- C8 (code bug): the zip iterator over `(A, B)` with `A = empty(0)` and
`B = empty(0).Add(10, 1).Add(10, 0)` yields the triple `(10, 0, 0)` even
though `A.Get(10) = A.default` and `B.Get(10) = B.default`, refuting the
"only if" direction of the coverage claim (the component iterator wrongly
yields the default-valued entry, and the zip inherits it). -/
theorem C8_zip_yields_defaulted_key :
    (PersistentMap.empty 0 : PersistentMap Nat Nat).Get natId 10 = 0 ∧
    mapWithDefaultEntry.Get natId 10 = 0 ∧
    mapWithDefaultEntry.defVal = 0 ∧
    pmZipSeq 5 (PersistentMap.empty 0) mapWithDefaultEntry = [(10, 0, 0)] := by
  decide

/-- C3 (counterexample to the claim as stated): two empty maps with
different default values compare equal under `operator==` — the root
comparison short-circuits on two null roots before defaults are checked —
yet their defaults (and hence all their `Get` results) differ. -/
theorem C3_counterexample :
    ¬ (pmEq (PersistentMap.empty 0 : PersistentMap Nat Nat)
          (PersistentMap.empty 1) = true ↔
        ((PersistentMap.empty 0 : PersistentMap Nat Nat).defVal =
            (PersistentMap.empty 1 : PersistentMap Nat Nat).defVal ∧
          ∀ k, (PersistentMap.empty 0 : PersistentMap Nat Nat).Get natId k =
            (PersistentMap.empty 1 : PersistentMap Nat Nat).Get natId k)) := by
  intro hiff
  have h := hiff.mp (by decide)
  exact absurd h.1 (by decide)

/-! ### Iteration order: positions and the iterator invariant -/

/-- The iteration position of a key: the 32-bit hash first, then the key
(C++ `iterator::operator<`). -/
def posOf (k : K) : Nat × K := (hashOf hashF k, k)

/-- Strict lexicographic order on iteration positions: unsigned 32-bit hash
first, key second. -/
def posLt (a b : Nat × K) : Prop := a.1 < b.1 ∨ (a.1 = b.1 ∧ a.2 < b.2)

theorem posLt_trans {a b c : Nat × K} (h1 : posLt a b) (h2 : posLt b c) :
    posLt a c := by
  rcases h1 with h1 | ⟨h1e, h1k⟩
  · rcases h2 with h2 | ⟨h2e, h2k⟩
    · exact Or.inl (lt_trans h1 h2)
    · exact Or.inl (h2e ▸ h1)
  · rcases h2 with h2 | ⟨h2e, h2k⟩
    · exact Or.inl (h1e ▸ h2)
    · exact Or.inr ⟨h1e.trans h2e, lt_trans h1k h2k⟩

/-- MSB-first bit comparison: two 32-bit numbers agreeing above position `l`
with bits `0 < 1` at `l` compare as `<`. -/
theorem msb_lt {h1 h2 l : Nat} (hl1 : h1 < 2 ^ 32) (hl2 : h2 < 2 ^ 32)
    (hl : l < 32) (hag : AgreeBelow h1 h2 l)
    (hb1 : hashBit h1 l = false) (hb2 : hashBit h2 l = true) : h1 < h2 := by
  apply Nat.lt_of_testBit (31 - l)
  · exact hb1
  · exact hb2
  · intro j hj
    by_cases hj32 : j < 32
    · have := hag (31 - j) (by omega)
      unfold hashBit at this
      rwa [show 31 - (31 - j) = j by omega] at this
    · have hpow : (2 : Nat) ^ 32 ≤ 2 ^ j := Nat.pow_le_pow_right (by norm_num) (by omega)
      rw [Nat.testBit_lt_two_pow (lt_of_lt_of_le hl1 hpow),
        Nat.testBit_lt_two_pow (lt_of_lt_of_le hl2 hpow)]

/-- The ascent loop stops at the highest level below its start whose hash
bit goes left and whose stored alternative is non-null. -/
theorem ascend_some {kh : Nat} {path : Nat → Option (FocusedTree K V)} :
    ∀ {n l : Nat}, ascend kh path n = some l →
      l < n ∧ hashBit kh l = false ∧ (path l).isSome = true ∧
      ∀ l', l < l' → l' < n → hashBit kh l' = true ∨ path l' = none := by
  intro n
  induction n with
  | zero => intro l h; exact absurd h (by simp [ascend])
  | succ n ih =>
    intro l h
    rw [ascend] at h
    split at h
    · rename_i hcond
      obtain ⟨h1, h2, h3, h4⟩ := ih h
      refine ⟨by omega, h2, h3, ?_⟩
      intro l' hl1 hl2
      by_cases hl' : l' < n
      · exact h4 l' hl1 hl'
      · have hor : hashBit kh n = true ∨ path n = none := by simpa using hcond
        have hln : l' = n := by omega
        rw [hln]
        exact hor
    · rename_i hcond
      cases h
      have hb : hashBit kh n = false := by
        cases hx : hashBit kh n
        · rfl
        · exact absurd (by simp [hx]) hcond
      have hp : (path n).isSome = true := by
        cases hx : path n
        · exact absurd (by simp [hx]) hcond
        · simp [hx]
      exact ⟨Nat.lt_succ_self n, hb, hp, fun l' h1 h2 => by omega⟩

/-- Specification of the leftmost descent: the resulting leaf is
well-formed, lies at or below the final level, agrees with the start node
below the start level, the path array is only written at the traversed
levels, and every non-null alternative recorded there is a well-formed
right-hand subtree of the final leaf's position. -/
theorem FindLeftmost_spec : ∀ (fuel : Nat) (t : FocusedTree K V) (d : Nat)
    (p : Nat → Option (FocusedTree K V)), WfT hashF t → 33 - d ≤ fuel → d ≤ 32 →
    WfT hashF (FindLeftmost fuel t d p).1 ∧
    (FindLeftmost fuel t d p).1.length ≤ (FindLeftmost fuel t d p).2.1 ∧
    (d ≤ (FindLeftmost fuel t d p).2.1 ∧ (FindLeftmost fuel t d p).2.1 ≤ 32) ∧
    AgreeBelow (FindLeftmost fuel t d p).1.key_hash t.key_hash d ∧
    (∀ l, l < d → (FindLeftmost fuel t d p).2.2 l = p l) ∧
    (∀ l c, d ≤ l → l < (FindLeftmost fuel t d p).2.1 →
      (FindLeftmost fuel t d p).2.2 l = some c →
      hashBit (FindLeftmost fuel t d p).1.key_hash l = false ∧ WfT hashF c ∧
      AgreeBelow c.key_hash (FindLeftmost fuel t d p).1.key_hash l ∧
      hashBit c.key_hash l = true) := by
  intro fuel
  induction fuel with
  | zero =>
    intro t d p _ hfuel hd
    exact absurd hfuel (by omega)
  | succ fuel ih =>
    intro t d p hwf hfuel hd
    by_cases hlen : d < t.length
    · have hd31 : d + 1 ≤ 32 := by
        have := WfT.length_le hashF hwf
        omega
      cases hbit : hashBit t.key_hash d with
      | false =>
        have hgc : GetChild t d false = some t := by simp [GetChild, hbit]
        have hgc2 : GetChild t d true = t.pathAt d := by simp [GetChild, hbit, hlen]
        have hred : FindLeftmost (fuel + 1) t d p =
            FindLeftmost fuel t (d + 1)
              (fun j => if j = d then GetChild t d true else p j) := by
          rw [FindLeftmost, if_pos hlen, hgc]
        rw [hred]
        obtain ⟨ih1, ih2, ih3, ih5, ih6, ih7⟩ :=
          ih t (d + 1) (fun j => if j = d then GetChild t d true else p j) hwf
            (by omega) hd31
        refine ⟨ih1, ih2, ⟨by omega, ih3.2⟩, ih5.mono (by omega), ?_, ?_⟩
        · intro l hl
          rw [ih6 l (by omega)]
          simp only [if_neg (by omega : ¬ l = d)]
        · intro l c hdl hllt hc
          rcases Nat.eq_or_lt_of_le hdl with rfl | hdl'
          · rw [ih6 d (by omega)] at hc
            simp only [if_pos rfl, hgc2] at hc
            have hside := WfT.side hashF hwf d c hc
            have hchild := WfT.child hashF hwf d c hc
            have hbl : hashBit (FindLeftmost fuel t (d + 1)
                (fun j => if j = d then GetChild t d true else p j)).1.key_hash d =
                false := by
              rw [ih5 d (by omega)]
              exact hbit
            refine ⟨hbl, hchild, ?_, ?_⟩
            · intro j hj
              rw [hside.1 j hj, (ih5 j (by omega)).symm]
            · cases hcb : hashBit c.key_hash d
              · exact absurd (hcb.trans hbit.symm) hside.2
              · rfl
          · exact ih7 l c (by omega) hllt hc
      | true =>
        cases hpd : t.pathAt d with
        | some child =>
          have hgc : GetChild t d false = some child := by
            simp [GetChild, hbit, hlen, hpd]
          have hgc2 : GetChild t d true = some t := by simp [GetChild, hbit]
          have hside := WfT.side hashF hwf d child hpd
          have hchild := WfT.child hashF hwf d child hpd
          have hcbit : hashBit child.key_hash d = false := by
            cases hcb : hashBit child.key_hash d
            · rfl
            · exact absurd (hcb.trans hbit.symm) hside.2
          have hred : FindLeftmost (fuel + 1) t d p =
              FindLeftmost fuel child (d + 1)
                (fun j => if j = d then GetChild t d true else p j) := by
            rw [FindLeftmost, if_pos hlen, hgc]
          rw [hred]
          obtain ⟨ih1, ih2, ih3, ih5, ih6, ih7⟩ :=
            ih child (d + 1) (fun j => if j = d then GetChild t d true else p j)
              hchild (by omega) hd31
          refine ⟨ih1, ih2, ⟨by omega, ih3.2⟩, ?_, ?_, ?_⟩
          · intro j hj
            rw [ih5 j (by omega), hside.1 j hj]
          · intro l hl
            rw [ih6 l (by omega)]
            simp only [if_neg (by omega : ¬ l = d)]
          · intro l c hdl hllt hc
            rcases Nat.eq_or_lt_of_le hdl with rfl | hdl'
            · rw [ih6 d (by omega)] at hc
              simp only [if_pos rfl, hgc2] at hc
              cases hc
              have hbl : hashBit (FindLeftmost fuel child (d + 1)
                  (fun j => if j = d then GetChild t d true else p j)).1.key_hash d =
                  false := by
                rw [ih5 d (by omega)]
                exact hcbit
              refine ⟨hbl, hwf, ?_, hbit⟩
              intro j hj
              rw [(hside.1 j hj).symm, (ih5 j (by omega)).symm]
            · exact ih7 l c (by omega) hllt hc
        | none =>
          have hgc : GetChild t d false = none := by
            simp [GetChild, hbit, hlen, hpd]
          have hgc2 : GetChild t d true = some t := by simp [GetChild, hbit]
          have hred : FindLeftmost (fuel + 1) t d p =
              FindLeftmost fuel t (d + 1)
                (fun j => if j = d then GetChild t d false else p j) := by
            rw [FindLeftmost, if_pos hlen, hgc, hgc2]
          rw [hred]
          obtain ⟨ih1, ih2, ih3, ih5, ih6, ih7⟩ :=
            ih t (d + 1) (fun j => if j = d then GetChild t d false else p j) hwf
              (by omega) hd31
          refine ⟨ih1, ih2, ⟨by omega, ih3.2⟩, ih5.mono (by omega), ?_, ?_⟩
          · intro l hl
            rw [ih6 l (by omega)]
            simp only [if_neg (by omega : ¬ l = d)]
          · intro l c hdl hllt hc
            rcases Nat.eq_or_lt_of_le hdl with rfl | hdl'
            · rw [ih6 d (by omega)] at hc
              simp only [if_pos rfl, hgc] at hc
              exact Option.noConfusion hc
            · exact ih7 l c (by omega) hllt hc
    · have hred : FindLeftmost (fuel + 1) t d p = (t, d, p) := by
        rw [FindLeftmost, if_neg hlen]
      rw [hred]
      refine ⟨hwf, ?_, ⟨le_refl d, hd⟩, fun j hj => rfl, fun l hl => rfl, ?_⟩
      · show t.length ≤ d
        omega
      · intro l c h1 h2 _
        have h2' : l < d := h2
        exact absurd h2' (by omega)

/-- The invariant of iterator states reachable on a well-formed tree,
relative to the current node `cur`: the node is well-formed, its focused
path is exhausted at or above the current level, the bucket position is a
nonempty suffix of the bucket, and every alternative stored in the path
array at a left-going level of the current hash is a well-formed subtree
branching right at exactly that level. -/
def InvC (it : Iter K V) (cur : FocusedTree K V) : Prop :=
  WfT hashF cur ∧ cur.length ≤ it.level ∧ it.level ≤ 32 ∧
  (∀ mm, cur.more = some mm → it.moreIter ≠ [] ∧ it.moreIter.IsSuffix mm) ∧
  (∀ l c, l < it.level → hashBit cur.key_hash l = false → it.path l = some c →
    WfT hashF c ∧ AgreeBelow c.key_hash cur.key_hash l ∧ hashBit c.key_hash l = true)

/-- The invariant for arbitrary iterator states (vacuous past the end). -/
def Inv (it : Iter K V) : Prop := ∀ cur, it.current = some cur → InvC hashF it cur

/-- An invariant-satisfying iterator state with a current node dereferences
to an entry whose key hashes to the node's stored hash. -/
theorem iterCur_of_inv {it : Iter K V} {cur : FocusedTree K V}
    (hcur : it.current = some cur) (hinv : InvC hashF it cur) :
    ∃ e, iterCur it = some e ∧ hashOf hashF e.1 = cur.key_hash := by
  obtain ⟨hwf, _, _, hmi, _⟩ := hinv
  cases hmm : cur.more with
  | none =>
    refine ⟨cur.key_value, ?_, (WfT.hash_eq hashF hwf).symm⟩
    unfold iterCur
    rw [hcur]
    simp [hmm]
  | some mm =>
    obtain ⟨hne, hsuf⟩ := hmi mm hmm
    cases hmi' : it.moreIter with
    | nil => exact absurd hmi' hne
    | cons e rest =>
      refine ⟨e, ?_, ?_⟩
      · unfold iterCur
        rw [hcur]
        simp [hmm, hmi']
      · have hmem : e ∈ mm := hsuf.subset (by rw [hmi']; exact List.mem_cons_self e rest)
        exact (WfT.bucket hashF hwf mm hmm).2.2 e hmem

/-- `begin` on a well-formed tree establishes the iterator invariant. -/
theorem iterBegin_inv (t : FocusedTree K V) (dv : V) (hwf : WfT hashF t) :
    Inv hashF (iterBegin t dv) := by
  intro cur hcur
  obtain ⟨s1, s2, s3, _, _, s6⟩ :=
    FindLeftmost_spec hashF hashFuel t 0 (fun _ => none) hwf (by rw [hashFuel]) (by omega)
  have hcur' : cur = (FindLeftmost hashFuel t 0 (fun _ => none)).1 := by
    have : (iterBegin t dv).current =
        some (FindLeftmost hashFuel t 0 (fun _ => none)).1 := rfl
    rw [this] at hcur
    exact (Option.some_inj.mp hcur).symm
  subst hcur'
  refine ⟨s1, s2, s3.2, ?_, ?_⟩
  · intro mm hmm
    have hmi : (iterBegin t dv).moreIter = mm := by
      show (match (FindLeftmost hashFuel t 0 (fun _ => none)).1.more with
            | some mm => mm
            | none => []) = mm
      rw [hmm]
    rw [hmi]
    exact ⟨((WfT.bucket hashF s1) mm hmm).1, List.suffix_refl mm⟩
  · intro l c hl _ hc
    obtain ⟨_, w2, w3, w4⟩ := s6 l c (by omega) hl hc
    exact ⟨w2, w3, w4⟩

/-- One tree ascent-and-descent (the tail of an `operator++` body pass):
either the iteration ends, or it reaches a new invariant-satisfying state
whose node hash is strictly greater than the old one. -/
theorem stepAscend_spec (it : Iter K V) (cur : FocusedTree K V)
    (hwf : WfT hashF cur) (hlev : it.level ≤ 32)
    (hpath : ∀ l c, l < it.level → hashBit cur.key_hash l = false →
      it.path l = some c →
      WfT hashF c ∧ AgreeBelow c.key_hash cur.key_hash l ∧
        hashBit c.key_hash l = true) :
    (stepAscend it cur).1.current = none ∨
    ∃ cur', (stepAscend it cur).1.current = some cur' ∧
      InvC hashF (stepAscend it cur).1 cur' ∧
      cur.key_hash < cur'.key_hash ∧
      (stepAscend it cur).1.defVal = it.defVal := by
  cases has : ascend cur.key_hash it.path it.level with
  | none =>
    left
    unfold stepAscend
    rw [has]
    rfl
  | some l =>
    obtain ⟨hl, hbitl, hsome, hmax⟩ := ascend_some has
    cases hpl : it.path l with
    | none =>
      left
      unfold stepAscend
      rw [has]
      simp only [hpl]
      rfl
    | some fra =>
      obtain ⟨hfwf, hfag, hfbit⟩ := hpath l fra hl hbitl hpl
      have hl31 : l + 1 ≤ 32 := by omega
      obtain ⟨s1, s2, s3, s5, s6, s7⟩ :=
        FindLeftmost_spec hashF hashFuel fra (l + 1) it.path hfwf
          (by rw [hashFuel]; omega) hl31
      have h1 : (stepAscend it cur).1 =
          { level := (FindLeftmost hashFuel fra (l + 1) it.path).2.1
            moreIter := match (FindLeftmost hashFuel fra (l + 1) it.path).1.more with
                        | some mm => mm
                        | none => it.moreIter
            current := some (FindLeftmost hashFuel fra (l + 1) it.path).1
            path := (FindLeftmost hashFuel fra (l + 1) it.path).2.2
            defVal := it.defVal } := by
        unfold stepAscend
        rw [has]
        simp only [hpl]
        split <;> rfl
      right
      refine ⟨(FindLeftmost hashFuel fra (l + 1) it.path).1, ?_, ?_, ?_, ?_⟩
      · rw [h1]
      · rw [h1]
        refine ⟨s1, s2, s3.2, ?_, ?_⟩
        · intro mm hmm
          have hmir : (match (FindLeftmost hashFuel fra (l + 1) it.path).1.more with
                       | some mm => mm
                       | none => it.moreIter) = mm := by rw [hmm]
          constructor
          · show (match (FindLeftmost hashFuel fra (l + 1) it.path).1.more with
                  | some mm => mm
                  | none => it.moreIter) ≠ []
            rw [hmir]
            exact ((WfT.bucket hashF s1) mm hmm).1
          · show List.IsSuffix (match (FindLeftmost hashFuel fra (l + 1) it.path).1.more
                  with
                  | some mm => mm
                  | none => it.moreIter) mm
            rw [hmir]
        · intro l'' c hl''lt0 hbfalse0 hc0
          have hl''lt : l'' < (FindLeftmost hashFuel fra (l + 1) it.path).2.1 := hl''lt0
          have hbfalse : hashBit (FindLeftmost hashFuel fra
              (l + 1) it.path).1.key_hash l'' = false := hbfalse0
          have hc : (FindLeftmost hashFuel fra (l + 1) it.path).2.2 l'' = some c := hc0
          rcases Nat.lt_or_ge l'' (l + 1) with hcase | hcase
          · rcases Nat.eq_or_lt_of_le (Nat.lt_succ_iff.mp hcase) with heq | hlt
            · exfalso
              rw [s6 l'' (by omega)] at hc
              rw [heq] at hc hbfalse
              rw [hpl] at hc
              cases hc
              have hfra_false : hashBit fra.key_hash l = false :=
                ((s5 l (by omega)).symm).trans hbfalse
              rw [hfbit] at hfra_false
              exact Bool.noConfusion hfra_false
            · rw [s6 l'' (by omega)] at hc
              have hbcur : hashBit cur.key_hash l'' = false := by
                have e1 : hashBit (FindLeftmost hashFuel fra (l + 1)
                    it.path).1.key_hash l'' = hashBit fra.key_hash l'' :=
                  s5 l'' (by omega)
                have e2 : hashBit fra.key_hash l'' = hashBit cur.key_hash l'' :=
                  hfag l'' hlt
                rw [e1, e2] at hbfalse
                exact hbfalse
              obtain ⟨wfc, agc, bitc⟩ := hpath l'' c (by omega) hbcur hc
              refine ⟨wfc, ?_, bitc⟩
              intro j hj
              rw [agc j hj, (hfag j (by omega)).symm, (s5 j (by omega)).symm]
          · obtain ⟨_, w2, w3, w4⟩ := s7 l'' c hcase hl''lt hc
            exact ⟨w2, w3, w4⟩
      · refine msb_lt (WfT.hash_lt hashF hwf) (WfT.hash_lt hashF s1) ?_ ?_ hbitl ?_
        · omega
        · intro j hj
          rw [(hfag j hj).symm, (s5 j (by omega)).symm]
        · rw [s5 l (by omega)]
          exact hfbit
      · rw [h1]

/-- One pass of the do-while body of `operator++`: either the iteration
ends, or the state moves to an entry at a strictly greater position while
keeping the invariant. -/
theorem stepBody_spec (it : Iter K V) (cur : FocusedTree K V)
    (hcur : it.current = some cur) (hinv : InvC hashF it cur) :
    (stepBody it).1.current = none ∨
    ∃ cur' e e', (stepBody it).1.current = some cur' ∧
      InvC hashF (stepBody it).1 cur' ∧
      iterCur it = some e ∧ iterCur (stepBody it).1 = some e' ∧
      posLt (posOf hashF e.1) (posOf hashF e'.1) ∧
      (stepBody it).1.defVal = it.defVal := by
  obtain ⟨hwf, hle, hlev, hmi, hpath⟩ := hinv
  obtain ⟨e0, he0, he0h⟩ := iterCur_of_inv hashF hcur ⟨hwf, hle, hlev, hmi, hpath⟩
  unfold stepBody
  simp only [hcur]
  cases hmm : cur.more with
  | some mm =>
    obtain ⟨hne, hsuf⟩ := hmi mm hmm
    obtain ⟨hd, tl, hhd⟩ : ∃ hd tl, it.moreIter = hd :: tl := by
      cases hx : it.moreIter with
      | nil => exact absurd hx hne
      | cons a b => exact ⟨a, b, rfl⟩
    have he0hd : e0 = hd := by
      unfold iterCur at he0
      rw [hcur] at he0
      simp [hmm, hhd] at he0
      exact he0.symm
    cases hti : it.moreIter.tail with
    | cons e' rest =>
      have htl : tl = e' :: rest := by rw [hhd] at hti; exact hti
      right
      refine ⟨cur, e0, e', rfl, ?_, he0, ?_, ?_, rfl⟩
      · have hsuf' : List.IsSuffix (e' :: rest) mm := by
          refine List.IsSuffix.trans ?_ hsuf
          rw [hhd, htl]
          exact List.suffix_cons hd (e' :: rest)
        exact ⟨hwf, hle, hlev, fun mm' hmm' => by
          rw [hmm] at hmm'
          cases hmm'
          exact ⟨List.cons_ne_nil e' rest, hsuf'⟩, hpath⟩
      · unfold iterCur
        simp [hmm]
      · have hmem : e' ∈ mm := by
          apply hsuf.subset
          rw [hhd, htl]
          exact List.mem_cons_of_mem hd (List.mem_cons_self e' rest)
        have he'h : hashOf hashF e'.1 = cur.key_hash :=
          (WfT.bucket hashF hwf mm hmm).2.2 e' hmem
        have hkey : e0.1 < e'.1 := by
          rw [he0hd]
          have hpw : (it.moreIter).Pairwise (fun a b => a.1 < b.1) :=
            List.Pairwise.sublist hsuf.sublist (WfT.bucket hashF hwf mm hmm).2.1
          rw [hhd, htl] at hpw
          exact (List.pairwise_cons.mp hpw).1 e' (List.mem_cons_self e' rest)
        exact Or.inr ⟨by simp only [posOf]; rw [he0h, he'h],
          by simp only [posOf]; exact hkey⟩
    | nil =>
      rcases stepAscend_spec hashF { it with moreIter := [] } cur hwf hlev hpath
        with hend | ⟨cur', h1, h2, h3, h4⟩
      · exact Or.inl hend
      · obtain ⟨e', he', he'h⟩ := iterCur_of_inv hashF h1 h2
        right
        exact ⟨cur', e0, e', h1, h2, he0, he',
          Or.inl (by simp only [posOf]; rw [he0h, he'h]; exact h3), h4⟩
  | none =>
    rcases stepAscend_spec hashF it cur hwf hlev hpath
      with hend | ⟨cur', h1, h2, h3, h4⟩
    · exact Or.inl hend
    · obtain ⟨e', he', he'h⟩ := iterCur_of_inv hashF h1 h2
      right
      exact ⟨cur', e0, e', h1, h2, he0, he',
        Or.inl (by simp only [posOf]; rw [he0h, he'h]; exact h3), h4⟩

/-- Any number of body passes either ends the iteration or strictly
advances its position, keeping the invariant. -/
theorem iterNextF_spec : ∀ (fuel : Nat) (it : Iter K V) (cur : FocusedTree K V)
    (e : K × V), it.current = some cur → InvC hashF it cur → iterCur it = some e →
    (iterNextF (fuel + 1) it).current = none ∨
    ∃ cur' e', (iterNextF (fuel + 1) it).current = some cur' ∧
      InvC hashF (iterNextF (fuel + 1) it) cur' ∧
      iterCur (iterNextF (fuel + 1) it) = some e' ∧
      posLt (posOf hashF e.1) (posOf hashF e'.1) := by
  intro fuel
  induction fuel with
  | zero =>
    intro it cur e hcur hinv he
    have hred : iterNextF 1 it = (stepBody it).1 := by
      rw [iterNextF]
      cases hflag : (stepBody it).2
      · rw [if_neg (by simp)]
        rfl
      · rw [if_pos rfl]
    rw [hred]
    rcases stepBody_spec hashF it cur hcur hinv
      with hend | ⟨cur', e1, e', h1, h2, he1, he', hlt, _⟩
    · exact Or.inl hend
    · have hee : e = e1 := by
        rw [he] at he1
        exact Option.some_inj.mp he1
      rw [← hee] at hlt
      exact Or.inr ⟨cur', e', h1, h2, he', hlt⟩
  | succ fuel ih =>
    intro it cur e hcur hinv he
    rcases stepBody_spec hashF it cur hcur hinv
      with hend | ⟨cur', e1, e', h1, h2, he1, he', hlt, _⟩
    · left
      rw [iterNextF]
      cases hflag : (stepBody it).2
      · rw [if_neg (by simp)]
        rw [iterNextF_of_end _ _ hend]
        exact hend
      · rw [if_pos rfl]
        exact hend
    · have hee : e = e1 := by
        rw [he] at he1
        exact Option.some_inj.mp he1
      rw [← hee] at hlt
      rw [iterNextF]
      cases hflag : (stepBody it).2
      · rw [if_neg (by simp)]
        rcases ih (stepBody it).1 cur' e' h1 h2 he'
          with hend2 | ⟨cur'', e'', g1, g2, g3, g4⟩
        · exact Or.inl hend2
        · exact Or.inr ⟨cur'', e'', g1, g2, g3, posLt_trans hlt g4⟩
      · rw [if_pos rfl]
        exact Or.inr ⟨cur', e', h1, h2, he', hlt⟩

theorem iterFuel_pos (it : Iter K V) : 1 ≤ iterFuel it := by
  unfold iterFuel
  omega

/-- `operator++` either ends the iteration or strictly advances its
position, keeping the invariant. -/
theorem iterNext_spec (it : Iter K V) (cur : FocusedTree K V) (e : K × V)
    (hcur : it.current = some cur) (hinv : InvC hashF it cur)
    (he : iterCur it = some e) :
    (iterNext it).current = none ∨
    ∃ cur' e', (iterNext it).current = some cur' ∧
      InvC hashF (iterNext it) cur' ∧ iterCur (iterNext it) = some e' ∧
      posLt (posOf hashF e.1) (posOf hashF e'.1) := by
  have h1 : iterFuel it = (iterFuel it - 1) + 1 := by
    have := iterFuel_pos it
    omega
  unfold iterNext
  rw [h1]
  exact iterNextF_spec hashF (iterFuel it - 1) it cur e hcur hinv he

/-- The yield sequence of any invariant-satisfying iterator is strictly
increasing in position, and bounded below by the current entry. -/
theorem iterSeq_sorted : ∀ (n : Nat) (it : Iter K V), Inv hashF it →
    ((iterSeq n it).Pairwise (fun a b => posLt (posOf hashF a.1) (posOf hashF b.1))) ∧
    (∀ p ∈ iterSeq n it, ∀ e, iterCur it = some e →
      p = e ∨ posLt (posOf hashF e.1) (posOf hashF p.1)) := by
  intro n
  induction n with
  | zero =>
    intro it _
    exact ⟨List.Pairwise.nil, fun p hp => absurd hp (List.not_mem_nil p)⟩
  | succ n ih =>
    intro it hinv
    cases hc : iterCur it with
    | none =>
      constructor
      · rw [iterSeq]
        simp only [hc]
        exact List.Pairwise.nil
      · intro p hp
        rw [iterSeq] at hp
        simp only [hc] at hp
        exact absurd hp (List.not_mem_nil p)
    | some e =>
      obtain ⟨cur, hcur⟩ : ∃ cur, it.current = some cur := by
        unfold iterCur at hc
        cases hx : it.current
        · rw [hx] at hc
          exact Option.noConfusion hc
        · exact ⟨_, rfl⟩
      have hinvc := hinv cur hcur
      have hred : iterSeq (n + 1) it = e :: iterSeq n (iterNext it) := by
        rw [iterSeq]
        simp only [hc]
      rw [hred]
      rcases iterNext_spec hashF it cur e hcur hinvc hc
        with hend | ⟨cur', e', g1, g2, g3, g4⟩
      · have hnone : iterCur (iterNext it) = none := by
          unfold iterCur
          rw [hend]
        have hseqnil : iterSeq n (iterNext it) = [] := by
          cases n
          · rfl
          · rw [iterSeq]
            simp only [hnone]
        rw [hseqnil]
        refine ⟨List.pairwise_singleton _ _, ?_⟩
        intro p hp e2 he2
        have he2e : e2 = e := (Option.some_inj.mp he2).symm
        rw [List.mem_singleton] at hp
        exact Or.inl (hp.trans he2e.symm)
      · have hinv' : Inv hashF (iterNext it) := by
          intro cur2 hcur2
          rw [g1] at hcur2
          cases hcur2
          exact g2
        obtain ⟨ihp, ihb⟩ := ih (iterNext it) hinv'
        constructor
        · refine List.Pairwise.cons ?_ ihp
          intro b hb
          rcases ihb b hb e' g3 with heq | hlt
          · rw [heq]
            exact g4
          · exact posLt_trans g4 hlt
        · intro p hp e2 he2
          have he2e : e2 = e := (Option.some_inj.mp he2).symm
          rcases List.mem_cons.mp hp with heq | hp'
          · exact Or.inl (heq.trans he2e.symm)
          · right
            rcases ihb p hp' e' g3 with heq' | hlt'
            · rw [he2e, heq']
              exact g4
            · rw [he2e]
              exact posLt_trans g4 hlt'

/-- C7: iteration order. For every well-formed map `m` (in particular any
map built by `Add`s) and any number of yields, the sequence of positions
`(hash(k_i), k_i)` over successive iterator yields `(k_i, _)` is strictly
increasing in lexicographic order, comparing the 32-bit hash as an unsigned
integer first and the key second. -/
theorem C7_iteration_order (m : PersistentMap K V) (hwf : WfM hashF m) (n : Nat) :
    (pmSeq n m).Pairwise (fun a b => posLt (posOf hashF a.1) (posOf hashF b.1)) := by
  have hinv : Inv hashF m.begin := by
    unfold PersistentMap.begin
    cases hx : m.tree with
    | none =>
      intro cur hcur
      exact Option.noConfusion hcur
    | some t =>
      simp only
      exact iterBegin_inv hashF t m.defVal (hwf t hx)
  exact (iterSeq_sorted hashF n m.begin hinv).1

/-! ### The entry list of a subtree and the iterator remainder -/

/-- The entries stored in a node itself: the collision bucket, or the
focused pair alone. -/
def focusedList (t : FocusedTree K V) : List (K × V) :=
  match t.more with
  | some mm => mm
  | none => [t.key_value]

/-- All key-value entries of the subtree of `t` as seen from level `d`
(side pointers below `d` belong to enclosing subtrees), in iteration
order: at each level the left branch comes first. -/
def entriesFrom (t : FocusedTree K V) (d : Nat) : List (K × V) :=
  if t.length ≤ d then focusedList t
  else
    match hp : t.pathAt d with
    | none => entriesFrom t (d + 1)
    | some c =>
      if hashBit t.key_hash d then entriesFrom c (d + 1) ++ entriesFrom t (d + 1)
      else entriesFrom t (d + 1) ++ entriesFrom c (d + 1)
termination_by (sizeOf t, t.length - d)
decreasing_by
  all_goals first
    | (apply Prod.Lex.right; omega)
    | (apply Prod.Lex.left; exact sizeOf_lt_of_pathAt hp)

/-- The key-value entries of a map. -/
def entriesOf (m : PersistentMap K V) : List (K × V) :=
  match m.tree with
  | none => []
  | some t => entriesFrom t 0

/-- One slot of pending work of the iterator at level `l`: the recorded
alternative when the current hash goes left there. -/
def slotEntries (kh : Nat) (path : Nat → Option (FocusedTree K V)) (l : Nat) :
    List (K × V) :=
  if hashBit kh l then []
  else
    match path l with
    | some c => entriesFrom c (l + 1)
    | none => []

/-- The pending entries recorded in the path array at levels `[lo, hi)`,
highest level first (the order the ascent loop reaches them). -/
def pendingBetween (kh : Nat) (path : Nat → Option (FocusedTree K V)) (lo : Nat) :
    Nat → List (K × V)
  | 0 => []
  | hi + 1 =>
    if lo ≤ hi then slotEntries kh path hi ++ pendingBetween kh path lo hi else []

/-- The rest of the current node's own entry list. -/
def focusTail (it : Iter K V) (cur : FocusedTree K V) : List (K × V) :=
  match cur.more with
  | some _ => it.moreIter
  | none => [cur.key_value]

/-- The entries an iterator state has not yet moved past: the rest of the
current node's entries, then the pending side subtrees. -/
def remIter (it : Iter K V) (cur : FocusedTree K V) : List (K × V) :=
  focusTail it cur ++ pendingBetween cur.key_hash it.path 0 it.level

theorem entriesFrom_base {t : FocusedTree K V} {d : Nat} (h : t.length ≤ d) :
    entriesFrom t d = focusedList t := by
  rw [entriesFrom, if_pos h]

theorem entriesFrom_nil {t : FocusedTree K V} {d : Nat} (h : ¬ t.length ≤ d)
    (hp : t.pathAt d = none) : entriesFrom t d = entriesFrom t (d + 1) := by
  rw [entriesFrom, if_neg h]
  split
  · rfl
  · rename_i c' heq
    rw [hp] at heq
    exact Option.noConfusion heq

theorem entriesFrom_right {t : FocusedTree K V} {d : Nat} {c : FocusedTree K V}
    (h : ¬ t.length ≤ d) (hp : t.pathAt d = some c)
    (hb : hashBit t.key_hash d = true) :
    entriesFrom t d = entriesFrom c (d + 1) ++ entriesFrom t (d + 1) := by
  rw [entriesFrom, if_neg h]
  split
  · rename_i heq
    rw [hp] at heq
    exact Option.noConfusion heq
  · rename_i c' heq
    have hcc : c' = c := by
      rw [hp] at heq
      exact (Option.some_inj.mp heq).symm
    subst hcc
    simp [hb]

theorem entriesFrom_left {t : FocusedTree K V} {d : Nat} {c : FocusedTree K V}
    (h : ¬ t.length ≤ d) (hp : t.pathAt d = some c)
    (hb : hashBit t.key_hash d = false) :
    entriesFrom t d = entriesFrom t (d + 1) ++ entriesFrom c (d + 1) := by
  rw [entriesFrom, if_neg h]
  split
  · rename_i heq
    rw [hp] at heq
    exact Option.noConfusion heq
  · rename_i c' heq
    have hcc : c' = c := by
      rw [hp] at heq
      exact (Option.some_inj.mp heq).symm
    subst hcc
    simp [hb]

theorem bucketFind_of_mem : ∀ {l : List (K × V)} {k : K} {v : V},
    l.Pairwise (fun a b => a.1 < b.1) → (k, v) ∈ l → bucketFind l k = some v := by
  intro l
  induction l with
  | nil =>
    intro k v _ h
    exact absurd h (List.not_mem_nil _)
  | cons a rest ih =>
    intro k v hpw hmem
    obtain ⟨k', v'⟩ := a
    rw [bucketFind]
    rcases List.mem_cons.mp hmem with heq | hmem'
    · cases heq
      rw [if_pos rfl]
    · have hlt : k' < k := (List.pairwise_cons.mp hpw).1 (k, v) hmem'
      rw [if_neg (ne_of_gt hlt)]
      exact ih (List.pairwise_cons.mp hpw).2 hmem'

/-- The entry list of a well-formed subtree is nonempty, its keys hash into
the node's hash prefix, and it is strictly sorted by position. -/
theorem entriesFrom_spec (t : FocusedTree K V) (d : Nat) (hwf : WfT hashF t) :
    entriesFrom t d ≠ [] ∧
    (∀ e ∈ entriesFrom t d, AgreeBelow (hashOf hashF e.1) t.key_hash d) ∧
    (entriesFrom t d).Pairwise (fun a b => posLt (posOf hashF a.1) (posOf hashF b.1)) := by
  by_cases h : t.length ≤ d
  · rw [entriesFrom_base h]
    unfold focusedList
    cases hmm : t.more with
    | some mm =>
      obtain ⟨hne, hpw, hhash⟩ := WfT.bucket hashF hwf mm hmm
      refine ⟨hne, ?_, ?_⟩
      · intro e he
        have : hashOf hashF e.1 = t.key_hash := hhash e he
        rw [this]
        exact fun j _ => rfl
      · refine List.Pairwise.imp_of_mem ?_ hpw
        intro a b ha hb hab
        exact Or.inr ⟨by
          simp only [posOf]
          rw [hhash a ha, hhash b hb], hab⟩
    | none =>
      refine ⟨List.cons_ne_nil _ _, ?_, List.pairwise_singleton _ _⟩
      intro e he
      rw [List.mem_singleton] at he
      subst he
      rw [← WfT.hash_eq hashF hwf]
      exact fun j _ => rfl
  · have hlen := WfT.length_le hashF hwf
    have hd32 : d < 32 := by omega
    cases hp : t.pathAt d with
    | none =>
      rw [entriesFrom_nil h hp]
      obtain ⟨ih1, ih2, ih3⟩ := entriesFrom_spec t (d + 1) hwf
      exact ⟨ih1, fun e he => (ih2 e he).mono (by omega), ih3⟩
    | some c =>
      have hcwf := WfT.child hashF hwf d c hp
      have hside := WfT.side hashF hwf d c hp
      obtain ⟨it1, it2, it3⟩ := entriesFrom_spec t (d + 1) hwf
      obtain ⟨ic1, ic2, ic3⟩ := entriesFrom_spec c (d + 1) hcwf
      have hagT : ∀ e ∈ entriesFrom t (d + 1),
          AgreeBelow (hashOf hashF e.1) t.key_hash d ∧
          hashBit (hashOf hashF e.1) d = hashBit t.key_hash d := by
        intro e he
        exact ⟨(it2 e he).mono (by omega), it2 e he d (by omega)⟩
      have hagC : ∀ e ∈ entriesFrom c (d + 1),
          AgreeBelow (hashOf hashF e.1) t.key_hash d ∧
          hashBit (hashOf hashF e.1) d = hashBit c.key_hash d := by
        intro e he
        refine ⟨?_, ic2 e he d (by omega)⟩
        intro j hj
        rw [ic2 e he j (by omega), hside.1 j hj]
      cases hb : hashBit t.key_hash d with
      | true =>
        have hcb : hashBit c.key_hash d = false := by
          cases hx : hashBit c.key_hash d
          · rfl
          · exact absurd (hx.trans hb.symm) hside.2
        rw [entriesFrom_right h hp hb]
        refine ⟨by simp [ic1], ?_, ?_⟩
        · intro e he
          rcases List.mem_append.mp he with he' | he'
          · exact (hagC e he').1
          · exact (hagT e he').1
        · rw [List.pairwise_append]
          refine ⟨ic3, it3, ?_⟩
          intro a ha b hb'
          refine Or.inl ?_
          simp only [posOf]
          refine msb_lt (hashOf_lt hashF a.1) (hashOf_lt hashF b.1) hd32 ?_ ?_ ?_
          · intro j hj
            rw [(hagC a ha).1 j hj, (hagT b hb').1 j hj]
          · rw [(hagC a ha).2, hcb]
          · rw [(hagT b hb').2, hb]
      | false =>
        have hcb : hashBit c.key_hash d = true := by
          cases hx : hashBit c.key_hash d
          · exact absurd (hx.trans hb.symm) hside.2
          · rfl
        rw [entriesFrom_left h hp hb]
        refine ⟨by simp [it1], ?_, ?_⟩
        · intro e he
          rcases List.mem_append.mp he with he' | he'
          · exact (hagT e he').1
          · exact (hagC e he').1
        · rw [List.pairwise_append]
          refine ⟨it3, ic3, ?_⟩
          intro a ha b hb'
          refine Or.inl ?_
          simp only [posOf]
          refine msb_lt (hashOf_lt hashF a.1) (hashOf_lt hashF b.1) hd32 ?_ ?_ ?_
          · intro j hj
            rw [(hagT a ha).1 j hj, (hagC b hb').1 j hj]
          · rw [(hagT a ha).2, hb]
          · rw [(hagC b hb').2, hcb]
termination_by (sizeOf t, t.length - d)
decreasing_by
  all_goals first
    | (apply Prod.Lex.right; omega)
    | (apply Prod.Lex.left; exact sizeOf_lt_of_pathAt hp)

theorem pathAt_some_lt {t : FocusedTree K V} {i : Nat} {c : FocusedTree K V}
    (h : t.pathAt i = some c) : i < t.length := by
  by_contra hge
  unfold FocusedTree.pathAt at h
  rw [List.getD_eq_getElem?_getD, List.getElem?_eq_none (by
    show t.path.length ≤ i
    unfold FocusedTree.length at hge
    omega)] at h
  exact Option.noConfusion h

theorem bucketFind_mem : ∀ {l : List (K × V)} {k : K} {v : V},
    bucketFind l k = some v → (k, v) ∈ l := by
  intro l
  induction l with
  | nil =>
    intro k v h
    exact absurd h (by rw [bucketFind]; simp)
  | cons a rest ih =>
    intro k v h
    obtain ⟨k', v'⟩ := a
    rw [bucketFind] at h
    split at h
    · rename_i hk
      cases Option.some_inj.mp h
      rw [hk]
      exact List.mem_cons_self _ _
    · exact List.mem_cons_of_mem _ (ih h)

/-- `FindHash` only depends on the level through the first divergence, so
the level can be moved up across agreeing bits. -/
theorem FindHash_level_shift (fuel h : Nat) (t : FocusedTree K V) (l1 l2 : Nat)
    (hag : AgreeBelow h t.key_hash l2) (hle : l1 ≤ l2) (hl2 : l2 ≤ 32) :
    FindHash fuel h t l1 = FindHash fuel h t l2 := by
  cases fuel with
  | zero => rfl
  | succ fuel =>
    rw [FindHash, FindHash]
    by_cases hne : h = t.key_hash
    · rw [if_pos hne, if_pos hne]
    · rw [if_neg hne, if_neg hne]
      have hshift : firstDiffFrom (h ^^^ t.key_hash) l1 =
          firstDiffFrom (h ^^^ t.key_hash) l2 := by
        apply firstDiffFrom_shift _ l1 l2 hle hl2
        intro j hj1 hj2
        exact (hashBit_xor_eq_false h t.key_hash j).mpr (hag j hj2)
      rw [hshift]

/-- G1: every entry of a well-formed subtree is retrieved by the
hash-directed lookup: iteration is sound for `Get`. -/
theorem entries_Get (dv : V) (t : FocusedTree K V) (d : Nat) (k : K) (v : V)
    (hwf : WfT hashF t) (hd : d ≤ 32) (hmem : (k, v) ∈ entriesFrom t d) :
    GetFocusedValue dv (FindHash hashFuel (hashOf hashF k) t d) k = v := by
  by_cases h : t.length ≤ d
  · rw [entriesFrom_base h] at hmem
    unfold focusedList at hmem
    cases hmm : t.more with
    | some mm =>
      rw [hmm] at hmem
      have hk : hashOf hashF k = t.key_hash :=
        (WfT.bucket hashF hwf mm hmm).2.2 (k, v) hmem
      have hfh : FindHash hashFuel (hashOf hashF k) t d = some t := by
        rw [FindHash_hashFuel_unfold, if_pos hk]
      rw [hfh]
      unfold GetFocusedValue
      simp only [hmm]
      rw [bucketFind_of_mem (WfT.bucket hashF hwf mm hmm).2.1 hmem]
    | none =>
      rw [hmm] at hmem
      rw [List.mem_singleton] at hmem
      have hkk : k = t.key_value.1 := congrArg Prod.fst hmem
      have hk : hashOf hashF k = t.key_hash := by
        rw [WfT.hash_eq hashF hwf, hkk]
      have hfh : FindHash hashFuel (hashOf hashF k) t d = some t := by
        rw [FindHash_hashFuel_unfold, if_pos hk]
      rw [hfh]
      unfold GetFocusedValue
      simp only [hmm]
      rw [if_pos hkk]
      exact (congrArg Prod.snd hmem).symm
  · have hlen := WfT.length_le hashF hwf
    have hd31 : d + 1 ≤ 32 := by omega
    cases hp : t.pathAt d with
    | none =>
      rw [entriesFrom_nil h hp] at hmem
      have hag : AgreeBelow (hashOf hashF k) t.key_hash (d + 1) :=
        (entriesFrom_spec hashF t (d + 1) hwf).2.1 (k, v) hmem
      rw [FindHash_level_shift hashFuel (hashOf hashF k) t d (d + 1) hag
        (by omega) hd31]
      exact entries_Get dv t (d + 1) k v hwf hd31 hmem
    | some c =>
      have hcwf := WfT.child hashF hwf d c hp
      have hside := WfT.side hashF hwf d c hp
      have hdlen : d < t.length := pathAt_some_lt hp
      have hmem' : (k, v) ∈ entriesFrom t (d + 1) ∨ (k, v) ∈ entriesFrom c (d + 1) := by
        cases hb : hashBit t.key_hash d
        · rw [entriesFrom_left h hp hb] at hmem
          exact List.mem_append.mp hmem
        · rw [entriesFrom_right h hp hb] at hmem
          exact (List.mem_append.mp hmem).symm
      rcases hmem' with hmem' | hmem'
      · have hag : AgreeBelow (hashOf hashF k) t.key_hash (d + 1) :=
          (entriesFrom_spec hashF t (d + 1) hwf).2.1 (k, v) hmem'
        rw [FindHash_level_shift hashFuel (hashOf hashF k) t d (d + 1) hag
          (by omega) hd31]
        exact entries_Get dv t (d + 1) k v hwf hd31 hmem'
      · have hagc : AgreeBelow (hashOf hashF k) c.key_hash (d + 1) :=
          (entriesFrom_spec hashF c (d + 1) hcwf).2.1 (k, v) hmem'
        have hbit : hashBit (hashOf hashF k) d ≠ hashBit t.key_hash d := by
          rw [hagc d (by omega)]
          exact hside.2
        have hne : hashOf hashF k ≠ t.key_hash := by
          intro heq
          exact hbit (by rw [heq])
        have hfd : firstDiffFrom (hashOf hashF k ^^^ t.key_hash) d = d := by
          apply firstDiffFrom_eq_of _ _ _ (le_refl d) (by omega)
          · intro j h1 h2
            omega
          · cases hx : hashBit (hashOf hashF k) d <;>
              cases hy : hashBit t.key_hash d <;>
              simp [hashBit_xor, hx, hy] <;>
              exact hbit (hx.trans hy.symm)
        have hred : FindHash hashFuel (hashOf hashF k) t d =
            FindHash 32 (hashOf hashF k) c (d + 1) := by
          rw [FindHash_hashFuel_unfold, if_neg hne, hfd, if_pos hdlen]
          simp only [hp]
        rw [hred, FindHash_fuel hashF (hashOf hashF k) 32 hashFuel c (d + 1) hcwf
          hd31 (by omega) (by rw [hashFuel]; omega)]
        exact entries_Get dv c (d + 1) k v hcwf hd31 hmem'
termination_by (sizeOf t, t.length - d)
decreasing_by
  all_goals first
    | (apply Prod.Lex.right; omega)
    | (apply Prod.Lex.left; exact sizeOf_lt_of_pathAt hp)

/-- G2: every key bound to a non-default value in a well-formed subtree
appears in its entry list: iteration is complete for `Get`. -/
theorem Get_entries (dv : V) (t : FocusedTree K V) (d : Nat) (k : K)
    (hwf : WfT hashF t) (hd : d ≤ 32)
    (hag : AgreeBelow (hashOf hashF k) t.key_hash d)
    (hne : GetFocusedValue dv (FindHash hashFuel (hashOf hashF k) t d) k ≠ dv) :
    (k, GetFocusedValue dv (FindHash hashFuel (hashOf hashF k) t d) k) ∈
      entriesFrom t d := by
  by_cases h : t.length ≤ d
  · rw [entriesFrom_base h]
    by_cases heq : hashOf hashF k = t.key_hash
    · have hfh : FindHash hashFuel (hashOf hashF k) t d = some t := by
        rw [FindHash_hashFuel_unfold, if_pos heq]
      rw [hfh] at hne ⊢
      unfold focusedList
      unfold GetFocusedValue at hne ⊢
      cases hmm : t.more with
      | some mm =>
        simp only [hmm] at hne ⊢
        cases hbf : bucketFind mm k with
        | none => rw [hbf] at hne; exact absurd rfl hne
        | some v => exact bucketFind_mem hbf
      | none =>
        simp only [hmm] at hne ⊢
        by_cases hkk : k = t.key_value.1
        · rw [if_pos hkk] at hne ⊢
          rw [List.mem_singleton]
          exact Prod.ext hkk rfl
        · rw [if_neg hkk] at hne
          exact absurd rfl hne
    · exfalso
      have hfh : FindHash hashFuel (hashOf hashF k) t d = none := by
        rw [FindHash_hashFuel_unfold, if_neg heq]
        have hge := (firstDiffFrom_spec (hashOf hashF k ^^^ t.key_hash) d hd).1
        rw [if_neg (by omega)]
      rw [hfh] at hne
      exact absurd rfl hne
  · have hlen := WfT.length_le hashF hwf
    have hd31 : d + 1 ≤ 32 := by omega
    by_cases hbd : hashBit (hashOf hashF k) d = hashBit t.key_hash d
    · have hag' : AgreeBelow (hashOf hashF k) t.key_hash (d + 1) := by
        intro j hj
        rcases Nat.lt_or_ge j d with hj' | hj'
        · exact hag j hj'
        · have : j = d := by omega
          subst this
          exact hbd
      rw [FindHash_level_shift hashFuel (hashOf hashF k) t d (d + 1) hag'
        (by omega) hd31] at hne ⊢
      have hrec := Get_entries dv t (d + 1) k hwf hd31 hag' hne
      cases hp : t.pathAt d with
      | none => rw [entriesFrom_nil h hp]; exact hrec
      | some c =>
        cases hb : hashBit t.key_hash d
        · rw [entriesFrom_left h hp hb]
          exact List.mem_append_left _ hrec
        · rw [entriesFrom_right h hp hb]
          exact List.mem_append_right _ hrec
    · have hneq : hashOf hashF k ≠ t.key_hash := fun heq => hbd (by rw [heq])
      have hfd : firstDiffFrom (hashOf hashF k ^^^ t.key_hash) d = d := by
        apply firstDiffFrom_eq_of _ _ _ (le_refl d) (by omega)
        · intro j h1 h2
          omega
        · cases hx : hashBit (hashOf hashF k) d <;>
            cases hy : hashBit t.key_hash d <;>
            simp [hashBit_xor, hx, hy] <;>
            exact hbd (hx.trans hy.symm)
      cases hp : t.pathAt d with
      | none =>
        exfalso
        have hfh : FindHash hashFuel (hashOf hashF k) t d = none := by
          rw [FindHash_hashFuel_unfold, if_neg hneq, hfd,
            if_pos (by omega : d < t.length)]
          simp only [hp]
        rw [hfh] at hne
        exact absurd rfl hne
      | some c =>
        have hcwf := WfT.child hashF hwf d c hp
        have hside := WfT.side hashF hwf d c hp
        have hagc : AgreeBelow (hashOf hashF k) c.key_hash (d + 1) := by
          intro j hj
          rcases Nat.lt_or_ge j d with hj' | hj'
          · rw [hag j hj', (hside.1 j hj').symm]
          · have : j = d := by omega
            subst this
            cases hx : hashBit (hashOf hashF k) j
            · cases hy : hashBit c.key_hash j
              · rfl
              · exfalso
                have hty : hashBit t.key_hash j = false := by
                  cases hz : hashBit t.key_hash j
                  · rfl
                  · exact absurd (hy.trans hz.symm) hside.2
                rw [hx, hty] at hbd
                exact hbd rfl
            · cases hy : hashBit c.key_hash j
              · exfalso
                have hty : hashBit t.key_hash j = true := by
                  cases hz : hashBit t.key_hash j
                  · exact absurd (hy.trans hz.symm) hside.2
                  · rfl
                rw [hx, hty] at hbd
                exact hbd rfl
              · rfl
        have hred : FindHash hashFuel (hashOf hashF k) t d =
            FindHash hashFuel (hashOf hashF k) c (d + 1) := by
          rw [FindHash_hashFuel_unfold, if_neg hneq, hfd,
            if_pos (by omega : d < t.length)]
          simp only [hp]
          exact FindHash_fuel hashF (hashOf hashF k) 32 hashFuel c (d + 1) hcwf
            hd31 (by omega) (by rw [hashFuel]; omega)
        rw [hred] at hne ⊢
        have hrec := Get_entries dv c (d + 1) k hcwf hd31 hagc hne
        cases hb : hashBit t.key_hash d
        · rw [entriesFrom_left h hp hb]
          exact List.mem_append_right _ hrec
        · rw [entriesFrom_right h hp hb]
          exact List.mem_append_left _ hrec
termination_by (sizeOf t, t.length - d)
decreasing_by
  all_goals first
    | (apply Prod.Lex.right; omega)
    | (apply Prod.Lex.left; exact sizeOf_lt_of_pathAt hp)

/-- Iteration is sound for `Get` at the map level. -/
theorem entriesOf_Get (m : PersistentMap K V) (hwf : WfM hashF m) (k : K) (v : V)
    (hmem : (k, v) ∈ entriesOf m) : m.Get hashF k = v := by
  unfold entriesOf at hmem
  unfold PersistentMap.Get PersistentMap.findHash
  cases hx : m.tree with
  | none =>
    rw [hx] at hmem
    exact absurd hmem (List.not_mem_nil _)
  | some t =>
    rw [hx] at hmem
    exact entries_Get hashF m.defVal t 0 k v (hwf t hx) (by omega) hmem

/-- Iteration is complete for `Get` at the map level. -/
theorem Get_entriesOf (m : PersistentMap K V) (hwf : WfM hashF m) (k : K)
    (hne : m.Get hashF k ≠ m.defVal) : (k, m.Get hashF k) ∈ entriesOf m := by
  unfold PersistentMap.Get PersistentMap.findHash at hne ⊢
  unfold entriesOf
  cases hx : m.tree with
  | none =>
    exfalso
    rw [hx] at hne
    exact hne rfl
  | some t =>
    rw [hx] at hne
    exact Get_entries hashF m.defVal t 0 k (hwf t hx) (by omega)
      (fun j hj => absurd hj (by omega)) hne

/-- The bucket length of a node. -/
def bucketLen (t : FocusedTree K V) : Nat :=
  match t.more with
  | some mm => mm.length
  | none => 0

theorem treeSize_eq (t : FocusedTree K V) :
    treeSize t = 1 + bucketLen t + pathsSize t.path := by
  cases t
  rfl

theorem pathsSize_cons_le (a : Option (FocusedTree K V))
    (rest : List (Option (FocusedTree K V))) :
    pathsSize rest ≤ pathsSize (a :: rest) := by
  cases a
  · rw [pathsSize]
  · rw [pathsSize]
    omega

theorem pathsSize_drop_le : ∀ (l : List (Option (FocusedTree K V))) (d : Nat),
    pathsSize (l.drop d) ≤ pathsSize l := by
  intro l
  induction l with
  | nil =>
    intro d
    rw [List.drop_nil]
  | cons a rest ih =>
    intro d
    cases d with
    | zero => exact le_refl _
    | succ d =>
      rw [List.drop_succ_cons]
      exact le_trans (ih d) (pathsSize_cons_le a rest)

/-- The number of entries of a subtree is bounded by the executable size
measure. -/
theorem entriesFrom_length_le (t : FocusedTree K V) (d : Nat) :
    (entriesFrom t d).length ≤ 1 + bucketLen t + pathsSize (t.path.drop d) := by
  by_cases h : t.length ≤ d
  · rw [entriesFrom_base h]
    unfold focusedList bucketLen
    cases hmm : t.more
    · simp
    · simp
      omega
  · have hlt : d < t.length := by omega
    have hlt' : d < t.path.length := hlt
    have hdrop : t.path.drop d = t.path[d] :: t.path.drop (d + 1) :=
      List.drop_eq_getElem_cons hlt'
    have hpd : t.pathAt d = t.path[d] := by
      unfold FocusedTree.pathAt
      rw [List.getD_eq_getElem?_getD, List.getElem?_eq_getElem hlt']
      rfl
    cases hp : t.pathAt d with
    | none =>
      rw [entriesFrom_nil h hp]
      have hrec := entriesFrom_length_le t (d + 1)
      have hps : pathsSize (t.path.drop d) = pathsSize (t.path.drop (d + 1)) := by
        rw [hdrop, ← hpd, hp, pathsSize]
      omega
    | some c =>
      have hps : pathsSize (t.path.drop d) =
          treeSize c + pathsSize (t.path.drop (d + 1)) := by
        rw [hdrop, ← hpd, hp, pathsSize]
      have hrec1 := entriesFrom_length_le t (d + 1)
      have hrec2 := entriesFrom_length_le c (d + 1)
      have hc_le : (entriesFrom c (d + 1)).length ≤ treeSize c := by
        rw [treeSize_eq]
        have := pathsSize_drop_le c.path (d + 1)
        omega
      cases hb : hashBit t.key_hash d
      · rw [entriesFrom_left h hp hb, List.length_append]
        omega
      · rw [entriesFrom_right h hp hb, List.length_append]
        omega
termination_by (sizeOf t, t.length - d)
decreasing_by
  all_goals first
    | (apply Prod.Lex.right; omega)
    | (apply Prod.Lex.left; exact sizeOf_lt_of_pathAt hp)

theorem entriesOf_length_le (m : PersistentMap K V) :
    (entriesOf m).length ≤ pmSize m := by
  unfold entriesOf pmSize
  cases m.tree with
  | none => exact le_refl _
  | some t =>
    show (entriesFrom t 0).length ≤ treeSize t
    have := entriesFrom_length_le t 0
    rw [List.drop_zero] at this
    rw [treeSize_eq]
    exact this

theorem pendingBetween_of_le (kh : Nat) (path : Nat → Option (FocusedTree K V))
    {lo hi : Nat} (h : hi ≤ lo) : pendingBetween kh path lo hi = [] := by
  cases hi with
  | zero => rfl
  | succ hi =>
    rw [pendingBetween, if_neg (by omega)]

theorem pendingBetween_split (kh : Nat) (path : Nat → Option (FocusedTree K V)) :
    ∀ (hi lo mid : Nat), lo ≤ mid → mid ≤ hi →
    pendingBetween kh path lo hi =
      pendingBetween kh path mid hi ++ pendingBetween kh path lo mid := by
  intro hi
  induction hi with
  | zero =>
    intro lo mid h1 h2
    rw [pendingBetween_of_le kh path (by omega : (0 : Nat) ≤ mid),
      pendingBetween_of_le kh path (by omega : mid ≤ lo)]
    rfl
  | succ hi ih =>
    intro lo mid h1 h2
    by_cases hmid : mid ≤ hi
    · rw [pendingBetween, if_pos (by omega : lo ≤ hi), pendingBetween, if_pos hmid,
        ih lo mid h1 hmid, List.append_assoc]
    · have hmid' : mid = hi + 1 := by omega
      subst hmid'
      rw [pendingBetween_of_le kh path (le_refl _)]
      rfl

theorem slotEntries_congr {kh1 kh2 : Nat}
    {path1 path2 : Nat → Option (FocusedTree K V)} {l : Nat}
    (hb : hashBit kh1 l = hashBit kh2 l) (hp : path1 l = path2 l) :
    slotEntries kh1 path1 l = slotEntries kh2 path2 l := by
  unfold slotEntries
  rw [hb, hp]

theorem pendingBetween_congr {kh1 kh2 : Nat}
    {path1 path2 : Nat → Option (FocusedTree K V)} {lo : Nat} :
    ∀ {hi : Nat},
    (∀ l, lo ≤ l → l < hi → hashBit kh1 l = hashBit kh2 l ∧ path1 l = path2 l) →
    pendingBetween kh1 path1 lo hi = pendingBetween kh2 path2 lo hi := by
  intro hi
  induction hi with
  | zero => intro _; rfl
  | succ hi ih =>
    intro hcong
    by_cases hlo : lo ≤ hi
    · rw [pendingBetween, if_pos hlo, pendingBetween, if_pos hlo,
        slotEntries_congr (hcong hi hlo (by omega)).1 (hcong hi hlo (by omega)).2,
        ih (fun l h1 h2 => hcong l h1 (by omega))]
    · rw [pendingBetween, if_neg hlo, pendingBetween, if_neg hlo]

theorem pendingBetween_all_empty {kh : Nat} {path : Nat → Option (FocusedTree K V)}
    {lo : Nat} : ∀ {hi : Nat},
    (∀ l, lo ≤ l → l < hi → slotEntries kh path l = []) →
    pendingBetween kh path lo hi = [] := by
  intro hi
  induction hi with
  | zero => intro _; rfl
  | succ hi ih =>
    intro hemp
    by_cases hlo : lo ≤ hi
    · rw [pendingBetween, if_pos hlo, hemp hi hlo (by omega),
        ih (fun l h1 h2 => hemp l h1 (by omega))]
      rfl
    · rw [pendingBetween, if_neg hlo]

theorem ascend_none_slots {kh : Nat} {path : Nat → Option (FocusedTree K V)} :
    ∀ {n : Nat}, ascend kh path n = none →
    ∀ l, l < n → hashBit kh l = true ∨ path l = none := by
  intro n
  induction n with
  | zero => intro _ l hl; omega
  | succ n ih =>
    intro h l hl
    rw [ascend] at h
    split at h
    · rename_i hcond
      by_cases hln : l < n
      · exact ih h l hln
      · have : l = n := by omega
        subst this
        exact (by simpa using hcond : hashBit kh l = true ∨ path l = none)
    · exact Option.noConfusion h

/-- The leftmost descent decomposes a subtree's entry list: the leaf's own
entries come first, the recorded alternatives hold the rest. -/
theorem FindLeftmost_entries : ∀ (fuel : Nat) (t : FocusedTree K V) (d : Nat)
    (p : Nat → Option (FocusedTree K V)), WfT hashF t → 33 - d ≤ fuel → d ≤ 32 →
    entriesFrom t d = focusedList (FindLeftmost fuel t d p).1 ++
      pendingBetween (FindLeftmost fuel t d p).1.key_hash
        (FindLeftmost fuel t d p).2.2 d (FindLeftmost fuel t d p).2.1 := by
  intro fuel
  induction fuel with
  | zero =>
    intro t d p _ hfuel hd
    exact absurd hfuel (by omega)
  | succ fuel ih =>
    intro t d p hwf hfuel hd
    by_cases hlen : d < t.length
    · have hd31 : d + 1 ≤ 32 := by
        have := WfT.length_le hashF hwf
        omega
      cases hbit : hashBit t.key_hash d with
      | false =>
        have hgc : GetChild t d false = some t := by simp [GetChild, hbit]
        have hgc2 : GetChild t d true = t.pathAt d := by simp [GetChild, hbit, hlen]
        have hred : FindLeftmost (fuel + 1) t d p =
            FindLeftmost fuel t (d + 1)
              (fun j => if j = d then GetChild t d true else p j) := by
          rw [FindLeftmost, if_pos hlen, hgc]
        rw [hred]
        obtain ⟨_, _, s3, s5, s6, _⟩ :=
          FindLeftmost_spec hashF fuel t (d + 1)
            (fun j => if j = d then GetChild t d true else p j) hwf (by omega) hd31
        have hih := ih t (d + 1) (fun j => if j = d then GetChild t d true else p j)
          hwf (by omega) hd31
        have hsplit := pendingBetween_split
          (FindLeftmost fuel t (d + 1)
            (fun j => if j = d then GetChild t d true else p j)).1.key_hash
          (FindLeftmost fuel t (d + 1)
            (fun j => if j = d then GetChild t d true else p j)).2.2
          (FindLeftmost fuel t (d + 1)
            (fun j => if j = d then GetChild t d true else p j)).2.1 d (d + 1)
          (by omega) s3.1
        have hpb1 : pendingBetween
            (FindLeftmost fuel t (d + 1)
              (fun j => if j = d then GetChild t d true else p j)).1.key_hash
            (FindLeftmost fuel t (d + 1)
              (fun j => if j = d then GetChild t d true else p j)).2.2 d (d + 1) =
            slotEntries
              (FindLeftmost fuel t (d + 1)
                (fun j => if j = d then GetChild t d true else p j)).1.key_hash
              (FindLeftmost fuel t (d + 1)
                (fun j => if j = d then GetChild t d true else p j)).2.2 d := by
          rw [pendingBetween, if_pos (le_refl d),
            pendingBetween_of_le _ _ (le_refl d), List.append_nil]
        have hslot : slotEntries
            (FindLeftmost fuel t (d + 1)
              (fun j => if j = d then GetChild t d true else p j)).1.key_hash
            (FindLeftmost fuel t (d + 1)
              (fun j => if j = d then GetChild t d true else p j)).2.2 d =
            (match t.pathAt d with
             | some c => entriesFrom c (d + 1)
             | none => []) := by
          unfold slotEntries
          rw [s5 d (by omega), hbit, s6 d (by omega)]
          simp only [hgc2]
          simp
        rw [hsplit, hpb1, hslot, ← List.append_assoc, ← hih]
        cases hp : t.pathAt d with
        | none =>
          rw [entriesFrom_nil (by omega) hp]
          simp
        | some c =>
          rw [entriesFrom_left (by omega) hp hbit]
      | true =>
        cases hp : t.pathAt d with
        | some child =>
          have hgc : GetChild t d false = some child := by
            simp [GetChild, hbit, hlen, hp]
          have hgc2 : GetChild t d true = some t := by simp [GetChild, hbit]
          have hside := WfT.side hashF hwf d child hp
          have hchild := WfT.child hashF hwf d child hp
          have hcbit : hashBit child.key_hash d = false := by
            cases hcb : hashBit child.key_hash d
            · rfl
            · exact absurd (hcb.trans hbit.symm) hside.2
          have hred : FindLeftmost (fuel + 1) t d p =
              FindLeftmost fuel child (d + 1)
                (fun j => if j = d then GetChild t d true else p j) := by
            rw [FindLeftmost, if_pos hlen, hgc]
          rw [hred]
          obtain ⟨_, _, s3, s5, s6, _⟩ :=
            FindLeftmost_spec hashF fuel child (d + 1)
              (fun j => if j = d then GetChild t d true else p j) hchild
              (by omega) hd31
          have hih := ih child (d + 1)
            (fun j => if j = d then GetChild t d true else p j) hchild
            (by omega) hd31
          have hsplit := pendingBetween_split
            (FindLeftmost fuel child (d + 1)
              (fun j => if j = d then GetChild t d true else p j)).1.key_hash
            (FindLeftmost fuel child (d + 1)
              (fun j => if j = d then GetChild t d true else p j)).2.2
            (FindLeftmost fuel child (d + 1)
              (fun j => if j = d then GetChild t d true else p j)).2.1 d (d + 1)
            (by omega) s3.1
          have hpb1 : pendingBetween
              (FindLeftmost fuel child (d + 1)
                (fun j => if j = d then GetChild t d true else p j)).1.key_hash
              (FindLeftmost fuel child (d + 1)
                (fun j => if j = d then GetChild t d true else p j)).2.2 d (d + 1) =
              slotEntries
                (FindLeftmost fuel child (d + 1)
                  (fun j => if j = d then GetChild t d true else p j)).1.key_hash
                (FindLeftmost fuel child (d + 1)
                  (fun j => if j = d then GetChild t d true else p j)).2.2 d := by
            rw [pendingBetween, if_pos (le_refl d),
              pendingBetween_of_le _ _ (le_refl d), List.append_nil]
          have hslot : slotEntries
              (FindLeftmost fuel child (d + 1)
                (fun j => if j = d then GetChild t d true else p j)).1.key_hash
              (FindLeftmost fuel child (d + 1)
                (fun j => if j = d then GetChild t d true else p j)).2.2 d =
              entriesFrom t (d + 1) := by
            unfold slotEntries
            rw [s5 d (by omega), hcbit, s6 d (by omega)]
            simp only [hgc2]
            simp
          rw [hsplit, hpb1, hslot, ← List.append_assoc, ← hih]
          rw [entriesFrom_right (by omega) hp hbit]
        | none =>
          have hgc : GetChild t d false = none := by
            simp [GetChild, hbit, hlen, hp]
          have hgc2 : GetChild t d true = some t := by simp [GetChild, hbit]
          have hred : FindLeftmost (fuel + 1) t d p =
              FindLeftmost fuel t (d + 1)
                (fun j => if j = d then GetChild t d false else p j) := by
            rw [FindLeftmost, if_pos hlen, hgc, hgc2]
          rw [hred]
          obtain ⟨_, _, s3, s5, s6, _⟩ :=
            FindLeftmost_spec hashF fuel t (d + 1)
              (fun j => if j = d then GetChild t d false else p j) hwf
              (by omega) hd31
          have hih := ih t (d + 1)
            (fun j => if j = d then GetChild t d false else p j) hwf
            (by omega) hd31
          have hsplit := pendingBetween_split
            (FindLeftmost fuel t (d + 1)
              (fun j => if j = d then GetChild t d false else p j)).1.key_hash
            (FindLeftmost fuel t (d + 1)
              (fun j => if j = d then GetChild t d false else p j)).2.2
            (FindLeftmost fuel t (d + 1)
              (fun j => if j = d then GetChild t d false else p j)).2.1 d (d + 1)
            (by omega) s3.1
          have hpb1 : pendingBetween
              (FindLeftmost fuel t (d + 1)
                (fun j => if j = d then GetChild t d false else p j)).1.key_hash
              (FindLeftmost fuel t (d + 1)
                (fun j => if j = d then GetChild t d false else p j)).2.2 d (d + 1) =
              slotEntries
                (FindLeftmost fuel t (d + 1)
                  (fun j => if j = d then GetChild t d false else p j)).1.key_hash
                (FindLeftmost fuel t (d + 1)
                  (fun j => if j = d then GetChild t d false else p j)).2.2 d := by
            rw [pendingBetween, if_pos (le_refl d),
              pendingBetween_of_le _ _ (le_refl d), List.append_nil]
          have hslot : slotEntries
              (FindLeftmost fuel t (d + 1)
                (fun j => if j = d then GetChild t d false else p j)).1.key_hash
              (FindLeftmost fuel t (d + 1)
                (fun j => if j = d then GetChild t d false else p j)).2.2 d = [] := by
            unfold slotEntries
            rw [s5 d (by omega), hbit]
            simp
          rw [hsplit, hpb1, hslot, List.append_nil, ← hih]
          rw [entriesFrom_nil (by omega) hp]
    · have hred : FindLeftmost (fuel + 1) t d p = (t, d, p) := by
        rw [FindLeftmost, if_neg hlen]
      rw [hred]
      rw [entriesFrom_base (by omega)]
      rw [pendingBetween_of_le _ _ (le_refl d), List.append_nil]

theorem remIter_head {it : Iter K V} {cur : FocusedTree K V}
    (hcur : it.current = some cur) (hinv : InvC hashF it cur) :
    (remIter it cur).head? = iterCur it := by
  unfold remIter focusTail iterCur
  rw [hcur]
  cases hmm : cur.more with
  | some mm =>
    obtain ⟨hne, _⟩ := hinv.2.2.2.1 mm hmm
    cases hx : it.moreIter with
    | nil => exact absurd hx hne
    | cons a rest => simp [hmm, hx]
  | none => simp [hmm]

/-- At `begin`, the iterator remainder is the whole entry list. -/
theorem iterBegin_rem (t : FocusedTree K V) (dv : V) (hwf : WfT hashF t) :
    remIter (iterBegin t dv) (FindLeftmost hashFuel t 0 (fun _ => none)).1 =
      entriesFrom t 0 := by
  unfold remIter focusTail iterBegin
  simp only
  rw [FindLeftmost_entries hashF hashFuel t 0 (fun _ => none) hwf
    (by rw [hashFuel]) (by omega)]
  congr 1
  unfold focusedList
  cases hmm : (FindLeftmost hashFuel t 0 (fun _ => none)).1.more <;> simp

/-- A continue-flag from the ascent step means the new current entry holds
the default value (the do-while condition). -/
theorem stepAscend_flag (it : Iter K V) (cur : FocusedTree K V)
    (hflag : (stepAscend it cur).2 = false) :
    ∃ e1, iterCur (stepAscend it cur).1 = some e1 ∧ e1.2 = it.defVal := by
  unfold stepAscend at hflag ⊢
  split at hflag
  · exact absurd hflag (by simp)
  · rename_i l heq1
    try simp only [heq1]
    split at hflag
    · exact absurd hflag (by simp)
    · rename_i fra heq2
      try simp only [heq2]
      try simp only [] at hflag
      split at hflag
      · rename_i e heq3
        by_cases hv : e.2 = it.defVal
        · refine ⟨e, ?_, hv⟩
          rw [heq3]
        · exfalso
          have hh : (if e.2 = it.defVal then false else true) = false := hflag
          rw [if_neg hv] at hh
          exact Bool.noConfusion hh
      · exfalso
        have hh : (true : Bool) = false := hflag
        exact Bool.noConfusion hh

/-- The ascent-descent either ends with no pending entries, or moves to a
state whose remainder is exactly the old pending list, flagging only
default-valued landings for another pass. -/
theorem stepAscend_rem (it : Iter K V) (cur : FocusedTree K V)
    (hwf : WfT hashF cur) (hlev : it.level ≤ 32)
    (hpath : ∀ l c, l < it.level → hashBit cur.key_hash l = false →
      it.path l = some c →
      WfT hashF c ∧ AgreeBelow c.key_hash cur.key_hash l ∧
        hashBit c.key_hash l = true) :
    ((stepAscend it cur).1.current = none ∧
      pendingBetween cur.key_hash it.path 0 it.level = []) ∨
    (∃ cur', (stepAscend it cur).1.current = some cur' ∧
      remIter (stepAscend it cur).1 cur' =
        pendingBetween cur.key_hash it.path 0 it.level ∧
      ((stepAscend it cur).2 = false → ∃ e1,
        iterCur (stepAscend it cur).1 = some e1 ∧ e1.2 = it.defVal)) := by
  cases has : ascend cur.key_hash it.path it.level with
  | none =>
    left
    constructor
    · unfold stepAscend
      rw [has]
      rfl
    · apply pendingBetween_all_empty
      intro l h0 hl
      rcases ascend_none_slots has l hl with hb | hp
      · simp [slotEntries, hb]
      · simp [slotEntries, hp]
  | some l =>
    obtain ⟨hl, hbitl, hsome, hmax⟩ := ascend_some has
    cases hpl : it.path l with
    | none =>
      rw [hpl] at hsome
      simp at hsome
    | some fra =>
      obtain ⟨hfwf, hfag, hfbit⟩ := hpath l fra hl hbitl hpl
      have hl31 : l + 1 ≤ 32 := by omega
      obtain ⟨s1, s2, s3, s5, s6, s7⟩ :=
        FindLeftmost_spec hashF hashFuel fra (l + 1) it.path hfwf
          (by rw [hashFuel]; omega) hl31
      have h1 : (stepAscend it cur).1 =
          { level := (FindLeftmost hashFuel fra (l + 1) it.path).2.1
            moreIter := match (FindLeftmost hashFuel fra (l + 1) it.path).1.more with
                        | some mm => mm
                        | none => it.moreIter
            current := some (FindLeftmost hashFuel fra (l + 1) it.path).1
            path := (FindLeftmost hashFuel fra (l + 1) it.path).2.2
            defVal := it.defVal } := by
        unfold stepAscend
        rw [has]
        simp only [hpl]
        split <;> rfl
      right
      refine ⟨(FindLeftmost hashFuel fra (l + 1) it.path).1, by rw [h1], ?_, ?_⟩
      · rw [h1]
        unfold remIter focusTail
        have hft : (match
            (FindLeftmost hashFuel fra (l + 1) it.path).1.more with
            | some _ => (match (FindLeftmost hashFuel fra (l + 1) it.path).1.more with
                         | some mm => mm
                         | none => it.moreIter)
            | none => [(FindLeftmost hashFuel fra (l + 1) it.path).1.key_value]) =
            focusedList (FindLeftmost hashFuel fra (l + 1) it.path).1 := by
          unfold focusedList
          cases hmm : (FindLeftmost hashFuel fra (l + 1) it.path).1.more <;> simp
        rw [hft]
        have hsplit := pendingBetween_split
          (FindLeftmost hashFuel fra (l + 1) it.path).1.key_hash
          (FindLeftmost hashFuel fra (l + 1) it.path).2.2
          (FindLeftmost hashFuel fra (l + 1) it.path).2.1 0 (l + 1)
          (by omega) s3.1
        rw [hsplit, ← List.append_assoc, ← FindLeftmost_entries hashF hashFuel fra
          (l + 1) it.path hfwf (by rw [hashFuel]; omega) hl31]
        have hsplit2 := pendingBetween_split cur.key_hash it.path it.level 0 (l + 1)
          (by omega) (by omega)
        rw [hsplit2]
        have hupper : pendingBetween cur.key_hash it.path (l + 1) it.level = [] := by
          apply pendingBetween_all_empty
          intro l' h1' h2'
          rcases hmax l' (by omega) h2' with hb | hp
          · simp [slotEntries, hb]
          · simp [slotEntries, hp]
        rw [hupper]
        have hlowsplit := pendingBetween_split cur.key_hash it.path (l + 1) 0 l
          (by omega) (by omega)
        rw [hlowsplit]
        have hpbl : pendingBetween cur.key_hash it.path l (l + 1) =
            slotEntries cur.key_hash it.path l := by
          rw [pendingBetween, if_pos (le_refl l),
            pendingBetween_of_le _ _ (le_refl l), List.append_nil]
        rw [hpbl]
        have hslot : slotEntries cur.key_hash it.path l = entriesFrom fra (l + 1) := by
          simp [slotEntries, hbitl, hpl]
        rw [hslot]
        have hrsplit := pendingBetween_split
          (FindLeftmost hashFuel fra (l + 1) it.path).1.key_hash
          (FindLeftmost hashFuel fra (l + 1) it.path).2.2 (l + 1) 0 l
          (by omega) (by omega)
        rw [hrsplit]
        have hpbl' : pendingBetween
            (FindLeftmost hashFuel fra (l + 1) it.path).1.key_hash
            (FindLeftmost hashFuel fra (l + 1) it.path).2.2 l (l + 1) = [] := by
          rw [pendingBetween, if_pos (le_refl l),
            pendingBetween_of_le _ _ (le_refl l), List.append_nil]
          have hbit' : hashBit
              (FindLeftmost hashFuel fra (l + 1) it.path).1.key_hash l = true := by
            rw [s5 l (by omega)]
            exact hfbit
          simp [slotEntries, hbit']
        rw [hpbl']
        have hpcongr : pendingBetween
            (FindLeftmost hashFuel fra (l + 1) it.path).1.key_hash
            (FindLeftmost hashFuel fra (l + 1) it.path).2.2 0 l =
            pendingBetween cur.key_hash it.path 0 l := by
          apply pendingBetween_congr
          intro l' h0 hl'
          refine ⟨?_, s6 l' (by omega)⟩
          rw [s5 l' (by omega), hfag l' (by omega)]
        rw [hpcongr]
        simp
      · exact fun hflag => stepAscend_flag it cur hflag

/-- One body pass consumes exactly the head of the remainder: either the
iteration ends with an empty remainder tail, or the new state's remainder
is the old tail, and a continue-flag implies a default-valued landing. -/
theorem stepBody_rem (it : Iter K V) (cur : FocusedTree K V)
    (hcur : it.current = some cur) (hinv : InvC hashF it cur) :
    ((stepBody it).1.current = none ∧ (remIter it cur).tail = []) ∨
    (∃ cur', (stepBody it).1.current = some cur' ∧
      remIter (stepBody it).1 cur' = (remIter it cur).tail ∧
      ((stepBody it).2 = false → ∃ e1, iterCur (stepBody it).1 = some e1 ∧
        e1.2 = it.defVal)) := by
  obtain ⟨hwf, hle, hlev, hmi, hpath⟩ := hinv
  unfold stepBody
  simp only [hcur]
  cases hmm : cur.more with
  | some mm =>
    obtain ⟨hne, hsuf⟩ := hmi mm hmm
    obtain ⟨hd, tl, hhd⟩ : ∃ hd tl, it.moreIter = hd :: tl := by
      cases hx : it.moreIter with
      | nil => exact absurd hx hne
      | cons a b => exact ⟨a, b, rfl⟩
    have hrem : remIter it cur =
        hd :: (tl ++ pendingBetween cur.key_hash it.path 0 it.level) := by
      unfold remIter focusTail
      simp only [hmm, hhd]
      rfl
    cases hti : it.moreIter.tail with
    | cons e' rest =>
      have htl : tl = e' :: rest := by
        rw [hhd] at hti
        exact hti
      simp only [hmm, hti]
      right
      refine ⟨cur, rfl, ?_, ?_⟩
      · unfold remIter focusTail
        simp only [hmm]
        rw [hhd, htl]
        rfl
      · intro hfl
        exact absurd hfl (by simp)
    | nil =>
      have htl : tl = [] := by
        rw [hhd] at hti
        exact hti
      have hremtail : (remIter it cur).tail =
          pendingBetween cur.key_hash it.path 0 it.level := by
        rw [hrem, htl]
        rfl
      simp only [hmm, hti]
      rcases stepAscend_rem hashF { it with moreIter := [] } cur hwf hlev hpath
        with ⟨hend, hpb⟩ | ⟨cur', hc', hrem', hfl⟩
      · left
        refine ⟨hend, ?_⟩
        rw [hremtail]
        exact hpb
      · right
        refine ⟨cur', hc', ?_, ?_⟩
        · rw [hremtail]
          exact hrem'
        · intro hf
          obtain ⟨e1, h1, h2⟩ := hfl hf
          exact ⟨e1, h1, h2⟩
  | none =>
    have hrem : remIter it cur =
        cur.key_value :: pendingBetween cur.key_hash it.path 0 it.level := by
      unfold remIter focusTail
      simp only [hmm]
      rfl
    simp only [hmm]
    rcases stepAscend_rem hashF it cur hwf hlev hpath
      with ⟨hend, hpb⟩ | ⟨cur', hc', hrem', hfl⟩
    · left
      refine ⟨hend, ?_⟩
      rw [hrem]
      exact hpb
    · right
      exact ⟨cur', hc', by rw [hrem]; exact hrem', hfl⟩

/-- A continue-flag from a body pass means the new current entry holds the
default value. -/
theorem stepBody_flag (it : Iter K V) (hf : (stepBody it).2 = false) :
    ∃ e1, iterCur (stepBody it).1 = some e1 ∧ e1.2 = it.defVal := by
  unfold stepBody at hf ⊢
  cases hcur : it.current with
  | none =>
    simp only [hcur] at hf
    exact absurd hf (by simp)
  | some cur =>
    simp only [hcur] at hf ⊢
    cases hmm : cur.more with
    | some mm =>
      simp only [hmm] at hf ⊢
      cases hti : it.moreIter.tail with
      | cons e rest =>
        simp only [hti] at hf
        exact absurd hf (by simp)
      | nil =>
        simp only [hti] at hf ⊢
        exact stepAscend_flag { it with moreIter := [] } cur hf
    | none =>
      simp only [hmm] at hf ⊢
      exact stepAscend_flag it cur hf

/-- `operator++` consumes a nonempty prefix of the remainder: the entries
passed over without a yield all carry the default value, and the iterator
lands on the head of what is left (or ends when nothing is left). -/
theorem iterNextF_rem : ∀ (fuel : Nat) (it : Iter K V) (cur : FocusedTree K V)
    (e0 : K × V) (rest : List (K × V)),
    it.current = some cur → InvC hashF it cur → iterCur it = some e0 →
    remIter it cur = e0 :: rest →
    ∃ sk rest', rest = sk ++ rest' ∧ (∀ e ∈ sk, e.2 = it.defVal) ∧
      (((iterNextF (fuel + 1) it).current = none ∧ rest' = []) ∨
       (∃ cur' e1, (iterNextF (fuel + 1) it).current = some cur' ∧
         InvC hashF (iterNextF (fuel + 1) it) cur' ∧
         remIter (iterNextF (fuel + 1) it) cur' = rest' ∧
         iterCur (iterNextF (fuel + 1) it) = some e1 ∧ rest'.head? = some e1 ∧
         (iterNextF (fuel + 1) it).defVal = it.defVal)) := by
  intro fuel
  induction fuel with
  | zero =>
    intro it cur e0 rest hcur hinv he0 hrem
    have hred : iterNextF 1 it = (stepBody it).1 := by
      rw [iterNextF]
      cases hflag : (stepBody it).2
      · rw [if_neg (by simp)]
        rfl
      · rw [if_pos rfl]
    rw [hred]
    rcases stepBody_rem hashF it cur hcur hinv
      with ⟨hend, htail⟩ | ⟨cur', hc', hrem', _⟩
    · refine ⟨[], [], ?_, by simp, Or.inl ⟨hend, rfl⟩⟩
      rw [hrem] at htail
      simpa using htail
    · rcases stepBody_spec hashF it cur hcur hinv
        with hend2 | ⟨cur'', e, e', hc'', hinv'', he, he', hlt, hdv⟩
      · rw [hc'] at hend2
        exact Option.noConfusion hend2
      · have hcc : cur'' = cur' := by
          rw [hc'] at hc''
          exact (Option.some_inj.mp hc'').symm
        subst hcc
        have hrem2 : remIter (stepBody it).1 cur'' = rest := by
          rw [hrem', hrem]
          rfl
        have hhead : rest.head? = some e' := by
          rw [← hrem2, remIter_head hashF hc' hinv'']
          exact he'
        exact ⟨[], rest, by simp, by simp,
          Or.inr ⟨cur'', e', hc', hinv'', hrem2, he', hhead, hdv⟩⟩
  | succ fuel ih =>
    intro it cur e0 rest hcur hinv he0 hrem
    rcases stepBody_rem hashF it cur hcur hinv
      with ⟨hend, htail⟩ | ⟨cur', hc', hrem', hflagimp⟩
    · have hft : (stepBody it).2 = true := by
        cases hx : (stepBody it).2
        · obtain ⟨e1, hiter, _⟩ := stepBody_flag it hx
          unfold iterCur at hiter
          rw [hend] at hiter
          exact Option.noConfusion hiter
        · rfl
      have hred : iterNextF (fuel + 2) it = (stepBody it).1 := by
        rw [iterNextF, if_pos hft]
      rw [hred]
      have hrest : rest = [] := by
        rw [hrem] at htail
        exact htail
      exact ⟨[], [], by simp [hrest], by simp, Or.inl ⟨hend, rfl⟩⟩
    · rcases stepBody_spec hashF it cur hcur hinv
        with hend2 | ⟨cur'', e, e', hc'', hinv'', he, he', hlt, hdv⟩
      · rw [hc'] at hend2
        exact Option.noConfusion hend2
      · have hcc : cur'' = cur' := by
          rw [hc'] at hc''
          exact (Option.some_inj.mp hc'').symm
        subst hcc
        have hrem2 : remIter (stepBody it).1 cur'' = rest := by
          rw [hrem', hrem]
          rfl
        have hhead : rest.head? = some e' := by
          rw [← hrem2, remIter_head hashF hc' hinv'']
          exact he'
        cases hflag : (stepBody it).2
        · obtain ⟨e1, he1, he1v⟩ := hflagimp hflag
          have he1e : e1 = e' := by
            rw [he'] at he1
            exact (Option.some_inj.mp he1).symm
          obtain ⟨rest2, hrest2⟩ : ∃ rest2, rest = e' :: rest2 := by
            cases hr : rest with
            | nil =>
              rw [hr] at hhead
              exact Option.noConfusion hhead
            | cons a b =>
              rw [hr] at hhead
              have haa : a = e' := Option.some_inj.mp hhead
              exact ⟨b, by rw [haa]⟩
          have hred : iterNextF (fuel + 2) it = iterNextF (fuel + 1) (stepBody it).1 := by
            rw [iterNextF, if_neg (by simp [hflag])]
          rw [hred]
          have hrem3 : remIter (stepBody it).1 cur'' = e' :: rest2 := by
            rw [hrem2, hrest2]
          obtain ⟨sk', rest'', hsplit, hdef, hres⟩ :=
            ih (stepBody it).1 cur'' e' rest2 hc' hinv'' he' hrem3
          refine ⟨e' :: sk', rest'', ?_, ?_, ?_⟩
          · rw [hrest2, hsplit]
            rfl
          · intro p hp
            rcases List.mem_cons.mp hp with hpe | hpe
            · rw [hpe, ← he1e]
              exact he1v
            · rw [← hdv]
              exact hdef p hpe
          · rcases hres with ⟨h1, h2⟩ | ⟨curx, ex, h1, h2, h3, h4, h5, h6⟩
            · exact Or.inl ⟨h1, h2⟩
            · exact Or.inr ⟨curx, ex, h1, h2, h3, h4, h5, h6.trans hdv⟩
        · have hred : iterNextF (fuel + 2) it = (stepBody it).1 := by
            rw [iterNextF, if_pos hflag]
          rw [hred]
          exact ⟨[], rest, by simp, by simp,
            Or.inr ⟨cur'', e', hc', hinv'', hrem2, he', hhead, hdv⟩⟩

/-- The remainder-consumption property of a single `operator++`. -/
theorem iterNext_rem (it : Iter K V) (cur : FocusedTree K V) (e0 : K × V)
    (rest : List (K × V)) (hcur : it.current = some cur)
    (hinv : InvC hashF it cur) (he0 : iterCur it = some e0)
    (hrem : remIter it cur = e0 :: rest) :
    ∃ sk rest', rest = sk ++ rest' ∧ (∀ e ∈ sk, e.2 = it.defVal) ∧
      (((iterNext it).current = none ∧ rest' = []) ∨
       (∃ cur' e1, (iterNext it).current = some cur' ∧
         InvC hashF (iterNext it) cur' ∧
         remIter (iterNext it) cur' = rest' ∧
         iterCur (iterNext it) = some e1 ∧ rest'.head? = some e1 ∧
         (iterNext it).defVal = it.defVal)) := by
  have h1 : iterFuel it = (iterFuel it - 1) + 1 := by
    have := iterFuel_pos it
    omega
  unfold iterNext
  rw [h1]
  exact iterNextF_rem hashF (iterFuel it - 1) it cur e0 rest hcur hinv he0 hrem

/-! ### The equality walk -/

/-- Correspondence between one component iterator of the zip walk and the
list of entries it has not yet yielded. -/
def SideOK (A : PersistentMap K V) (z : Iter K V) (ra : List (K × V)) : Prop :=
  z.defVal = A.defVal ∧
  ((z.current = none ∧ ra = []) ∨
   (∃ cur, z.current = some cur ∧ InvC hashF z cur ∧ remIter z cur = ra ∧
     iterCur z = ra.head?))

/-- The sortedness and value-correctness facts carried for a remainder. -/
def ListOK (A : PersistentMap K V) (ra : List (K × V)) : Prop :=
  ra.Pairwise (fun a b => posLt (posOf hashF a.1) (posOf hashF b.1)) ∧
  ∀ e ∈ ra, A.Get hashF e.1 = e.2

/-- A key lies strictly below the frontier: below the heads of both
remainders (vacuous for an exhausted side). -/
def BelowF (ra rb : List (K × V)) (j : K) : Prop :=
  (∀ p, ra.head? = some p → posLt (posOf hashF j) (posOf hashF p.1)) ∧
  (∀ q, rb.head? = some q → posLt (posOf hashF j) (posOf hashF q.1))

theorem posOf_inj {j1 j2 : K} (h : posOf hashF j1 = posOf hashF j2) : j1 = j2 :=
  congrArg Prod.snd h

theorem posLt_irrefl (p : Nat × K) : ¬ posLt p p := by
  intro h
  rcases h with h | ⟨_, h⟩
  · exact lt_irrefl _ h
  · exact lt_irrefl _ h

theorem posLt_trichotomy (a b : K) :
    posLt (posOf hashF a) (posOf hashF b) ∨ a = b ∨
      posLt (posOf hashF b) (posOf hashF a) := by
  rcases lt_trichotomy (hashOf hashF a) (hashOf hashF b) with h | h | h
  · exact Or.inl (Or.inl h)
  · rcases lt_trichotomy a b with h2 | h2 | h2
    · exact Or.inl (Or.inr ⟨h, h2⟩)
    · exact Or.inr (Or.inl h2)
    · exact Or.inr (Or.inr (Or.inr ⟨h.symm, h2⟩))
  · exact Or.inr (Or.inr (Or.inl h))

theorem posLt_asymm {p q : Nat × K} (h : posLt p q) : ¬ posLt q p := by
  intro h2
  exact posLt_irrefl p (posLt_trans h h2)

/-- Every member of a sorted remainder is its head or lies strictly after
it. -/
theorem mem_sorted_head {ra : List (K × V)} {e hd : K × V}
    (hpw : ra.Pairwise (fun a b => posLt (posOf hashF a.1) (posOf hashF b.1)))
    (hhd : ra.head? = some hd) (he : e ∈ ra) :
    e = hd ∨ posLt (posOf hashF hd.1) (posOf hashF e.1) := by
  cases ra with
  | nil => exact absurd he (List.not_mem_nil e)
  | cons a rest =>
    have haa : a = hd := Option.some_inj.mp hhd
    subst haa
    rcases List.mem_cons.mp he with h | h
    · exact Or.inl h
    · exact Or.inr ((List.pairwise_cons.mp hpw).1 e h)

theorem stepAscend_defVal (it : Iter K V) (cur : FocusedTree K V) :
    (stepAscend it cur).1.defVal = it.defVal := by
  unfold stepAscend
  split
  · rfl
  · split
    · rfl
    · try simp only []
      split <;> rfl

theorem stepBody_defVal (it : Iter K V) : (stepBody it).1.defVal = it.defVal := by
  unfold stepBody
  cases hcur : it.current with
  | none => rfl
  | some cur =>
    simp only
    cases hmm : cur.more with
    | some mm =>
      cases hti : it.moreIter.tail with
      | cons e rest => simp only [hti]
      | nil =>
        simp only [hti]
        exact stepAscend_defVal { it with moreIter := [] } cur
    | none => exact stepAscend_defVal it cur

theorem iterNextF_defVal : ∀ (fuel : Nat) (it : Iter K V),
    (iterNextF fuel it).defVal = it.defVal := by
  intro fuel
  induction fuel with
  | zero => intro it; rfl
  | succ fuel ih =>
    intro it
    rw [iterNextF]
    cases hflag : (stepBody it).2
    · rw [if_neg (by simp)]
      rw [ih (stepBody it).1, stepBody_defVal]
    · rw [if_pos rfl]
      exact stepBody_defVal it

/-- Advancing a non-exhausted side consumes its head and then a run of
default-valued entries. -/
theorem advance_side (A : PersistentMap K V) (z : Iter K V)
    (curz : FocusedTree K V) (e : K × V) (rest : List (K × V))
    (hdv : z.defVal = A.defVal) (hc : z.current = some curz)
    (hinv : InvC hashF z curz) (hrem : remIter z curz = e :: rest)
    (hcur : iterCur z = some e) :
    ∃ sk rest', rest = sk ++ rest' ∧ (∀ p ∈ sk, p.2 = A.defVal) ∧
      SideOK hashF A (iterNext z) rest' := by
  obtain ⟨sk, rest', hsplit, hdef, hres⟩ :=
    iterNext_rem hashF z curz e rest hc hinv hcur hrem
  refine ⟨sk, rest', hsplit, ?_, ?_⟩
  · intro p hp
    rw [← hdv]
    exact hdef p hp
  · rcases hres with ⟨h1, h2⟩ | ⟨cur', e1, h1, h2, h3, h4, h5, h6⟩
    · refine ⟨?_, Or.inl ⟨h1, h2⟩⟩
      show (iterNext z).defVal = A.defVal
      unfold iterNext
      rw [iterNextF_defVal]
      exact hdv
    · exact ⟨h6.trans hdv, Or.inr ⟨cur', h1, h2, h3, by rw [h4, h5]⟩⟩

theorem isEnd_of_none {z : Iter K V} (h : z.current = none) : z.isEnd = true := by
  unfold Iter.isEnd
  rw [h]
  rfl

theorem isEnd_of_some {z : Iter K V} {c : FocusedTree K V} (h : z.current = some c) :
    z.isEnd = false := by
  unfold Iter.isEnd
  rw [h]
  rfl

theorem iterEq_end_left {za zb : Iter K V} (ha : za.current = none) :
    iterEq za zb = zb.isEnd := by
  unfold iterEq
  rw [if_pos (isEnd_of_none ha)]

theorem iterEq_some_end {za zb : Iter K V} {ca : FocusedTree K V}
    (ha : za.current = some ca) (hb : zb.current = none) : iterEq za zb = false := by
  unfold iterEq
  rw [if_neg (by rw [isEnd_of_some ha]; simp), if_pos (isEnd_of_none hb)]

theorem iterLt_end_left {za zb : Iter K V} (ha : za.current = none) :
    iterLt za zb = false := by
  unfold iterLt
  rw [if_pos (isEnd_of_none ha)]

theorem iterLt_some_end {za zb : Iter K V} {ca : FocusedTree K V}
    (ha : za.current = some ca) (hb : zb.current = none) : iterLt za zb = true := by
  unfold iterLt
  rw [if_neg (by rw [isEnd_of_some ha]; simp), if_pos (isEnd_of_none hb)]

/-- The hash stored in the current node is the hash of the current entry's
key. -/
theorem curHash_eq {z : Iter K V} {c : FocusedTree K V} {e : K × V}
    (hc : z.current = some c) (hinv : InvC hashF z c) (he : iterCur z = some e) :
    hashOf hashF e.1 = c.key_hash := by
  obtain ⟨e', he', hh⟩ := iterCur_of_inv hashF hc hinv
  rw [he] at he'
  cases Option.some_inj.mp he'
  exact hh

/-- C++ `iterator::operator==` on two non-end invariant states compares
the keys of the current entries. -/
theorem iterEq_iff {za zb : Iter K V} {ca cb : FocusedTree K V} {ea eb : K × V}
    (ha : za.current = some ca) (hb : zb.current = some cb)
    (hia : InvC hashF za ca) (hib : InvC hashF zb cb)
    (hea : iterCur za = some ea) (heb : iterCur zb = some eb) :
    iterEq za zb = true ↔ ea.1 = eb.1 := by
  have hha := curHash_eq hashF ha hia hea
  have hhb := curHash_eq hashF hb hib heb
  unfold iterEq
  rw [if_neg (by rw [isEnd_of_some ha]; simp),
    if_neg (by rw [isEnd_of_some hb]; simp)]
  simp only [ha, hb, hea, heb]
  constructor
  · intro h
    by_cases hkh : ca.key_hash = cb.key_hash
    · rw [if_pos hkh] at h
      by_cases hk : ea.1 = eb.1
      · exact hk
      · rw [if_neg hk] at h
        exact Bool.noConfusion h
    · rw [if_neg hkh] at h
      exact Bool.noConfusion h
  · intro hk
    have hkh : ca.key_hash = cb.key_hash := by
      rw [← hha, ← hhb, hk]
    rw [if_pos hkh, if_pos hk]

/-- C++ `iterator::operator<` on two non-end invariant states compares the
positions of the current entries. -/
theorem iterLt_iff {za zb : Iter K V} {ca cb : FocusedTree K V} {ea eb : K × V}
    (ha : za.current = some ca) (hb : zb.current = some cb)
    (hia : InvC hashF za ca) (hib : InvC hashF zb cb)
    (hea : iterCur za = some ea) (heb : iterCur zb = some eb) :
    iterLt za zb = true ↔ posLt (posOf hashF ea.1) (posOf hashF eb.1) := by
  have hha := curHash_eq hashF ha hia hea
  have hhb := curHash_eq hashF hb hib heb
  unfold iterLt
  rw [if_neg (by rw [isEnd_of_some ha]; simp),
    if_neg (by rw [isEnd_of_some hb]; simp)]
  simp only [ha, hb, hea, heb]
  constructor
  · intro h
    by_cases hlt : ca.key_hash < cb.key_hash
    · exact Or.inl (by rw [show (posOf hashF ea.1).1 = ca.key_hash from hha,
        show (posOf hashF eb.1).1 = cb.key_hash from hhb]; exact hlt)
    · rw [if_neg hlt] at h
      by_cases hkh : ca.key_hash = cb.key_hash
      · rw [if_pos hkh] at h
        by_cases hk : ea.1 < eb.1
        · exact Or.inr ⟨by rw [show (posOf hashF ea.1).1 = ca.key_hash from hha,
            show (posOf hashF eb.1).1 = cb.key_hash from hhb]; exact hkh, hk⟩
        · rw [if_neg hk] at h
          exact Bool.noConfusion h
      · rw [if_neg hkh] at h
        exact Bool.noConfusion h
  · intro h
    rcases h with h | ⟨heq, hk⟩
    · rw [if_pos (by rw [← hha, ← hhb]; exact h)]
    · have hkh : ca.key_hash = cb.key_hash := by
        rw [← hha, ← hhb]
        exact heq
      by_cases hlt : ca.key_hash < cb.key_hash
      · rw [if_pos hlt]
      · rw [if_neg hlt, if_pos hkh, if_pos (show ea.1 < eb.1 from hk)]

/-- A side with an empty remainder is past the end. -/
theorem side_empty_end {A : PersistentMap K V} {za : Iter K V}
    (h : SideOK hashF A za []) : za.current = none := by
  rcases h.2 with ⟨hend, _⟩ | ⟨cur, hc, hinv, _, hic⟩
  · exact hend
  · obtain ⟨e, he, _⟩ := iterCur_of_inv hashF hc hinv
    rw [hic] at he
    exact Option.noConfusion he

/-- A side with a nonempty remainder: its current entry is the head. -/
theorem side_some_decomp {A : PersistentMap K V} {za : Iter K V} {ea : K × V}
    {ra' : List (K × V)} (h : SideOK hashF A za (ea :: ra')) :
    ∃ cur, za.current = some cur ∧ InvC hashF za cur ∧
      remIter za cur = ea :: ra' ∧ iterCur za = some ea := by
  rcases h.2 with ⟨_, hnil⟩ | ⟨cur, hc, hinv, hrem, hic⟩
  · exact absurd hnil (List.cons_ne_nil ea ra')
  · exact ⟨cur, hc, hinv, hrem, by rw [hic]; rfl⟩

/-- Both sides exhausted: the walk stops with `true` and everything is
settled. -/
theorem pmEqLoop_merge_base (fuel : Nat) (A B : PersistentMap K V)
    (za zb : Iter K V) (hfuel : 1 ≤ fuel)
    (hSA : SideOK hashF A za []) (hSB : SideOK hashF B zb [])
    (hH5 : ∀ j, BelowF hashF ([] : List (K × V)) [] j →
      A.Get hashF j = B.Get hashF j) :
    (pmEqLoop fuel (dIterMk za zb) = true ↔
      ∀ k, A.Get hashF k = B.Get hashF k) := by
  have hza := side_empty_end hashF hSA
  have hzb := side_empty_end hashF hSB
  have heqv : iterEq za zb = true := by
    rw [iterEq_end_left hza]
    exact isEnd_of_none hzb
  have hmk : dIterMk za zb = ⟨za, zb, true, true⟩ := by
    unfold dIterMk
    rw [if_pos heqv]
  have hend : (dIterMk za zb).isEnd = true := by
    rw [hmk]
    show (za.isEnd && zb.isEnd) = true
    rw [isEnd_of_none hza, isEnd_of_none hzb]
    rfl
  obtain ⟨f, rfl⟩ : ∃ f, fuel = f + 1 := ⟨fuel - 1, by omega⟩
  rw [pmEqLoop, if_pos hend]
  constructor
  · intro _ k
    exact hH5 k ⟨fun p hp => Option.noConfusion hp, fun q hq => Option.noConfusion hq⟩
  · intro _
    rfl

/-- Keys below a sorted remainder's head do not occur in it. -/
theorem not_mem_of_lt_head {A : PersistentMap K V} {ra : List (K × V)}
    {hd : K × V} {j : K} (hok : ListOK hashF A ra) (hhd : ra.head? = some hd)
    (hjlt : posLt (posOf hashF j) (posOf hashF hd.1)) :
    ∀ e ∈ ra, e.1 ≠ j := by
  intro e he hej
  rcases mem_sorted_head hashF hok.1 hhd he with heq | hgt
  · rw [heq] at hej
    rw [hej] at hjlt
    exact posLt_irrefl _ hjlt
  · rw [hej] at hgt
    exact posLt_irrefl _ (posLt_trans hjlt hgt)

theorem head_mem_of_eq {α : Type} {l : List α} {a : α} (h : l.head? = some a) :
    a ∈ l := by
  cases l with
  | nil => exact Option.noConfusion h
  | cons x xs =>
    have hx : x = a := Option.some_inj.mp h
    rw [← hx]
    exact List.mem_cons_self x xs

/-- A key strictly below every entry of a sorted list (as witnessed by its
head) does not occur in it. -/
theorem below_head_not_mem {A : PersistentMap K V} {rb : List (K × V)} {j : K}
    (hok : ListOK hashF A rb)
    (hlt : ∀ q, rb.head? = some q → posLt (posOf hashF j) (posOf hashF q.1)) :
    ∀ e ∈ rb, e.1 ≠ j := by
  cases rb with
  | nil => exact fun e he => absurd he (List.not_mem_nil e)
  | cons x xs => exact not_mem_of_lt_head hashF hok rfl (hlt x rfl)

/-- Transfer of the walk invariants when only the first side advances past
its head `ea` (every passive entry lies strictly beyond `ea`). -/
theorem merge_adv_first {A B : PersistentMap K V} {ea : K × V}
    {ra' sk rest' rb : List (K × V)}
    (hsplit : ra' = sk ++ rest')
    (hskdef : ∀ p ∈ sk, p.2 = A.defVal)
    (hLA : ListOK hashF A (ea :: ra')) (hLB : ListOK hashF B rb)
    (hdv : A.defVal = B.defVal)
    (hH5 : ∀ j, BelowF hashF (ea :: ra') rb j → A.Get hashF j = B.Get hashF j)
    (hH9A : ∀ j, ¬ BelowF hashF (ea :: ra') rb j → (∀ e ∈ ea :: ra', e.1 ≠ j) →
      A.Get hashF j = A.defVal)
    (hH9B : ∀ j, ¬ BelowF hashF (ea :: ra') rb j → (∀ e ∈ rb, e.1 ≠ j) →
      B.Get hashF j = B.defVal)
    (hpass : ∀ e ∈ rb, posLt (posOf hashF ea.1) (posOf hashF e.1))
    (hgets : A.Get hashF ea.1 = B.Get hashF ea.1) :
    ListOK hashF A rest' ∧
    (∀ j, BelowF hashF rest' rb j → A.Get hashF j = B.Get hashF j) ∧
    (∀ j, ¬ BelowF hashF rest' rb j → (∀ e ∈ rest', e.1 ≠ j) →
      A.Get hashF j = A.defVal) ∧
    (∀ j, ¬ BelowF hashF rest' rb j → (∀ e ∈ rb, e.1 ≠ j) →
      B.Get hashF j = B.defVal) := by
  have hragt : ∀ e ∈ ra', posLt (posOf hashF ea.1) (posOf hashF e.1) :=
    (List.pairwise_cons.mp hLA.1).1
  have hrest'mem : ∀ e ∈ rest', e ∈ ea :: ra' := fun e he =>
    List.mem_cons_of_mem ea (by rw [hsplit]; exact List.mem_append_right sk he)
  have hskmem : ∀ p ∈ sk, p ∈ ea :: ra' := fun p hp =>
    List.mem_cons_of_mem ea (by rw [hsplit]; exact List.mem_append_left rest' hp)
  have hrest'gt : ∀ e ∈ rest', posLt (posOf hashF ea.1) (posOf hashF e.1) :=
    fun e he => hragt e (by rw [hsplit]; exact List.mem_append_right sk he)
  have hskget : ∀ p ∈ sk, A.Get hashF p.1 = A.defVal := by
    intro p hp
    rw [hLA.2 p (hskmem p hp)]
    exact hskdef p hp
  have hLA' : ListOK hashF A rest' := by
    constructor
    · refine List.Pairwise.sublist ?_ hLA.1
      apply List.Sublist.cons
      rw [hsplit]
      exact List.sublist_append_right sk rest'
    · exact fun e he => hLA.2 e (hrest'mem e he)
  have hnotold : ∀ j, posLt (posOf hashF ea.1) (posOf hashF j) →
      ¬ BelowF hashF (ea :: ra') rb j := by
    intro j hgt hb
    exact posLt_asymm hgt (hb.1 ea rfl)
  refine ⟨hLA', ?_, ?_, ?_⟩
  · -- settled below the new frontier
    intro j hbf'
    by_cases hje : j = ea.1
    · rw [hje]
      exact hgets
    · by_cases hjlt : posLt (posOf hashF j) (posOf hashF ea.1)
      · exact hH5 j ⟨fun p hp => by rw [← Option.some_inj.mp hp]; exact hjlt, hbf'.2⟩
      · have hgt : posLt (posOf hashF ea.1) (posOf hashF j) := by
          rcases posLt_trichotomy hashF j ea.1 with h | h | h
          · exact absurd h hjlt
          · exact absurd h hje
          · exact h
        have hnb := hnotold j hgt
        have hBd : B.Get hashF j = B.defVal :=
          hH9B j hnb (below_head_not_mem hashF hLB hbf'.2)
        by_cases hjsk : ∃ p ∈ sk, p.1 = j
        · obtain ⟨p, hp, hpj⟩ := hjsk
          rw [← hpj, hskget p hp, hpj, hBd, hdv]
        · have hnotina : ∀ e ∈ ea :: ra', e.1 ≠ j := by
            intro e he hej
            rcases List.mem_cons.mp he with heq | he'
            · rw [heq] at hej
              exact hje hej.symm
            · rw [hsplit] at he'
              rcases List.mem_append.mp he' with hesk | herest
              · exact hjsk ⟨e, hesk, hej⟩
              · exact below_head_not_mem hashF hLA' hbf'.1 e herest hej
          rw [hH9A j hnb hnotina, hBd, hdv]
  · -- first side passed-keys are default
    intro j hnb' hnotin
    by_cases hje : j = ea.1
    · exfalso
      apply hnb'
      constructor
      · intro p hp
        rw [hje]
        exact hrest'gt p (head_mem_of_eq hp)
      · intro q hq
        rw [hje]
        exact hpass q (head_mem_of_eq hq)
    · by_cases hjlt : posLt (posOf hashF j) (posOf hashF ea.1)
      · exfalso
        apply hnb'
        constructor
        · intro p hp
          exact posLt_trans hjlt (hrest'gt p (head_mem_of_eq hp))
        · intro q hq
          exact posLt_trans hjlt (hpass q (head_mem_of_eq hq))
      · have hgt : posLt (posOf hashF ea.1) (posOf hashF j) := by
          rcases posLt_trichotomy hashF j ea.1 with h | h | h
          · exact absurd h hjlt
          · exact absurd h hje
          · exact h
        by_cases hjsk : ∃ p ∈ sk, p.1 = j
        · obtain ⟨p, hp, hpj⟩ := hjsk
          rw [← hpj]
          exact hskget p hp
        · apply hH9A j (hnotold j hgt)
          intro e he hej
          rcases List.mem_cons.mp he with heq | he'
          · rw [heq] at hej
            exact hje hej.symm
          · rw [hsplit] at he'
            rcases List.mem_append.mp he' with hesk | herest
            · exact hjsk ⟨e, hesk, hej⟩
            · exact (hnotin e herest) hej
  · -- second side passed-keys are default (second side untouched)
    intro j hnb' hnotin
    refine hH9B j ?_ hnotin
    intro hb
    apply hnb'
    constructor
    · intro p hp
      exact posLt_trans (hb.1 ea rfl) (hrest'gt p (head_mem_of_eq hp))
    · exact hb.2

/-- Mirror image of `merge_adv_first`: only the second side advances. -/
theorem merge_adv_second {A B : PersistentMap K V} {eb : K × V}
    {rb' sk rest' ra : List (K × V)}
    (hsplit : rb' = sk ++ rest')
    (hskdef : ∀ p ∈ sk, p.2 = B.defVal)
    (hLA : ListOK hashF A ra) (hLB : ListOK hashF B (eb :: rb'))
    (hdv : A.defVal = B.defVal)
    (hH5 : ∀ j, BelowF hashF ra (eb :: rb') j → A.Get hashF j = B.Get hashF j)
    (hH9A : ∀ j, ¬ BelowF hashF ra (eb :: rb') j → (∀ e ∈ ra, e.1 ≠ j) →
      A.Get hashF j = A.defVal)
    (hH9B : ∀ j, ¬ BelowF hashF ra (eb :: rb') j → (∀ e ∈ eb :: rb', e.1 ≠ j) →
      B.Get hashF j = B.defVal)
    (hpass : ∀ e ∈ ra, posLt (posOf hashF eb.1) (posOf hashF e.1))
    (hgets : A.Get hashF eb.1 = B.Get hashF eb.1) :
    ListOK hashF B rest' ∧
    (∀ j, BelowF hashF ra rest' j → A.Get hashF j = B.Get hashF j) ∧
    (∀ j, ¬ BelowF hashF ra rest' j → (∀ e ∈ ra, e.1 ≠ j) →
      A.Get hashF j = A.defVal) ∧
    (∀ j, ¬ BelowF hashF ra rest' j → (∀ e ∈ rest', e.1 ≠ j) →
      B.Get hashF j = B.defVal) := by
  obtain ⟨h1, h2, h3, h4⟩ :=
    merge_adv_first hashF hsplit hskdef hLB hLA hdv.symm
      (fun j hb => (hH5 j ⟨hb.2, hb.1⟩).symm)
      (fun j hnb hni => hH9B j (fun hb => hnb ⟨hb.2, hb.1⟩) hni)
      (fun j hnb hni => hH9A j (fun hb => hnb ⟨hb.2, hb.1⟩) hni)
      hpass hgets.symm
  exact ⟨h1, fun j hb => (h2 j ⟨hb.2, hb.1⟩).symm,
    fun j hnb hni => h4 j (fun hb => hnb ⟨hb.2, hb.1⟩) hni,
    fun j hnb hni => h3 j (fun hb => hnb ⟨hb.2, hb.1⟩) hni⟩

/-- Transfer of the walk invariants when both sides advance past heads with
the same key. -/
theorem merge_adv_both {A B : PersistentMap K V} {ea eb : K × V}
    {ra' rb' ska rest'a skb rest'b : List (K × V)}
    (hkey : ea.1 = eb.1)
    (hsplita : ra' = ska ++ rest'a) (hsplitb : rb' = skb ++ rest'b)
    (hskdefa : ∀ p ∈ ska, p.2 = A.defVal)
    (hskdefb : ∀ p ∈ skb, p.2 = B.defVal)
    (hLA : ListOK hashF A (ea :: ra')) (hLB : ListOK hashF B (eb :: rb'))
    (hdv : A.defVal = B.defVal)
    (hH5 : ∀ j, BelowF hashF (ea :: ra') (eb :: rb') j →
      A.Get hashF j = B.Get hashF j)
    (hH9A : ∀ j, ¬ BelowF hashF (ea :: ra') (eb :: rb') j →
      (∀ e ∈ ea :: ra', e.1 ≠ j) → A.Get hashF j = A.defVal)
    (hH9B : ∀ j, ¬ BelowF hashF (ea :: ra') (eb :: rb') j →
      (∀ e ∈ eb :: rb', e.1 ≠ j) → B.Get hashF j = B.defVal)
    (hgets : A.Get hashF ea.1 = B.Get hashF ea.1) :
    ListOK hashF A rest'a ∧ ListOK hashF B rest'b ∧
    (∀ j, BelowF hashF rest'a rest'b j → A.Get hashF j = B.Get hashF j) ∧
    (∀ j, ¬ BelowF hashF rest'a rest'b j → (∀ e ∈ rest'a, e.1 ≠ j) →
      A.Get hashF j = A.defVal) ∧
    (∀ j, ¬ BelowF hashF rest'a rest'b j → (∀ e ∈ rest'b, e.1 ≠ j) →
      B.Get hashF j = B.defVal) := by
  have hkp : posOf hashF eb.1 = posOf hashF ea.1 := by rw [hkey]
  have hragt : ∀ e ∈ ra', posLt (posOf hashF ea.1) (posOf hashF e.1) :=
    (List.pairwise_cons.mp hLA.1).1
  have hrbgt : ∀ e ∈ rb', posLt (posOf hashF ea.1) (posOf hashF e.1) := by
    intro e he
    have := (List.pairwise_cons.mp hLB.1).1 e he
    rw [hkp] at this
    exact this
  have hrest'agt : ∀ e ∈ rest'a, posLt (posOf hashF ea.1) (posOf hashF e.1) :=
    fun e he => hragt e (by rw [hsplita]; exact List.mem_append_right ska he)
  have hrest'bgt : ∀ e ∈ rest'b, posLt (posOf hashF ea.1) (posOf hashF e.1) :=
    fun e he => hrbgt e (by rw [hsplitb]; exact List.mem_append_right skb he)
  have hskaget : ∀ p ∈ ska, A.Get hashF p.1 = A.defVal := by
    intro p hp
    rw [hLA.2 p (List.mem_cons_of_mem ea
      (by rw [hsplita]; exact List.mem_append_left rest'a hp))]
    exact hskdefa p hp
  have hskbget : ∀ p ∈ skb, B.Get hashF p.1 = B.defVal := by
    intro p hp
    rw [hLB.2 p (List.mem_cons_of_mem eb
      (by rw [hsplitb]; exact List.mem_append_left rest'b hp))]
    exact hskdefb p hp
  have hLA' : ListOK hashF A rest'a := by
    constructor
    · refine List.Pairwise.sublist ?_ hLA.1
      apply List.Sublist.cons
      rw [hsplita]
      exact List.sublist_append_right ska rest'a
    · intro e he
      exact hLA.2 e (List.mem_cons_of_mem ea
        (by rw [hsplita]; exact List.mem_append_right ska he))
  have hLB' : ListOK hashF B rest'b := by
    constructor
    · refine List.Pairwise.sublist ?_ hLB.1
      apply List.Sublist.cons
      rw [hsplitb]
      exact List.sublist_append_right skb rest'b
    · intro e he
      exact hLB.2 e (List.mem_cons_of_mem eb
        (by rw [hsplitb]; exact List.mem_append_right skb he))
  have hnotold : ∀ j, posLt (posOf hashF ea.1) (posOf hashF j) →
      ¬ BelowF hashF (ea :: ra') (eb :: rb') j := by
    intro j hgt hb
    exact posLt_asymm hgt (hb.1 ea rfl)
  have hAnotin : ∀ j, ¬ j = ea.1 → (¬ ∃ p ∈ ska, p.1 = j) →
      (∀ e ∈ rest'a, e.1 ≠ j) → ∀ e ∈ ea :: ra', e.1 ≠ j := by
    intro j hje hjska hnotin e he hej
    rcases List.mem_cons.mp he with heq | he'
    · rw [heq] at hej
      exact hje hej.symm
    · rw [hsplita] at he'
      rcases List.mem_append.mp he' with hesk | herest
      · exact hjska ⟨e, hesk, hej⟩
      · exact (hnotin e herest) hej
  have hBnotin : ∀ j, ¬ j = ea.1 → (¬ ∃ p ∈ skb, p.1 = j) →
      (∀ e ∈ rest'b, e.1 ≠ j) → ∀ e ∈ eb :: rb', e.1 ≠ j := by
    intro j hje hjskb hnotin e he hej
    rcases List.mem_cons.mp he with heq | he'
    · rw [heq] at hej
      exact hje (hkey.trans hej).symm
    · rw [hsplitb] at he'
      rcases List.mem_append.mp he' with hesk | herest
      · exact hjskb ⟨e, hesk, hej⟩
      · exact (hnotin e herest) hej
  refine ⟨hLA', hLB', ?_, ?_, ?_⟩
  · intro j hbf'
    by_cases hje : j = ea.1
    · rw [hje]
      exact hgets
    · by_cases hjlt : posLt (posOf hashF j) (posOf hashF ea.1)
      · refine hH5 j ⟨?_, ?_⟩
        · intro p hp
          rw [← Option.some_inj.mp hp]
          exact hjlt
        · intro q hq
          rw [← Option.some_inj.mp hq, hkp]
          exact hjlt
      · have hgt : posLt (posOf hashF ea.1) (posOf hashF j) := by
          rcases posLt_trichotomy hashF j ea.1 with h | h | h
          · exact absurd h hjlt
          · exact absurd h hje
          · exact h
        have hnb := hnotold j hgt
        have hAd : A.Get hashF j = A.defVal := by
          by_cases hjska : ∃ p ∈ ska, p.1 = j
          · obtain ⟨p, hp, hpj⟩ := hjska
            rw [← hpj]
            exact hskaget p hp
          · exact hH9A j hnb (hAnotin j hje hjska
              (below_head_not_mem hashF hLA' hbf'.1))
        have hBd : B.Get hashF j = B.defVal := by
          by_cases hjskb : ∃ p ∈ skb, p.1 = j
          · obtain ⟨p, hp, hpj⟩ := hjskb
            rw [← hpj]
            exact hskbget p hp
          · exact hH9B j hnb (hBnotin j hje hjskb
              (below_head_not_mem hashF hLB' hbf'.2))
        rw [hAd, hBd, hdv]
  · intro j hnb' hnotin
    by_cases hje : j = ea.1
    · exfalso
      apply hnb'
      constructor
      · intro p hp
        rw [hje]
        exact hrest'agt p (head_mem_of_eq hp)
      · intro q hq
        rw [hje]
        exact hrest'bgt q (head_mem_of_eq hq)
    · by_cases hjlt : posLt (posOf hashF j) (posOf hashF ea.1)
      · exfalso
        apply hnb'
        constructor
        · intro p hp
          exact posLt_trans hjlt (hrest'agt p (head_mem_of_eq hp))
        · intro q hq
          exact posLt_trans hjlt (hrest'bgt q (head_mem_of_eq hq))
      · have hgt : posLt (posOf hashF ea.1) (posOf hashF j) := by
          rcases posLt_trichotomy hashF j ea.1 with h | h | h
          · exact absurd h hjlt
          · exact absurd h hje
          · exact h
        by_cases hjska : ∃ p ∈ ska, p.1 = j
        · obtain ⟨p, hp, hpj⟩ := hjska
          rw [← hpj]
          exact hskaget p hp
        · exact hH9A j (hnotold j hgt) (hAnotin j hje hjska hnotin)
  · intro j hnb' hnotin
    by_cases hje : j = ea.1
    · exfalso
      apply hnb'
      constructor
      · intro p hp
        rw [hje]
        exact hrest'agt p (head_mem_of_eq hp)
      · intro q hq
        rw [hje]
        exact hrest'bgt q (head_mem_of_eq hq)
    · by_cases hjlt : posLt (posOf hashF j) (posOf hashF ea.1)
      · exfalso
        apply hnb'
        constructor
        · intro p hp
          exact posLt_trans hjlt (hrest'agt p (head_mem_of_eq hp))
        · intro q hq
          exact posLt_trans hjlt (hrest'bgt q (head_mem_of_eq hq))
      · have hgt : posLt (posOf hashF ea.1) (posOf hashF j) := by
          rcases posLt_trichotomy hashF j ea.1 with h | h | h
          · exact absurd h hjlt
          · exact absurd h hje
          · exact h
        by_cases hjskb : ∃ p ∈ skb, p.1 = j
        · obtain ⟨p, hp, hpj⟩ := hjskb
          rw [← hpj]
          exact hskbget p hp
        · exact hH9B j (hnotold j hgt) (hBnotin j hje hjskb hnotin)

/-- One unrolling of the `operator==` loop at a non-end double iterator. -/
theorem pmEqLoop_step {z : DIter K V} {f : Nat} {tr : K × V × V}
    (hend : z.isEnd = false) (hd : dDeref z = some tr) :
    pmEqLoop (f + 1) z =
      if tr.2.1 ≠ tr.2.2 then false else pmEqLoop f (dNext z) := by
  conv_lhs => rw [pmEqLoop]
  rw [if_neg (by rw [hend]; simp), hd]

/-- The iff-plumbing of one `operator==` loop step: if the compared slots
are the two `Get`s at the consumed key and the advanced state decides the
equality of the remaining keys, the whole loop decides it. -/
theorem merge_step {A B : PersistentMap K V} {z z' : DIter K V} {k0 : K}
    {x y : V} {f : Nat}
    (hloopred : pmEqLoop (f + 1) z = if x ≠ y then false else pmEqLoop f z')
    (hx : A.Get hashF k0 = x) (hy : B.Get hashF k0 = y)
    (hIH : A.Get hashF k0 = B.Get hashF k0 →
      (pmEqLoop f z' = true ↔ ∀ k, A.Get hashF k = B.Get hashF k)) :
    (pmEqLoop (f + 1) z = true ↔ ∀ k, A.Get hashF k = B.Get hashF k) := by
  constructor
  · intro hL
    have hxy : x = y := by
      by_contra hne
      rw [hloopred, if_pos hne] at hL
      exact Bool.noConfusion hL
    have hgets : A.Get hashF k0 = B.Get hashF k0 := by rw [hx, hy, hxy]
    have hrec : pmEqLoop f z' = true := by
      rw [hloopred, if_neg (fun hh => hh hxy)] at hL
      exact hL
    exact (hIH hgets).mp hrec
  · intro hall
    have hgets : A.Get hashF k0 = B.Get hashF k0 := hall k0
    have hxy : x = y := by rw [← hx, ← hy]; exact hgets
    rw [hloopred, if_neg (fun hh => hh hxy)]
    exact (hIH hgets).mpr hall

/-- The `operator==` walk decides extensional equality: given invariant
states whose remainders carry the not-yet-visited entries and with all
keys below the frontier already settled, the loop returns `true` iff the
two maps agree on every key. -/
theorem pmEqLoop_merge : ∀ (n fuel : Nat) (A B : PersistentMap K V)
    (za zb : Iter K V) (ra rb : List (K × V)),
    ra.length + rb.length ≤ n → n < fuel →
    SideOK hashF A za ra → SideOK hashF B zb rb →
    ListOK hashF A ra → ListOK hashF B rb →
    A.defVal = B.defVal →
    (∀ j, BelowF hashF ra rb j → A.Get hashF j = B.Get hashF j) →
    (∀ j, ¬ BelowF hashF ra rb j → (∀ e ∈ ra, e.1 ≠ j) →
      A.Get hashF j = A.defVal) →
    (∀ j, ¬ BelowF hashF ra rb j → (∀ e ∈ rb, e.1 ≠ j) →
      B.Get hashF j = B.defVal) →
    (pmEqLoop fuel (dIterMk za zb) = true ↔
      ∀ k, A.Get hashF k = B.Get hashF k) := by
  intro n
  induction n with
  | zero =>
    intro fuel A B za zb ra rb hlen hfuel hSA hSB hLA hLB hdv hH5 hH9A hH9B
    have hra : ra = [] := List.length_eq_zero.mp (by omega)
    have hrb : rb = [] := List.length_eq_zero.mp (by omega)
    subst hra hrb
    exact pmEqLoop_merge_base hashF fuel A B za zb (by omega) hSA hSB hH5
  | succ n ih =>
    intro fuel A B za zb ra rb hlen hfuel hSA hSB hLA hLB hdv hH5 hH9A hH9B
    obtain ⟨f, rfl⟩ : ∃ f, fuel = f + 1 := ⟨fuel - 1, by omega⟩
    rcases ra with _ | ⟨ea, ra'⟩
    · rcases rb with _ | ⟨eb, rb'⟩
      · exact pmEqLoop_merge_base hashF (f + 1) A B za zb (by omega) hSA hSB hH5
      · -- A exhausted, B yields eb
        have hza := side_empty_end hashF hSA
        obtain ⟨cb, hcb, hinvb, hremb, hcurb⟩ := side_some_decomp hashF hSB
        obtain ⟨sk, rest', hsplit, hskdef, hSB'⟩ :=
          advance_side hashF B zb cb eb rb' hSB.1 hcb hinvb hremb hcurb
        have heqv : iterEq za zb = false := by
          rw [iterEq_end_left hza]
          exact isEnd_of_some hcb
        have hmk : dIterMk za zb = ⟨za, zb, false, true⟩ := by
          unfold dIterMk
          rw [if_neg (by rw [heqv]; simp),
            if_neg (by rw [iterLt_end_left hza]; simp)]
        have hend : (dIterMk za zb).isEnd = false := by
          rw [hmk]
          show (za.isEnd && zb.isEnd) = false
          rw [isEnd_of_some hcb]
          simp
        have hderef : dDeref (dIterMk za zb) = some (eb.1, za.defVal, eb.2) := by
          rw [hmk]
          simp [dDeref, hcurb]
        have hnexteq : dNext (dIterMk za zb) = dIterMk za (iterNext zb) := by
          rw [hmk]
          rfl
        have hloopred : pmEqLoop (f + 1) (dIterMk za zb) =
            if za.defVal ≠ eb.2 then false
            else pmEqLoop f (dIterMk za (iterNext zb)) := by
          rw [pmEqLoop_step hend hderef, hnexteq]
        have hnotb : ¬ BelowF hashF ([] : List (K × V)) (eb :: rb') eb.1 := by
          intro hb
          exact posLt_irrefl _ (hb.2 eb rfl)
        have hAget : A.Get hashF eb.1 = A.defVal :=
          hH9A eb.1 hnotb (fun e he => absurd he (List.not_mem_nil e))
        have hBget : B.Get hashF eb.1 = eb.2 :=
          hLB.2 eb (List.mem_cons_self eb rb')
        refine merge_step hashF hloopred (by rw [hAget, ← hSA.1]) hBget ?_
        intro hgets
        obtain ⟨hLB', hH5', hH9A', hH9B'⟩ :=
          merge_adv_second hashF hsplit hskdef hLA hLB hdv hH5 hH9A hH9B
            (fun e he => absurd he (List.not_mem_nil e)) hgets
        apply ih f A B za (iterNext zb) [] rest'
        · have hsl := congrArg List.length hsplit
          rw [List.length_append] at hsl
          simp only [List.length_nil, List.length_cons] at hlen ⊢
          omega
        · omega
        · exact hSA
        · exact hSB'
        · exact hLA
        · exact hLB'
        · exact hdv
        · exact hH5'
        · exact hH9A'
        · exact hH9B'
    · rcases rb with _ | ⟨eb, rb'⟩
      · -- B exhausted, A yields ea
        have hzb := side_empty_end hashF hSB
        obtain ⟨ca, hca, hinva, hrema, hcura⟩ := side_some_decomp hashF hSA
        obtain ⟨sk, rest', hsplit, hskdef, hSA'⟩ :=
          advance_side hashF A za ca ea ra' hSA.1 hca hinva hrema hcura
        have heqv : iterEq za zb = false := iterEq_some_end hca hzb
        have hmk : dIterMk za zb = ⟨za, zb, true, false⟩ := by
          unfold dIterMk
          rw [if_neg (by rw [heqv]; simp), if_pos (iterLt_some_end hca hzb)]
        have hend : (dIterMk za zb).isEnd = false := by
          rw [hmk]
          show (za.isEnd && zb.isEnd) = false
          rw [isEnd_of_some hca]
          simp
        have hderef : dDeref (dIterMk za zb) = some (ea.1, ea.2, zb.defVal) := by
          rw [hmk]
          simp [dDeref, hcura]
        have hnexteq : dNext (dIterMk za zb) = dIterMk (iterNext za) zb := by
          rw [hmk]
          rfl
        have hloopred : pmEqLoop (f + 1) (dIterMk za zb) =
            if ea.2 ≠ zb.defVal then false
            else pmEqLoop f (dIterMk (iterNext za) zb) := by
          rw [pmEqLoop_step hend hderef, hnexteq]
        have hnota : ¬ BelowF hashF (ea :: ra') ([] : List (K × V)) ea.1 := by
          intro hb
          exact posLt_irrefl _ (hb.1 ea rfl)
        have hAget : A.Get hashF ea.1 = ea.2 :=
          hLA.2 ea (List.mem_cons_self ea ra')
        have hBget : B.Get hashF ea.1 = B.defVal :=
          hH9B ea.1 hnota (fun e he => absurd he (List.not_mem_nil e))
        refine merge_step hashF hloopred hAget (by rw [hBget, hSB.1]) ?_
        intro hgets
        obtain ⟨hLA', hH5', hH9A', hH9B'⟩ :=
          merge_adv_first hashF hsplit hskdef hLA hLB hdv hH5 hH9A hH9B
            (fun e he => absurd he (List.not_mem_nil e)) hgets
        apply ih f A B (iterNext za) zb rest' []
        · have hsl := congrArg List.length hsplit
          rw [List.length_append] at hsl
          simp only [List.length_nil, List.length_cons] at hlen ⊢
          omega
        · omega
        · exact hSA'
        · exact hSB
        · exact hLA'
        · exact hLB
        · exact hdv
        · exact hH5'
        · exact hH9A'
        · exact hH9B'
      · -- both sides yield an entry
        obtain ⟨ca, hca, hinva, hrema, hcura⟩ := side_some_decomp hashF hSA
        obtain ⟨cb, hcb, hinvb, hremb, hcurb⟩ := side_some_decomp hashF hSB
        rcases posLt_trichotomy hashF ea.1 eb.1 with hklt | hkeq | hkgt
        · -- ea strictly first: advance A only
          have hne : ea.1 ≠ eb.1 := by
            intro h
            rw [h] at hklt
            exact posLt_irrefl _ hklt
          have heqv : iterEq za zb = false := by
            cases hx : iterEq za zb
            · rfl
            · exact absurd
                ((iterEq_iff hashF hca hcb hinva hinvb hcura hcurb).mp hx) hne
          have hltv : iterLt za zb = true :=
            (iterLt_iff hashF hca hcb hinva hinvb hcura hcurb).mpr hklt
          have hmk : dIterMk za zb = ⟨za, zb, true, false⟩ := by
            unfold dIterMk
            rw [if_neg (by rw [heqv]; simp), if_pos hltv]
          have hend : (dIterMk za zb).isEnd = false := by
            rw [hmk]
            show (za.isEnd && zb.isEnd) = false
            rw [isEnd_of_some hca]
            simp
          have hderef : dDeref (dIterMk za zb) = some (ea.1, ea.2, zb.defVal) := by
            rw [hmk]
            simp [dDeref, hcura]
          have hnexteq : dNext (dIterMk za zb) = dIterMk (iterNext za) zb := by
            rw [hmk]
            rfl
          have hloopred : pmEqLoop (f + 1) (dIterMk za zb) =
              if ea.2 ≠ zb.defVal then false
              else pmEqLoop f (dIterMk (iterNext za) zb) := by
            rw [pmEqLoop_step hend hderef, hnexteq]
          obtain ⟨sk, rest', hsplit, hskdef, hSA'⟩ :=
            advance_side hashF A za ca ea ra' hSA.1 hca hinva hrema hcura
          have hnota : ¬ BelowF hashF (ea :: ra') (eb :: rb') ea.1 := by
            intro hb
            exact posLt_irrefl _ (hb.1 ea rfl)
          have hAget : A.Get hashF ea.1 = ea.2 :=
            hLA.2 ea (List.mem_cons_self ea ra')
          have hBget : B.Get hashF ea.1 = B.defVal :=
            hH9B ea.1 hnota (not_mem_of_lt_head hashF hLB rfl hklt)
          have hpass : ∀ e ∈ eb :: rb',
              posLt (posOf hashF ea.1) (posOf hashF e.1) := by
            intro e he
            rcases mem_sorted_head hashF hLB.1 rfl he with heq | hgt2
            · rw [heq]
              exact hklt
            · exact posLt_trans hklt hgt2
          refine merge_step hashF hloopred hAget (by rw [hBget, hSB.1]) ?_
          intro hgets
          obtain ⟨hLA', hH5', hH9A', hH9B'⟩ :=
            merge_adv_first hashF hsplit hskdef hLA hLB hdv hH5 hH9A hH9B
              hpass hgets
          apply ih f A B (iterNext za) zb rest' (eb :: rb')
          · have hsl := congrArg List.length hsplit
            rw [List.length_append] at hsl
            simp only [List.length_cons] at hlen ⊢
            omega
          · omega
          · exact hSA'
          · exact hSB
          · exact hLA'
          · exact hLB
          · exact hdv
          · exact hH5'
          · exact hH9A'
          · exact hH9B'
        · -- same key: advance both
          have heqv : iterEq za zb = true :=
            (iterEq_iff hashF hca hcb hinva hinvb hcura hcurb).mpr hkeq
          have hmk : dIterMk za zb = ⟨za, zb, true, true⟩ := by
            unfold dIterMk
            rw [if_pos heqv]
          have hend : (dIterMk za zb).isEnd = false := by
            rw [hmk]
            show (za.isEnd && zb.isEnd) = false
            rw [isEnd_of_some hca]
            simp
          have hderef : dDeref (dIterMk za zb) = some (ea.1, ea.2, eb.2) := by
            rw [hmk]
            simp [dDeref, hcura, hcurb]
          have hnexteq : dNext (dIterMk za zb) =
              dIterMk (iterNext za) (iterNext zb) := by
            rw [hmk]
            rfl
          have hloopred : pmEqLoop (f + 1) (dIterMk za zb) =
              if ea.2 ≠ eb.2 then false
              else pmEqLoop f (dIterMk (iterNext za) (iterNext zb)) := by
            rw [pmEqLoop_step hend hderef, hnexteq]
          obtain ⟨ska, rest'a, hsplita, hskdefa, hSA'⟩ :=
            advance_side hashF A za ca ea ra' hSA.1 hca hinva hrema hcura
          obtain ⟨skb, rest'b, hsplitb, hskdefb, hSB'⟩ :=
            advance_side hashF B zb cb eb rb' hSB.1 hcb hinvb hremb hcurb
          have hAget : A.Get hashF ea.1 = ea.2 :=
            hLA.2 ea (List.mem_cons_self ea ra')
          have hBget : B.Get hashF ea.1 = eb.2 := by
            rw [hkeq]
            exact hLB.2 eb (List.mem_cons_self eb rb')
          refine merge_step hashF hloopred hAget hBget ?_
          intro hgets
          obtain ⟨hLA', hLB', hH5', hH9A', hH9B'⟩ :=
            merge_adv_both hashF hkeq hsplita hsplitb hskdefa hskdefb
              hLA hLB hdv hH5 hH9A hH9B hgets
          apply ih f A B (iterNext za) (iterNext zb) rest'a rest'b
          · have hsla := congrArg List.length hsplita
            have hslb := congrArg List.length hsplitb
            rw [List.length_append] at hsla hslb
            simp only [List.length_cons] at hlen ⊢
            omega
          · omega
          · exact hSA'
          · exact hSB'
          · exact hLA'
          · exact hLB'
          · exact hdv
          · exact hH5'
          · exact hH9A'
          · exact hH9B'
        · -- eb strictly first: advance B only
          have hne : ea.1 ≠ eb.1 := by
            intro h
            rw [h] at hkgt
            exact posLt_irrefl _ hkgt
          have heqv : iterEq za zb = false := by
            cases hx : iterEq za zb
            · rfl
            · exact absurd
                ((iterEq_iff hashF hca hcb hinva hinvb hcura hcurb).mp hx) hne
          have hltv : iterLt za zb = false := by
            cases hx : iterLt za zb
            · rfl
            · exact absurd
                ((iterLt_iff hashF hca hcb hinva hinvb hcura hcurb).mp hx)
                (posLt_asymm hkgt)
          have hmk : dIterMk za zb = ⟨za, zb, false, true⟩ := by
            unfold dIterMk
            rw [if_neg (by rw [heqv]; simp), if_neg (by rw [hltv]; simp)]
          have hend : (dIterMk za zb).isEnd = false := by
            rw [hmk]
            show (za.isEnd && zb.isEnd) = false
            rw [isEnd_of_some hca]
            simp
          have hderef : dDeref (dIterMk za zb) = some (eb.1, za.defVal, eb.2) := by
            rw [hmk]
            simp [dDeref, hcurb]
          have hnexteq : dNext (dIterMk za zb) = dIterMk za (iterNext zb) := by
            rw [hmk]
            rfl
          have hloopred : pmEqLoop (f + 1) (dIterMk za zb) =
              if za.defVal ≠ eb.2 then false
              else pmEqLoop f (dIterMk za (iterNext zb)) := by
            rw [pmEqLoop_step hend hderef, hnexteq]
          obtain ⟨sk, rest', hsplit, hskdef, hSB'⟩ :=
            advance_side hashF B zb cb eb rb' hSB.1 hcb hinvb hremb hcurb
          have hnotb : ¬ BelowF hashF (ea :: ra') (eb :: rb') eb.1 := by
            intro hb
            exact posLt_irrefl _ (hb.2 eb rfl)
          have hAget : A.Get hashF eb.1 = A.defVal :=
            hH9A eb.1 hnotb (not_mem_of_lt_head hashF hLA rfl hkgt)
          have hBget : B.Get hashF eb.1 = eb.2 :=
            hLB.2 eb (List.mem_cons_self eb rb')
          have hpass : ∀ e ∈ ea :: ra',
              posLt (posOf hashF eb.1) (posOf hashF e.1) := by
            intro e he
            rcases mem_sorted_head hashF hLA.1 rfl he with heq | hgt2
            · rw [heq]
              exact hkgt
            · exact posLt_trans hkgt hgt2
          refine merge_step hashF hloopred (by rw [hAget, ← hSA.1]) hBget ?_
          intro hgets
          obtain ⟨hLB', hH5', hH9A', hH9B'⟩ :=
            merge_adv_second hashF hsplit hskdef hLA hLB hdv hH5 hH9A hH9B
              hpass hgets
          apply ih f A B za (iterNext zb) (ea :: ra') rest'
          · have hsl := congrArg List.length hsplit
            rw [List.length_append] at hsl
            simp only [List.length_cons] at hlen ⊢
            omega
          · omega
          · exact hSA
          · exact hSB'
          · exact hLA
          · exact hLB'
          · exact hdv
          · exact hH5'
          · exact hH9A'
          · exact hH9B'

/-- `begin()` is an invariant state whose remainder is the full entry
list. -/
theorem begin_sideOK (A : PersistentMap K V) (hwa : WfM hashF A) :
    SideOK hashF A A.begin (entriesOf A) := by
  unfold PersistentMap.begin entriesOf
  cases hta : A.tree with
  | none => exact ⟨rfl, Or.inl ⟨rfl, rfl⟩⟩
  | some t =>
    have hwt := hwa t hta
    have hinv := iterBegin_inv hashF t A.defVal hwt
    have hcur : (iterBegin t A.defVal).current =
        some (FindLeftmost hashFuel t 0 (fun _ => none)).1 := rfl
    have hic := hinv _ hcur
    have hrem := iterBegin_rem hashF t A.defVal hwt
    refine ⟨rfl, Or.inr ⟨_, hcur, hic, hrem, ?_⟩⟩
    show iterCur (iterBegin t A.defVal) = (entriesFrom t 0).head?
    rw [← hrem]
    exact (remIter_head hashF hcur hic).symm

/-- The full entry list is sorted and carries the `Get` values. -/
theorem begin_listOK (A : PersistentMap K V) (hwa : WfM hashF A) :
    ListOK hashF A (entriesOf A) := by
  constructor
  · unfold entriesOf
    cases hta : A.tree with
    | none => exact List.Pairwise.nil
    | some t => exact (entriesFrom_spec hashF t 0 (hwa t hta)).2.2
  · intro e he
    exact entriesOf_Get hashF A hwa e.1 e.2 he

/-- A key absent from the entry list is bound to the default. -/
theorem Get_default_of_not_mem (A : PersistentMap K V) (hwa : WfM hashF A)
    (j : K) (hni : ∀ e ∈ entriesOf A, e.1 ≠ j) :
    A.Get hashF j = A.defVal := by
  by_contra hne
  exact hni (j, A.Get hashF j) (Get_entriesOf hashF A hwa j hne) rfl

/-- C3 (corrected): on maps sharing the default value, `operator==` holds
iff `Get` agrees on every key. (The unrestricted claim is false: the
root-pointer shortcut makes two empty maps with different defaults compare
equal, see the counterexample.) -/
theorem C3_equality_coherence (A B : PersistentMap K V)
    (hwa : WfM hashF A) (hwb : WfM hashF B) (hdv : A.defVal = B.defVal) :
    (pmEq A B = true ↔ ∀ k, A.Get hashF k = B.Get hashF k) := by
  have hloop : (pmEqLoop (zipFuel A B) (dIterMk A.begin B.begin) = true ↔
      ∀ k, A.Get hashF k = B.Get hashF k) := by
    apply pmEqLoop_merge hashF ((entriesOf A).length + (entriesOf B).length)
      (zipFuel A B) A B A.begin B.begin (entriesOf A) (entriesOf B) (le_refl _)
    · have h1 := entriesOf_length_le A
      have h2 := entriesOf_length_le B
      unfold zipFuel
      omega
    · exact begin_sideOK hashF A hwa
    · exact begin_sideOK hashF B hwb
    · exact begin_listOK hashF A hwa
    · exact begin_listOK hashF B hwb
    · exact hdv
    · intro j hbf
      have hA : A.Get hashF j = A.defVal :=
        Get_default_of_not_mem hashF A hwa j
          (below_head_not_mem hashF (begin_listOK hashF A hwa) hbf.1)
      have hB : B.Get hashF j = B.defVal :=
        Get_default_of_not_mem hashF B hwb j
          (below_head_not_mem hashF (begin_listOK hashF B hwb) hbf.2)
      rw [hA, hB, hdv]
    · intro j _ hni
      exact Get_default_of_not_mem hashF A hwa j hni
    · intro j _ hni
      exact Get_default_of_not_mem hashF B hwb j hni
  unfold pmEq
  cases hta : A.tree with
  | none =>
    cases htb : B.tree with
    | none =>
      constructor
      · intro _ k
        have hga : A.Get hashF k = A.defVal := by
          unfold PersistentMap.Get PersistentMap.findHash
          rw [hta]
          rfl
        have hgb : B.Get hashF k = B.defVal := by
          unfold PersistentMap.Get PersistentMap.findHash
          rw [htb]
          rfl
        rw [hga, hgb, hdv]
      · intro _
        rfl
    | some tb =>
      show (if A.defVal ≠ B.defVal then false
        else pmEqLoop (zipFuel A B) (dIterMk A.begin B.begin)) = true ↔
        ∀ k, A.Get hashF k = B.Get hashF k
      rw [if_neg (fun hh => hh hdv)]
      exact hloop
  | some ta =>
    show (if A.defVal ≠ B.defVal then false
      else pmEqLoop (zipFuel A B) (dIterMk A.begin B.begin)) = true ↔
      ∀ k, A.Get hashF k = B.Get hashF k
    rw [if_neg (fun hh => hh hdv)]
    exact hloop

/-! ### Witnesses: the hypothesised theorems applied at concrete inputs -/

theorem C2_persistence_witness :
    (((PersistentMap.empty 0 : PersistentMap Nat Nat).Add natId 7 1).Add natId 7 2).Get
        natId 7 = 2 ∧
    ((PersistentMap.empty 0 : PersistentMap Nat Nat).Add natId 7 1).Get natId 7 = 1 :=
  C2_persistence natId ((PersistentMap.empty 0).Add natId 7 1) 7 2 1 (by decide)
    (by decide)

theorem C5_noop_insert_witness :
    (((PersistentMap.empty 0 : PersistentMap Nat Nat).Add natId 3 5).Add natId 3 5).tree =
      ((PersistentMap.empty 0 : PersistentMap Nat Nat).Add natId 3 5).tree :=
  (C5_noop_insert natId ((PersistentMap.empty 0).Add natId 3 5) 3 5).1 (by decide)

theorem C6_get_other_witness :
    (((PersistentMap.empty 0 : PersistentMap Nat Nat).Add natId 3 9).Add natId 5 4).Get
        natId 3 =
      ((PersistentMap.empty 0 : PersistentMap Nat Nat).Add natId 3 9).Get natId 3 :=
  C6_get_other natId ((PersistentMap.empty 0).Add natId 3 9) 5 3 4
    (WfM_of_Built natId (Built.add _ 3 9 (Built.empty 0))) (by decide)

theorem C9_structural_invariant_witness :
    (FocusedTree.mk ((3 : Nat), (9 : Nat)) 3 none []).length ≤ 32 :=
  (C9_structural_invariant natId ((PersistentMap.empty 0).Add natId 3 9)
    (Built.add _ 3 9 (Built.empty 0)) (FocusedTree.mk (3, 9) 3 none [])
    (FocusedTree.mk (3, 9) 3 none []) (by rfl) (NodeIn.refl _)).1

theorem C10_increment_past_end_witness :
    iterNext (iterEnd (0 : Nat) : Iter Nat Nat) = iterEnd 0 ∧
    (iterNext (iterEnd (0 : Nat) : Iter Nat Nat)).isEnd = true :=
  C10_increment_past_end (iterEnd 0) rfl

theorem C7_iteration_order_witness :
    (pmSeq 3 ((PersistentMap.empty 0 : PersistentMap Nat Nat).Add natId 3 5)).Pairwise
      (fun a b => posLt (posOf natId a.1) (posOf natId b.1)) :=
  C7_iteration_order natId ((PersistentMap.empty 0).Add natId 3 5)
    (WfM_of_Built natId (Built.add _ 3 5 (Built.empty 0))) 3

theorem C3_equality_coherence_witness :
    pmEq ((PersistentMap.empty 0 : PersistentMap Nat Nat).Add natId 7 2)
      ((PersistentMap.empty 0).Add natId 7 2) = true :=
  (C3_equality_coherence natId ((PersistentMap.empty 0).Add natId 7 2)
      ((PersistentMap.empty 0).Add natId 7 2)
      (WfM_of_Built natId (Built.add _ 7 2 (Built.empty 0)))
      (WfM_of_Built natId (Built.add _ 7 2 (Built.empty 0))) rfl).mpr
    (fun _ => rfl)

end V8
